import Mathlib

/-!
# Snake (MarcoXerox/Snake, `main.cpp`): a shallow embedding

The game keeps every coordinate in an `sf::Vector2f`, a pair of single-precision
(binary32) numbers.  A `float` is embedded as the rational number it denotes,
and `Float32.round` is the rounding every single-precision operation ends in
(to nearest, ties to even).

The geometry (`bounded`, `FloatRect.intersects`, `FloatRect.translate`) rounds
where SFML rounds.  The methods of `Snake` and `FoodCollection` that compute
coordinates come twice: `construct32`, `move32`, `extend32`, `migrate32`, ...
round every sum, difference and product as the machine does, while `construct`,
`move`, `extend`, `migrate`, ... compute in exact arithmetic.  The two agree
wherever every intermediate value is a single-precision number, as on the
shipped 800 x 600 board with segment size 20 (`Snake.run32_eq_run`).

`std::vector` is a `List`.  An operation whose C++ text reads or writes outside
a vector (undefined behaviour) returns `none`.
-/

namespace SnakeGame

/-! ## Single-precision arithmetic -/

namespace Float32

/-- Rounding a rational to the nearest integer, ties to the even one. -/
def roundHalfEven (x : ℚ) : ℤ :=
  if x - (⌊x⌋ : ℚ) < 1 / 2 then ⌊x⌋
  else if 1 / 2 < x - (⌊x⌋ : ℚ) then ⌊x⌋ + 1
  else if ⌊x⌋ % 2 = 0 then ⌊x⌋ else ⌊x⌋ + 1

/-- The number of halvings that bring `n` below 2 (the binary logarithm of a
positive `n`, rounded down), at most `fuel` of them. -/
def log2Fuel : Nat → Nat → Nat
  | 0, _ => 0
  | fuel + 1, n => if 2 ≤ n then log2Fuel fuel (n / 2) + 1 else 0

/-- The exponent `e` with `2^e <= |q| < 2^(e+1)` of a non-zero `q`: the
difference of the logarithms of numerator and denominator, or one less. -/
def binade (q : ℚ) : ℤ :=
  if (2 : ℚ) ^ ((log2Fuel q.num.natAbs q.num.natAbs : ℤ) - (log2Fuel q.den q.den : ℤ)) ≤ |q|
  then (log2Fuel q.num.natAbs q.num.natAbs : ℤ) - (log2Fuel q.den q.den : ℤ)
  else (log2Fuel q.num.natAbs q.num.natAbs : ℤ) - (log2Fuel q.den q.den : ℤ) - 1

/-- The exponent of the spacing of the single-precision numbers around `q`: 23
below the binade of `q` (a significand of 24 bits), and `-149` in the subnormal
range below `2^-126`. -/
def ulpExponent (q : ℚ) : ℤ := max (binade q) (-126) - 23

/-- The single-precision number a result `q` of the finite range is rounded to:
the nearest multiple of the spacing around `q`, ties to the even multiple.
Infinities are not embedded: a result of magnitude `2^128` or more (an
overflow) is rounded like any other. -/
def round (q : ℚ) : ℚ :=
  (roundHalfEven (q / (2 : ℚ) ^ ulpExponent q) : ℚ) * (2 : ℚ) ^ ulpExponent q

/-- The sum `a + b` of two `float`s. -/
def add (a b : ℚ) : ℚ := round (a + b)

/-- The difference `a - b` of two `float`s. -/
def sub (a b : ℚ) : ℚ := round (a - b)

/-- The product `a * b` of two `float`s. -/
def mul (a b : ℚ) : ℚ := round (a * b)

/-- The quotient `a / b` of two `float`s. -/
def div (a b : ℚ) : ℚ := round (a / b)

/-- The conversion of an `unsigned int` to `float`. -/
def ofNat (n : Nat) : ℚ := round (n : ℚ)

end Float32

/-! ## Vectors, rectangles and shapes (the parts of SFML the game uses) -/

/-- The pair `sf::Vector2f`. -/
structure Vector2f where
  x : ℚ
  y : ℚ
deriving DecidableEq, Repr

namespace Vector2f

instance : Add Vector2f := ⟨fun a b => ⟨a.x + b.x, a.y + b.y⟩⟩
instance : Sub Vector2f := ⟨fun a b => ⟨a.x - b.x, a.y - b.y⟩⟩
instance : HMul Vector2f ℚ Vector2f := ⟨fun a k => ⟨a.x * k, a.y * k⟩⟩
instance : HMul ℚ Vector2f Vector2f := ⟨fun k a => ⟨a.x * k, a.y * k⟩⟩
/-- The unary `operator-` of `sf::Vector2f`. -/
instance : Neg Vector2f := ⟨fun a => ⟨-a.x, -a.y⟩⟩

/-- The default-constructed `sf::Vector2f()`. -/
def zero : Vector2f := ⟨0, 0⟩

/-- The `operator+` of `sf::Vector2f` in single precision. -/
def add32 (a b : Vector2f) : Vector2f := ⟨Float32.add a.x b.x, Float32.add a.y b.y⟩

/-- The `operator-` of `sf::Vector2f` in single precision. -/
def sub32 (a b : Vector2f) : Vector2f := ⟨Float32.sub a.x b.x, Float32.sub a.y b.y⟩

/-- The `operator*(Vector2f, float)` in single precision. -/
def mul32 (a : Vector2f) (k : ℚ) : Vector2f := ⟨Float32.mul a.x k, Float32.mul a.y k⟩

/-- The `operator*(float, Vector2f)` in single precision. -/
def smul32 (k : ℚ) (a : Vector2f) : Vector2f := ⟨Float32.mul a.x k, Float32.mul a.y k⟩

end Vector2f

/-- The constant `UP(0, -1)`. -/
def UP : Vector2f := ⟨0, -1⟩
/-- The constant `LEFT(-1, 0)`. -/
def LEFT : Vector2f := ⟨-1, 0⟩
/-- The constant `DOWN(0, 1)`. -/
def DOWN : Vector2f := ⟨0, 1⟩
/-- The constant `RIGHT(1, 0)`. -/
def RIGHT : Vector2f := ⟨1, 0⟩

/-- The screen size `sf::Vector2u`. -/
structure Vector2u where
  x : Nat
  y : Nat
deriving DecidableEq, Repr

/-- The function `bounded(lo, t, hi)`: `lo <= t and t <= hi`, the two unsigned
bounds converted to `float`, the type of `t`. -/
def bounded (lo : Nat) (t : ℚ) (hi : Nat) : Bool :=
  decide (Float32.ofNat lo ≤ t) && decide (t ≤ Float32.ofNat hi)

/-- The keys of `sf::Keyboard::Key` the game tells apart; every other key code
is `other`. -/
inductive Key where
  | W
  | A
  | S
  | D
  | Space
  | other (code : Nat)
deriving DecidableEq, Repr

/-- The function `direction(code)`: the switch over the key. -/
def direction : Key → Vector2f
  | Key.W => UP
  | Key.A => LEFT
  | Key.S => DOWN
  | Key.D => RIGHT
  | _ => Vector2f.zero

/-- The rectangle `sf::FloatRect`. -/
structure FloatRect where
  left : ℚ
  top : ℚ
  width : ℚ
  height : ℚ
deriving DecidableEq, Repr

/-- SFML 2 `Rect<T>::intersects`: the two rectangles, negative extents allowed,
overlap in a region of non-zero area.  The far edges `left + width` and
`top + height` are single-precision sums. -/
def FloatRect.intersects (a b : FloatRect) : Bool :=
  let r1MinX := min a.left (Float32.add a.left a.width)
  let r1MaxX := max a.left (Float32.add a.left a.width)
  let r1MinY := min a.top (Float32.add a.top a.height)
  let r1MaxY := max a.top (Float32.add a.top a.height)
  let r2MinX := min b.left (Float32.add b.left b.width)
  let r2MaxX := max b.left (Float32.add b.left b.width)
  let r2MinY := min b.top (Float32.add b.top b.height)
  let r2MaxY := max b.top (Float32.add b.top b.height)
  let interLeft := max r1MinX r2MinX
  let interTop := max r1MinY r2MinY
  let interRight := min r1MaxX r2MaxX
  let interBottom := min r1MaxY r2MaxY
  decide (interLeft < interRight) && decide (interTop < interBottom)

/-- SFML `Transform::transformRect` for a shape that is only translated by its
position `p` (the game never sets an origin, a rotation or a scale, so the
matrix is the identity plus the translation).  The corners `left`,
`left + width`, `top`, `top + height` are transformed, each by one
single-precision sum, and the result is their bounding box, with width
`right - left` and height `bottom - top` computed in single precision. -/
def FloatRect.translate (r : FloatRect) (p : Vector2f) : FloatRect :=
  let x0 := Float32.add r.left p.x
  let x1 := Float32.add (Float32.add r.left r.width) p.x
  let y0 := Float32.add r.top p.y
  let y1 := Float32.add (Float32.add r.top r.height) p.y
  ⟨min x0 x1, min y0 y1, Float32.sub (max x0 x1) (min x0 x1), Float32.sub (max y0 y1) (min y0 y1)⟩

/-- The shape `sf::RectangleShape`, as far as the game reads it: its size and
its position (the fill colour plays no part in the simulation). -/
structure RectangleShape where
  size : Vector2f
  position : Vector2f
deriving DecidableEq, Repr

namespace RectangleShape

/-- The default-constructed `sf::RectangleShape()`: size and position zero. -/
def default : RectangleShape := ⟨Vector2f.zero, Vector2f.zero⟩

/-- The call `setPosition(p)`. -/
def setPosition (r : RectangleShape) (p : Vector2f) : RectangleShape :=
  { r with position := p }

/-- The call `setSize(sz)`. -/
def setSize (r : RectangleShape) (sz : Vector2f) : RectangleShape :=
  { r with size := sz }

/-- The call `move(offset)`, in exact arithmetic. -/
def move (r : RectangleShape) (offset : Vector2f) : RectangleShape :=
  { r with position := r.position + offset }

/-- The call `move(offset)`: `setPosition(m_position.x + offset.x,
m_position.y + offset.y)`, two single-precision sums. -/
def move32 (r : RectangleShape) (offset : Vector2f) : RectangleShape :=
  { r with position := r.position.add32 offset }

/-- SFML `getLocalBounds` of a rectangle without outline: the bounding box of
its four corners `(0,0)`, `(w,0)`, `(w,h)`, `(0,h)`, with width `right - left`
and height `bottom - top` computed in single precision. -/
def getLocalBounds (r : RectangleShape) : FloatRect :=
  ⟨min 0 r.size.x, min 0 r.size.y,
   Float32.sub (max 0 r.size.x) (min 0 r.size.x), Float32.sub (max 0 r.size.y) (min 0 r.size.y)⟩

/-- SFML `getGlobalBounds`. -/
def getGlobalBounds (r : RectangleShape) : FloatRect :=
  r.getLocalBounds.translate r.position

end RectangleShape

/-- The shape `sf::CircleShape`, as far as the game reads it: its radius and its
position (the top-left corner of the box the circle is drawn in). -/
structure CircleShape where
  radius : ℚ
  position : Vector2f
deriving DecidableEq, Repr

/-- SFML `getLocalBounds` of a circle of a given radius.  SFML computes it as
the bounding box of a 30-point polygon laid out with single-precision sines and
cosines, so the embedding takes it as a parameter `lb` of every function that
tests a collision.  `exactCircleBounds` is the box of the exact circle. -/
def exactCircleBounds (radius : ℚ) : FloatRect :=
  ⟨0, 0, radius * 2, radius * 2⟩

/-- SFML `getGlobalBounds` of the circle, for local bounds `lb`. -/
def CircleShape.getGlobalBounds (lb : ℚ → FloatRect) (c : CircleShape) : FloatRect :=
  (lb c.radius).translate c.position

/-! ## class Snake -/

/-- The members of `class Snake`: `head`, `dirs`, `body`. -/
structure Snake where
  head : CircleShape
  dirs : List Vector2f
  body : List RectangleShape
deriving DecidableEq, Repr

/-- Reading `v[i]` for a signed offset `i` from `begin()`: `none` when the
offset lies outside the vector. -/
def readAt {α : Type} (v : List α) (i : Int) : Option α :=
  if 0 ≤ i then v[i.toNat]? else none

namespace Snake

/-- The loop of the constructor over `body` in exact arithmetic:
`pos += (0, size)`, then the part gets size `(size, size)` and position
`pos`. -/
def placeBody (size : ℚ) : Vector2f → Nat → List RectangleShape
  | _, 0 => []
  | pos, n + 1 =>
    let pos1 := pos + ⟨0, size⟩
    ⟨⟨size, size⟩, pos1⟩ :: placeBody size pos1 n

/-- The constructor `Snake(scr, size, length)` in exact arithmetic.  The head
has radius `size / 2.0f` and sits at `(scr.x / 2.0f, scr.y / 4.0f - radius)`;
`dirs` holds `length + 1` copies of `UP`; the body has `length` parts.
(`length + 1` is an `unsigned int` sum that wraps only for a body of `2^32 - 1`
shapes, which no machine allocates; `length` is a natural number here.) -/
def construct (scr : Vector2u) (size : ℚ) (length : Nat) : Snake :=
  let radius := size / 2
  let pos : Vector2f := ⟨(scr.x : ℚ) / 2, (scr.y : ℚ) / 4 - radius⟩
  { head := ⟨radius, pos⟩
    dirs := List.replicate (length + 1) UP
    body := placeBody size pos length }

/-- The loop of the constructor over `body` in single precision:
`pos += sf::Vector2f(0, size)` is a sum in each component. -/
def placeBody32 (size : ℚ) : Vector2f → Nat → List RectangleShape
  | _, 0 => []
  | pos, n + 1 =>
    ⟨⟨size, size⟩, pos.add32 ⟨0, size⟩⟩ :: placeBody32 size (pos.add32 ⟨0, size⟩) n

/-- The constructor `Snake(scr, size, length)` as the machine computes it, for a
`float` argument `size`: the radius is the quotient `size / 2.0f`, the
components of `scr` are converted to `float`, and `scr.x / 2.0f`,
`scr.y / 4.0f` and the difference `scr.y / 4.0f - head.getRadius()` are
single-precision operations. -/
def construct32 (scr : Vector2u) (size : ℚ) (length : Nat) : Snake :=
  { head := ⟨Float32.div size 2,
      ⟨Float32.div (Float32.ofNat scr.x) 2,
       Float32.sub (Float32.div (Float32.ofNat scr.y) 4) (Float32.div size 2)⟩⟩
    dirs := List.replicate (length + 1) UP
    body := placeBody32 size
      ⟨Float32.div (Float32.ofNat scr.x) 2,
       Float32.sub (Float32.div (Float32.ofNat scr.y) 4) (Float32.div size 2)⟩ length }

/-- The method `size()` in exact arithmetic: `head.getRadius() * 2.0f`. -/
def size (s : Snake) : ℚ := s.head.radius * 2

/-- The method `size()`: the single-precision product
`head.getRadius() * 2.0f`. -/
def size32 (s : Snake) : ℚ := Float32.mul s.head.radius 2

/-- The method `length()`. -/
def length (s : Snake) : Nat := s.body.length

/-- The method `isCollided(x)`: the head's global bounds intersect those of
`x`. -/
def isCollided (lb : ℚ → FloatRect) (s : Snake) (x : RectangleShape) : Bool :=
  (s.head.getGlobalBounds lb).intersects x.getGlobalBounds

/-- The method `isAlive(scr)`.  The loop starts at `body.begin() + 1`, which is
no iterator of an empty body: `none`. -/
def isAlive (lb : ℚ → FloatRect) (s : Snake) (scr : Vector2u) : Option Bool :=
  match s.body with
  | [] => none
  | _ :: rest =>
    if rest.any (fun part => s.isCollided lb part) then some false
    else
      let pos := s.head.position
      some (bounded 0 pos.x scr.x && bounded 0 pos.y scr.y)

/-- The method `turn(dir)`: `dirs.back() = dir`; `none` on an empty `dirs`. -/
def turn (s : Snake) (dir : Vector2f) : Option Snake :=
  match s.dirs with
  | [] => none
  | _ :: _ => some { s with dirs := s.dirs.set (s.dirs.length - 1) dir }

/-- The loop of `move` over `body` in exact arithmetic: each part reads
`*(--it)`, where `it` is the offset of the iterator from `dirs.begin()`, and
moves by that times `size()`. -/
def moveParts (dirs : List Vector2f) (size : ℚ) : Int → List RectangleShape →
    Option (List RectangleShape)
  | _, [] => some []
  | it, part :: rest =>
    match readAt dirs (it - 1), moveParts dirs size (it - 1) rest with
    | some d, some rest1 => some (part.move (d * size) :: rest1)
    | _, _ => none

/-- The method `move()` in exact arithmetic: the head moves by
`*(--it) * size()` with `it` starting at `dirs.end()`, every part by the entry
before the one of its predecessor, and `dirs.back()` is pushed once more. -/
def move (s : Snake) : Option Snake :=
  let it : Int := s.dirs.length
  match readAt s.dirs (it - 1), moveParts s.dirs s.size (it - 1) s.body with
  | some d, some body1 =>
    some { head := { s.head with position := s.head.position + d * s.size }
           dirs := s.dirs ++ [d]
           body := body1 }
  | _, _ => none

/-- The method `extend()` in exact arithmetic: the new part goes to
`body.back().getPosition() - size() * dirs.end()[-2 - body.size()]`; `none`
when the body is empty or the offset falls outside `dirs`. -/
def extend (s : Snake) : Option Snake :=
  match s.body.getLast?, readAt s.dirs ((s.dirs.length : Int) - 2 - s.body.length) with
  | some tail, some d =>
    let pos := tail.position - s.size * d
    some { s with body := s.body ++ [(⟨⟨s.size, s.size⟩, Vector2f.zero⟩ :
      RectangleShape).setPosition pos] }
  | _, _ => none

/-- The loop of `move` over `body` as the machine computes it: the offset
`*(--it) * size()` is a product in each component, and `part.move` adds it to
the position in single precision. -/
def moveParts32 (dirs : List Vector2f) (size : ℚ) : Int → List RectangleShape →
    Option (List RectangleShape)
  | _, [] => some []
  | it, part :: rest =>
    match readAt dirs (it - 1), moveParts32 dirs size (it - 1) rest with
    | some d, some rest1 => some (part.move32 (d.mul32 size) :: rest1)
    | _, _ => none

/-- The method `move()` as the machine computes it: `head.move(*(--it) *
size())` is a single-precision product followed by a single-precision sum in
each component, and so is the move of every part. -/
def move32 (s : Snake) : Option Snake :=
  let it : Int := s.dirs.length
  match readAt s.dirs (it - 1), moveParts32 s.dirs s.size32 (it - 1) s.body with
  | some d, some body1 =>
    some { head := { s.head with position := s.head.position.add32 (d.mul32 s.size32) }
           dirs := s.dirs ++ [d]
           body := body1 }
  | _, _ => none

/-- The method `extend()` as the machine computes it: the product
`size() * dirs.end()[-2 - body.size()]` and the difference from
`body.back().getPosition()` are single-precision operations. -/
def extend32 (s : Snake) : Option Snake :=
  match s.body.getLast?, readAt s.dirs ((s.dirs.length : Int) - 2 - s.body.length) with
  | some tail, some d =>
    let pos := tail.position.sub32 (Vector2f.smul32 s.size32 d)
    some { s with body := s.body ++ [(⟨⟨s.size32, s.size32⟩, Vector2f.zero⟩ :
      RectangleShape).setPosition pos] }
  | _, _ => none

end Snake

/-! ## Sequences of calls on a snake -/

/-- One call on a snake: `turn(dir)`, `move()` (the spec's `step()`) or
`extend()` (the spec's `grow()`). -/
inductive Op where
  | turn (dir : Vector2f)
  | step
  | grow
deriving DecidableEq, Repr

namespace Snake

/-- The effect of one call in exact arithmetic. -/
def apply (s : Snake) : Op → Option Snake
  | Op.turn dir => s.turn dir
  | Op.step => s.move
  | Op.grow => s.extend

/-- The effect of a sequence of calls in exact arithmetic, first call first. -/
def run : List Op → Snake → Option Snake
  | [], s => some s
  | op :: ops, s =>
    match s.apply op with
    | some s1 => run ops s1
    | none => none

/-- The ticks of a sequence of calls in exact arithmetic: for each `move()` in
it, in order, the snake before the call and the snake after it. -/
def ticks : List Op → Snake → Option (List (Snake × Snake))
  | [], _ => some []
  | Op.step :: ops, s =>
    match s.move with
    | some s1 =>
      match ticks ops s1 with
      | some tr => some ((s, s1) :: tr)
      | none => none
    | none => none
  | op :: ops, s =>
    match s.apply op with
    | some s1 => ticks ops s1
    | none => none

/-- The effect of one call as the machine computes it. -/
def apply32 (s : Snake) : Op → Option Snake
  | Op.turn dir => s.turn dir
  | Op.step => s.move32
  | Op.grow => s.extend32

/-- The effect of a sequence of calls as the machine computes it, first call
first. -/
def run32 : List Op → Snake → Option Snake
  | [], s => some s
  | op :: ops, s =>
    match s.apply32 op with
    | some s1 => run32 ops s1
    | none => none

/-- The ticks of a sequence of calls as the machine computes them: for each
`move()` in it, in order, the snake before the call and the snake after it. -/
def ticks32 : List Op → Snake → Option (List (Snake × Snake))
  | [], _ => some []
  | Op.step :: ops, s =>
    match s.move32 with
    | some s1 =>
      match ticks32 ops s1 with
      | some tr => some ((s, s1) :: tr)
      | none => none
    | none => none
  | op :: ops, s =>
    match s.apply32 op with
    | some s1 => ticks32 ops s1
    | none => none

end Snake

/-- Every `grow` of the sequence comes directly after a `step`; `prev` tells
whether the call before the sequence was a `step`. -/
def growsFollowSteps : Bool → List Op → Bool
  | _, [] => true
  | prev, Op.grow :: ops => prev && growsFollowSteps false ops
  | _, Op.step :: ops => growsFollowSteps true ops
  | _, Op.turn _ :: ops => growsFollowSteps false ops

/-! ## class FoodCollection -/

/-- The conversion `static_cast<unsigned int>(t)` of a float that is not below
`-1` and fits: the fraction is dropped. -/
def toUnsigned (t : ℚ) : Nat := ⌊t⌋.toNat

/-- The test `sqrt(diff.x * diff.x + diff.y * diff.y) <= threshold` of
`too_close`, in exact arithmetic: a square root is at most `threshold` when
`threshold` is not negative and the radicand is at most its square. -/
def normLE (diff : Vector2f) (threshold : ℚ) : Bool :=
  decide (0 ≤ threshold) && decide (diff.x * diff.x + diff.y * diff.y ≤ threshold * threshold)

/-- The loop of `too_close` from the iterator at offset `it` on, over the
remaining items; `cur` is the offset of the item under test and `curPos` its
position. -/
def too_closeFrom (cur : Nat) (curPos : Vector2f) (threshold : ℚ) :
    Nat → List RectangleShape → Bool
  | _, [] => false
  | it, item :: rest =>
    if it = cur then too_closeFrom cur curPos threshold (it + 1) rest
    else if normLE (item.position - curPos) threshold then true
    else too_closeFrom cur curPos threshold (it + 1) rest

/-- The method `too_close(cur, threshold)`; `cur` is the offset of the iterator
in `foods`, which the callers take from a loop over `foods`. -/
def too_close (foods : List RectangleShape) (cur : Nat) (threshold : ℚ) : Bool :=
  match foods[cur]? with
  | none => false
  | some c => too_closeFrom cur c.position threshold 0 foods

/-- The method `migrate(it, size)` in exact arithmetic: the do-while loop.  Each
round draws two samples of `dist(gen)`, first for `x`, then for `y`.  The list
holds the samples the generator will produce; `none` when the loop is still
running after the last of them (or `it` is no iterator of `foods`). -/
def migrate (range : Vector2u) (it : Nat) (size : ℚ) :
    List RectangleShape → List ℚ → Option (List RectangleShape × List ℚ)
  | foods, u :: v :: rest =>
    match foods[it]? with
    | none => none
    | some item =>
      let x := size * (toUnsigned (u * (range.x : ℚ)) : ℚ)
      let y := size * (toUnsigned (v * (range.y : ℚ)) : ℚ)
      let foods1 := foods.set it (item.setPosition ⟨x, y⟩)
      if too_close foods1 it (size * 4) then migrate range it size foods1 rest
      else some (foods1, rest)
  | _, _ => none

/-- The loop of the constructor of `FoodCollection` from the iterator at offset
`it` on, with `n` items still to visit: `setSize`, then `migrate`. -/
def placeFoods (range : Vector2u) (size : ℚ) :
    Nat → Nat → List RectangleShape → List ℚ → Option (List RectangleShape × List ℚ)
  | 0, _, foods, gen => some (foods, gen)
  | n + 1, it, foods, gen =>
    match foods[it]? with
    | none => none
    | some item =>
      match migrate range it size (foods.set it (item.setSize ⟨size, size⟩)) gen with
      | none => none
      | some (foods1, gen1) => placeFoods range size n (it + 1) foods1 gen1

/-- The loop of `too_close` as the machine computes it.  The difference
`it->getPosition() - cur->getPosition()` is taken in single precision; the test
`sqrt(diff.x * diff.x + diff.y * diff.y) <= threshold` on it, which goes
through the square root of the C library, is the parameter `nle`. -/
def too_closeFrom32 (nle : Vector2f → ℚ → Bool) (cur : Nat) (curPos : Vector2f) (threshold : ℚ) :
    Nat → List RectangleShape → Bool
  | _, [] => false
  | it, item :: rest =>
    if it = cur then too_closeFrom32 nle cur curPos threshold (it + 1) rest
    else if nle (item.position.sub32 curPos) threshold then true
    else too_closeFrom32 nle cur curPos threshold (it + 1) rest

/-- The method `too_close(cur, threshold)` as the machine computes it. -/
def too_close32 (nle : Vector2f → ℚ → Bool) (foods : List RectangleShape) (cur : Nat)
    (threshold : ℚ) : Bool :=
  match foods[cur]? with
  | none => false
  | some c => too_closeFrom32 nle cur c.position threshold 0 foods

/-- The method `migrate(it, size)` as the machine computes it.  In
`size * static_cast<unsigned int>(dist(gen) * range.x)` the component of
`range` is converted to `float`, the product with the sample is a
single-precision product, its integer part is converted back to `float` and
multiplied by `size` in single precision; the threshold is the single-precision
product `size * 4.0f`. -/
def migrate32 (nle : Vector2f → ℚ → Bool) (range : Vector2u) (it : Nat) (size : ℚ) :
    List RectangleShape → List ℚ → Option (List RectangleShape × List ℚ)
  | foods, u :: v :: rest =>
    match foods[it]? with
    | none => none
    | some item =>
      let x := Float32.mul size (Float32.ofNat (toUnsigned (Float32.mul u (Float32.ofNat range.x))))
      let y := Float32.mul size (Float32.ofNat (toUnsigned (Float32.mul v (Float32.ofNat range.y))))
      let foods1 := foods.set it (item.setPosition ⟨x, y⟩)
      if too_close32 nle foods1 it (Float32.mul size 4) then
        migrate32 nle range it size foods1 rest
      else some (foods1, rest)
  | _, _ => none

/-- The loop of the constructor of `FoodCollection` as the machine computes
it. -/
def placeFoods32 (nle : Vector2f → ℚ → Bool) (range : Vector2u) (size : ℚ) :
    Nat → Nat → List RectangleShape → List ℚ → Option (List RectangleShape × List ℚ)
  | 0, _, foods, gen => some (foods, gen)
  | n + 1, it, foods, gen =>
    match foods[it]? with
    | none => none
    | some item =>
      match migrate32 nle range it size (foods.set it (item.setSize ⟨size, size⟩)) gen with
      | none => none
      | some (foods1, gen1) => placeFoods32 nle range size n (it + 1) foods1 gen1

/-- The members of `class FoodCollection`: `foods`, `gen` (the samples it will
still produce) and `range`. -/
structure FoodCollection where
  foods : List RectangleShape
  gen : List ℚ
  range : Vector2u
deriving DecidableEq, Repr

namespace FoodCollection

/-- The constructor `FoodCollection(scr, size, amount)` on a generator that
will produce `samples`: `amount` default shapes, `range = scr / unsigned(size)`
(no result when the divisor is zero), then the placement loop. -/
def construct (scr : Vector2u) (size : ℚ) (amount : Nat) (samples : List ℚ) :
    Option FoodCollection :=
  let divisor := toUnsigned size
  if divisor = 0 then none
  else
    let range : Vector2u := ⟨scr.x / divisor, scr.y / divisor⟩
    match placeFoods range size amount 0 (List.replicate amount RectangleShape.default) samples with
    | none => none
    | some (foods, gen) => some ⟨foods, gen, range⟩

/-- The search of `isEaten`: the offset of the first item, from offset `it` on,
that the head collides with. -/
def firstCollided (lb : ℚ → FloatRect) (snake : Snake) : Nat → List RectangleShape → Option Nat
  | _, [] => none
  | it, item :: rest =>
    if snake.isCollided lb item then some it else firstCollided lb snake (it + 1) rest

/-- The method `isEaten(snake)`: the first item the head collides with migrates
with `snake.size()` and the result is `true`; without such an item the result is
`false`.  The result is `none` when `migrate` has none. -/
def isEaten (lb : ℚ → FloatRect) (fc : FoodCollection) (snake : Snake) :
    Option (Bool × FoodCollection) :=
  match firstCollided lb snake 0 fc.foods with
  | none => some (false, fc)
  | some it =>
    match migrate fc.range it snake.size fc.foods fc.gen with
    | none => none
    | some (foods1, gen1) => some (true, { fc with foods := foods1, gen := gen1 })

/-- The constructor `FoodCollection(scr, size, amount)` as the machine computes
it, for a `float` argument `size`. -/
def construct32 (nle : Vector2f → ℚ → Bool) (scr : Vector2u) (size : ℚ) (amount : Nat)
    (samples : List ℚ) : Option FoodCollection :=
  let divisor := toUnsigned size
  if divisor = 0 then none
  else
    let range : Vector2u := ⟨scr.x / divisor, scr.y / divisor⟩
    match placeFoods32 nle range size amount 0 (List.replicate amount RectangleShape.default)
      samples with
    | none => none
    | some (foods, gen) => some ⟨foods, gen, range⟩

/-- The method `isEaten(snake)` as the machine computes it: `migrate` is called
with the single-precision `snake.size()`. -/
def isEaten32 (lb : ℚ → FloatRect) (nle : Vector2f → ℚ → Bool) (fc : FoodCollection)
    (snake : Snake) : Option (Bool × FoodCollection) :=
  match firstCollided lb snake 0 fc.foods with
  | none => some (false, fc)
  | some it =>
    match migrate32 nle fc.range it snake.size32 fc.foods fc.gen with
    | none => none
    | some (foods1, gen1) => some (true, { fc with foods := foods1, gen := gen1 })

end FoodCollection

/-! ## class Game -/

/-- The events of `sf::Event` the loop tells apart. -/
inductive Event where
  | Closed
  | KeyPressed (code : Key)
  | other
deriving DecidableEq, Repr

/-- The members of `class Game` that the simulation reads: the window size, the
snake, the foods and `isPaused`. -/
structure Game where
  scr : Vector2u
  snake : Snake
  foods : FoodCollection
  isPaused : Bool
deriving DecidableEq, Repr

/-- What one pass through the loop of `Game::run` ends in. -/
inductive Outcome where
  /-- The pass completed with this state. -/
  | next (g : Game)
  /-- A `Closed` event: `run` returns 0. -/
  | closed
  /-- The snake is not alive: the loop is left. -/
  | over (g : Game)
  /-- A read outside a vector. -/
  | outOfRange
  /-- The loop of `migrate` is still running after the last sample. -/
  | starved
deriving DecidableEq, Repr

namespace Game

/-- The constructor `Game(width, height, snake_length, food_qty, size)` (the
font is taken to load). -/
def construct (width height snake_length food_qty : Nat) (size : ℚ) (samples : List ℚ) :
    Option Game :=
  match FoodCollection.construct ⟨width, height⟩ size food_qty samples with
  | none => none
  | some foods =>
    some ⟨⟨width, height⟩, Snake.construct ⟨width, height⟩ size snake_length, foods, true⟩

/-- The inner loop `while (window.pollEvent(event))` over the events of one
frame. -/
def pollEvents : List Event → Game → Outcome
  | [], g => Outcome.next g
  | Event.Closed :: _, _ => Outcome.closed
  | Event.KeyPressed Key.Space :: events, g =>
    pollEvents events { g with isPaused := xor g.isPaused true }
  | Event.KeyPressed code :: events, g =>
    match g.snake.turn (direction code) with
    | none => Outcome.outOfRange
    | some snake1 => pollEvents events { g with snake := snake1 }
  | Event.other :: events, g => pollEvents events g

/-- The body of the loop of `run` once the events are handled, in exact
arithmetic: `move()` unless paused, then `isEaten`, then `extend()` when it
returned `true`. -/
def simulate (lb : ℚ → FloatRect) (g : Game) : Outcome :=
  match (if g.isPaused then some g.snake else g.snake.move) with
  | none => Outcome.outOfRange
  | some snake1 =>
    match g.foods.isEaten lb snake1 with
    | none => Outcome.starved
    | some (false, foods1) => Outcome.next { g with snake := snake1, foods := foods1 }
    | some (true, foods1) =>
      match snake1.extend with
      | none => Outcome.outOfRange
      | some snake2 => Outcome.next { g with snake := snake2, foods := foods1 }

/-- One pass through the body of the loop of `run` in exact arithmetic, for the
events of the frame. -/
def frame (lb : ℚ → FloatRect) (events : List Event) (g : Game) : Outcome :=
  match pollEvents events g with
  | Outcome.next g1 => simulate lb g1
  | o => o

/-- The body of the loop of `run` once the events are handled, as the machine
computes it: `move()` unless paused, then `isEaten`, then `extend()` when it
returned `true`, each in single precision. -/
def simulate32 (lb : ℚ → FloatRect) (nle : Vector2f → ℚ → Bool) (g : Game) : Outcome :=
  match (if g.isPaused then some g.snake else g.snake.move32) with
  | none => Outcome.outOfRange
  | some snake1 =>
    match g.foods.isEaten32 lb nle snake1 with
    | none => Outcome.starved
    | some (false, foods1) => Outcome.next { g with snake := snake1, foods := foods1 }
    | some (true, foods1) =>
      match snake1.extend32 with
      | none => Outcome.outOfRange
      | some snake2 => Outcome.next { g with snake := snake2, foods := foods1 }

/-- One pass through the body of the loop of `run` as the machine computes it,
for the events of the frame. -/
def frame32 (lb : ℚ → FloatRect) (nle : Vector2f → ℚ → Bool) (events : List Event)
    (g : Game) : Outcome :=
  match pollEvents events g with
  | Outcome.next g1 => simulate32 lb nle g1
  | o => o

/-- The method `run()`, for the events of the frames to come (the window stays
open until a `Closed` event). -/
def run (lb : ℚ → FloatRect) : List (List Event) → Game → Outcome
  | [], g => Outcome.next g
  | events :: frames, g =>
    match g.snake.isAlive lb g.scr with
    | none => Outcome.outOfRange
    | some false => Outcome.over g
    | some true =>
      match frame lb events g with
      | Outcome.next g1 => run lb frames g1
      | o => o

end Game

end SnakeGame

/-! ## Notions the properties are stated with -/

namespace SnakeGame

/-- The Euclidean distance between two positions is exactly `r`. -/
def DistanceIs (a b : Vector2f) (r : ℚ) : Prop :=
  Real.sqrt (((a.x - b.x : ℚ) : ℝ) ^ 2 + ((a.y - b.y : ℚ) : ℝ) ^ 2) = (r : ℝ)

/-- One of the four unit directions `UP`, `LEFT`, `DOWN`, `RIGHT`. -/
def IsUnitDirection (d : Vector2f) : Prop :=
  d = UP ∨ d = LEFT ∨ d = DOWN ∨ d = RIGHT

/-- The body is a connected chain: part 0, moved by `size()` times the history
entry it reads at the next `move`, lands where the head is now, and every later
part lands where the part before it is now. -/
def Snake.IsChain (s : Snake) : Prop :=
  (∀ (part : RectangleShape) (d : Vector2f), s.body[0]? = some part →
    s.dirs[s.dirs.length - 2]? = some d → part.position + d * s.size = s.head.position) ∧
  (∀ (i : Nat) (part next : RectangleShape) (d : Vector2f), s.body[i]? = some part →
    s.body[i + 1]? = some next → s.dirs[s.dirs.length - 2 - (i + 1)]? = some d →
    next.position + d * s.size = part.position)

/-- A vector `direction` returns for some key. -/
def IsKeyDirection (d : Vector2f) : Prop := ∃ code : Key, d = direction code

/-- The snake after a `move` follows the snake before it: part 0 is where the
head was, and every later part is where the part before it was. -/
def Snake.Follows (before after : Snake) : Prop :=
  (∀ part1 : RectangleShape, after.body[0]? = some part1 →
    part1.position = before.head.position) ∧
  (∀ (i : Nat) (part part1 : RectangleShape), before.body[i]? = some part →
    after.body[i + 1]? = some part1 → part1.position = part.position)

/-- A multiple of `1/4` of magnitude at most `B / 4`.  For `B < 2^24` it is a
single-precision number. -/
def Float32.OnQuarters (B : Nat) (q : ℚ) : Prop :=
  ∃ k : ℤ, q = (k : ℚ) / 4 ∧ |k| ≤ (B : ℤ)

/-- The snake has the integer segment size `m` (its head the radius `m / 2`),
every coordinate of its head and of its parts is a multiple of `1/4` of
magnitude at most `B / 4`, and every history entry is a vector `direction`
returns for some key (one of the four unit directions, or zero). -/
def Snake.Within (m B : Nat) (s : Snake) : Prop :=
  s.head.radius = (m : ℚ) / 2 ∧
  Float32.OnQuarters B s.head.position.x ∧ Float32.OnQuarters B s.head.position.y ∧
  (∀ part ∈ s.body,
    Float32.OnQuarters B part.position.x ∧ Float32.OnQuarters B part.position.y) ∧
  (∀ d ∈ s.dirs, IsKeyDirection d)

/-- Four times a bound on the magnitude of every coordinate of the snake the
constructor builds for the screen `scr`, the integer segment size `m` and
`length` parts. -/
def Snake.reach (scr : Vector2u) (m length : Nat) : Nat :=
  2 * scr.x + scr.y + 2 * m + 4 * m * length

/-- The call is no `turn`, or a `turn` with a vector `direction` returns for
some key. -/
def Op.Keyed : Op → Prop
  | Op.turn dir => IsKeyDirection dir
  | _ => True

/-- The candidate position one round of the loop of `migrate` computes on the
machine from the two samples it draws, `u` for `x` and `v` for `y`. -/
def candidate32 (range : Vector2u) (size u v : ℚ) : Vector2f :=
  ⟨Float32.mul size (Float32.ofNat (toUnsigned (Float32.mul u (Float32.ofNat range.x)))),
   Float32.mul size (Float32.ofNat (toUnsigned (Float32.mul v (Float32.ofNat range.y))))⟩

/-- A value `dist(gen)` can return: a single-precision number in `[0, 1)`.
The largest of them is `1 - 2^-24`. -/
def IsSample32 (u : ℚ) : Prop := Float32.round u = u ∧ 0 ≤ u ∧ u < 1

/-- The food collections a game with item size `size` holds on the machine:
the one the constructor returns, and the one `isEaten` leaves behind when called
with a snake whose `size()` is the item size. -/
inductive FoodCollection.Reachable32 (lb : ℚ → FloatRect) (nle : Vector2f → ℚ → Bool)
    (scr : Vector2u) (size : ℚ) (amount : Nat) : FoodCollection → Prop where
  | constructed (samples : List ℚ) (fc : FoodCollection) :
      FoodCollection.construct32 nle scr size amount samples = some fc →
      FoodCollection.Reachable32 lb nle scr size amount fc
  | eaten (fc fc1 : FoodCollection) (snake : Snake) (b : Bool) :
      FoodCollection.Reachable32 lb nle scr size amount fc → snake.size32 = size →
      fc.isEaten32 lb nle snake = some (b, fc1) →
      FoodCollection.Reachable32 lb nle scr size amount fc1

end SnakeGame

/-! ## Basic facts -/

/-! ### Single-precision rounding -/

namespace SnakeGame

namespace Float32

theorem log2Fuel_spec : ∀ (fuel n : Nat), 0 < n → n < 2 ^ fuel →
    2 ^ log2Fuel fuel n ≤ n ∧ n < 2 ^ (log2Fuel fuel n + 1) := by
  intro fuel
  induction fuel with
  | zero =>
    intro n h0 h1
    simp at h1
    omega
  | succ f ih =>
    intro n h0 h1
    simp only [log2Fuel]
    by_cases h2 : 2 ≤ n
    · rw [if_pos h2]
      have hpos : 0 < n / 2 := Nat.div_pos h2 (by decide)
      have hlt : n / 2 < 2 ^ f := by
        rw [Nat.div_lt_iff_lt_mul (by decide)]
        rw [pow_succ] at h1
        exact h1
      obtain ⟨ha, hb⟩ := ih (n / 2) hpos hlt
      constructor
      · rw [pow_succ]
        have := Nat.div_mul_le_self n 2
        calc 2 ^ log2Fuel f (n / 2) * 2 ≤ n / 2 * 2 := Nat.mul_le_mul_right 2 ha
          _ ≤ n := this
      · rw [pow_succ]
        have : n < (n / 2 + 1) * 2 := by omega
        calc n < (n / 2 + 1) * 2 := this
          _ ≤ 2 ^ (log2Fuel f (n / 2) + 1) * 2 := Nat.mul_le_mul_right 2 hb
    · rw [if_neg h2]
      simp
      omega

theorem log2_spec (n : Nat) (h0 : 0 < n) :
    2 ^ log2Fuel n n ≤ n ∧ n < 2 ^ (log2Fuel n n + 1) :=
  log2Fuel_spec n n h0 (Nat.lt_two_pow n)

/-- The binade of a non-zero rational. -/
theorem binade_spec (q : ℚ) (hq : q ≠ 0) :
    (2 : ℚ) ^ binade q ≤ |q| ∧ |q| < (2 : ℚ) ^ (binade q + 1) := by
  have hN : 0 < q.num.natAbs := Int.natAbs_pos.mpr (Rat.num_ne_zero.mpr hq)
  have hD : 0 < q.den := q.den_pos
  obtain ⟨a1, a2⟩ := log2_spec q.num.natAbs hN
  obtain ⟨b1, b2⟩ := log2_spec q.den hD
  set a := log2Fuel q.num.natAbs q.num.natAbs with ha
  set b := log2Fuel q.den q.den with hb
  have habs : |q| = (q.num.natAbs : ℚ) / (q.den : ℚ) := by
    rw [Rat.abs_def, Rat.divInt_eq_div]
    simp [Nat.cast_natAbs]
  have hDq : (0 : ℚ) < (q.den : ℚ) := by exact_mod_cast hD
  have a1q : (2 : ℚ) ^ a ≤ (q.num.natAbs : ℚ) := by exact_mod_cast a1
  have a2q : (q.num.natAbs : ℚ) < (2 : ℚ) ^ (a + 1) := by exact_mod_cast a2
  have b1q : (2 : ℚ) ^ b ≤ (q.den : ℚ) := by exact_mod_cast b1
  have b2q : (q.den : ℚ) < (2 : ℚ) ^ (b + 1) := by exact_mod_cast b2
  have h2 : (0 : ℚ) < 2 := by norm_num
  -- upper bound: |q| < 2^(a - b + 1)
  have hup : |q| < (2 : ℚ) ^ ((a : ℤ) - (b : ℤ) + 1) := by
    rw [habs, div_lt_iff₀ hDq]
    have e1 : (2 : ℚ) ^ ((a : ℤ) - (b : ℤ) + 1) = (2 : ℚ) ^ (a + 1) / (2 : ℚ) ^ b := by
      rw [show ((a : ℤ) - (b : ℤ) + 1) = ((a + 1 : ℕ) : ℤ) - ((b : ℕ) : ℤ) by push_cast; ring,
        zpow_sub₀ (by norm_num), zpow_natCast, zpow_natCast]
    rw [e1, div_mul_eq_mul_div, lt_div_iff₀ (by positivity)]
    calc (q.num.natAbs : ℚ) * (2 : ℚ) ^ b < (2 : ℚ) ^ (a + 1) * (2 : ℚ) ^ b := by
            apply mul_lt_mul_of_pos_right a2q (by positivity)
      _ ≤ (2 : ℚ) ^ (a + 1) * (q.den : ℚ) := by
            apply mul_le_mul_of_nonneg_left b1q (by positivity)
  -- lower bound: 2^(a - b - 1) ≤ |q|
  have hlow : (2 : ℚ) ^ ((a : ℤ) - (b : ℤ) - 1) ≤ |q| := by
    rw [habs, le_div_iff₀ hDq]
    have e1 : (2 : ℚ) ^ ((a : ℤ) - (b : ℤ) - 1) = (2 : ℚ) ^ a / (2 : ℚ) ^ (b + 1) := by
      rw [show ((a : ℤ) - (b : ℤ) - 1) = ((a : ℕ) : ℤ) - ((b + 1 : ℕ) : ℤ) by push_cast; ring,
        zpow_sub₀ (by norm_num), zpow_natCast, zpow_natCast]
    rw [e1, div_mul_eq_mul_div, div_le_iff₀ (by positivity)]
    calc (2 : ℚ) ^ a * (q.den : ℚ) ≤ (2 : ℚ) ^ a * (2 : ℚ) ^ (b + 1) := by
            apply mul_le_mul_of_nonneg_left (le_of_lt b2q) (by positivity)
      _ ≤ (q.num.natAbs : ℚ) * (2 : ℚ) ^ (b + 1) := by
            apply mul_le_mul_of_nonneg_right a1q (by positivity)
  unfold binade
  rw [← ha, ← hb]
  by_cases hc : (2 : ℚ) ^ ((a : ℤ) - (b : ℤ)) ≤ |q|
  · rw [if_pos hc]
    exact ⟨hc, hup⟩
  · rw [if_neg hc]
    refine ⟨hlow, ?_⟩
    rw [sub_add_cancel]
    exact not_le.mp hc

theorem roundHalfEven_intCast (z : ℤ) : roundHalfEven (z : ℚ) = z := by
  simp [roundHalfEven]

theorem round_zero : round 0 = 0 := by
  simp [round, roundHalfEven]

/-- Rounding fixes a multiple of a power of two that is no finer than the
spacing of the values around it. -/
theorem round_of_ulpExponent_le (q : ℚ) (k e : ℤ) (hq : q = (k : ℚ) * (2 : ℚ) ^ e)
    (hu : ulpExponent q ≤ e) : round q = q := by
  unfold round
  generalize ulpExponent q = u at hu
  obtain ⟨n, hn⟩ := Int.eq_ofNat_of_zero_le (show 0 ≤ e - u by omega)
  have he2 : e = u + (n : ℤ) := by omega
  have hune : (2 : ℚ) ^ u ≠ 0 := by positivity
  have hq2 : q = ((k * 2 ^ n : ℤ) : ℚ) * (2 : ℚ) ^ u := by
    rw [hq, he2, zpow_add₀ (by norm_num), zpow_natCast]
    push_cast
    ring
  have hdiv : q / (2 : ℚ) ^ u = ((k * 2 ^ n : ℤ) : ℚ) := by
    rw [hq2]
    field_simp
  rw [hdiv, roundHalfEven_intCast]
  exact hq2.symm

/-- Rounding fixes every `k * 2^e` with `|k| < 2^24` and `e >= -149`: these are
single-precision values. -/
theorem round_grid (k e : ℤ) (hk : |k| < 2 ^ 24) (he : -149 ≤ e) :
    round ((k : ℚ) * (2 : ℚ) ^ e) = (k : ℚ) * (2 : ℚ) ^ e := by
  by_cases hk0 : k = 0
  · subst hk0
    simp [round_zero]
  have h2pos : (0 : ℚ) < (2 : ℚ) ^ e := by positivity
  have hq : (k : ℚ) * (2 : ℚ) ^ e ≠ 0 := by
    apply mul_ne_zero
    · exact_mod_cast hk0
    · exact ne_of_gt h2pos
  obtain ⟨hb1, -⟩ := binade_spec _ hq
  have habs : |(k : ℚ) * (2 : ℚ) ^ e| < (2 : ℚ) ^ (24 + e) := by
    rw [abs_mul, abs_of_pos h2pos, zpow_add₀ (by norm_num)]
    apply mul_lt_mul_of_pos_right _ h2pos
    have : ((|k| : ℤ) : ℚ) < ((2 ^ 24 : ℤ) : ℚ) := by exact_mod_cast hk
    rw [Int.cast_abs] at this
    rw [zpow_ofNat]
    exact_mod_cast this
  have hlt := lt_of_le_of_lt hb1 habs
  have hb : binade ((k : ℚ) * (2 : ℚ) ^ e) < 24 + e :=
    (zpow_lt_zpow_iff_right₀ (by norm_num)).mp hlt
  apply round_of_ulpExponent_le _ k e rfl
  unfold ulpExponent
  have := max_le (show binade ((k : ℚ) * (2 : ℚ) ^ e) ≤ e + 23 by omega)
    (show (-126 : ℤ) ≤ e + 23 by omega)
  omega

theorem round_intCast (k : ℤ) (hk : |k| < 2 ^ 24) : round (k : ℚ) = k := by
  simpa using round_grid k 0 hk (by norm_num)

theorem round_natCast (n : ℕ) (hn : n ≤ 2 ^ 24) : round (n : ℚ) = n := by
  rcases Nat.lt_or_ge n (2 ^ 24) with h | h
  · have := round_intCast (n : ℤ) (by rw [abs_of_nonneg (by positivity)]; exact_mod_cast h)
    simpa using this
  · have h1 : n = 2 ^ 24 := le_antisymm hn h
    subst h1
    have := round_grid 1 24 (by norm_num) (by norm_num)
    norm_num at this ⊢
    exact this

theorem round_quarter (k : ℤ) (hk : |k| < 2 ^ 24) : round ((k : ℚ) / 4) = (k : ℚ) / 4 := by
  have := round_grid k (-2) hk (by norm_num)
  have e : (2 : ℚ) ^ (-2 : ℤ) = 1 / 4 := by norm_num
  rw [e] at this
  simpa [div_eq_mul_inv] using this


theorem round_natCast_neg (n : ℕ) (hn : n < 2 ^ 24) : round (-(n : ℚ)) = -(n : ℚ) := by
  have := round_intCast (-(n : ℤ)) (by rw [abs_neg, abs_of_nonneg (by positivity)]; exact_mod_cast hn)
  simpa using this

/-- A multiple of `1/4` below `2^22` in magnitude is a single-precision
number. -/
theorem round_onQuarters (B : Nat) (q : ℚ) (h : OnQuarters B q) (hB : B < 2 ^ 24) :
    round q = q := by
  obtain ⟨k, rfl, hk⟩ := h
  exact round_quarter k (by have : (B : ℤ) < 2 ^ 24 := by exact_mod_cast hB
                            omega)

theorem onQuarters_mono {B C : Nat} {q : ℚ} (h : OnQuarters B q) (hBC : B ≤ C) :
    OnQuarters C q := by
  obtain ⟨k, hq, hk⟩ := h
  exact ⟨k, hq, le_trans hk (by exact_mod_cast hBC)⟩

theorem onQuarters_add {B C : Nat} {a b : ℚ} (ha : OnQuarters B a) (hb : OnQuarters C b) :
    OnQuarters (B + C) (a + b) := by
  obtain ⟨k, rfl, hk⟩ := ha
  obtain ⟨l, rfl, hl⟩ := hb
  refine ⟨k + l, by push_cast; ring, ?_⟩
  have := abs_add k l
  push_cast
  omega

theorem onQuarters_sub {B C : Nat} {a b : ℚ} (ha : OnQuarters B a) (hb : OnQuarters C b) :
    OnQuarters (B + C) (a - b) := by
  obtain ⟨k, rfl, hk⟩ := ha
  obtain ⟨l, rfl, hl⟩ := hb
  refine ⟨k - l, by push_cast; ring, ?_⟩
  have := abs_sub k l
  push_cast
  omega

theorem onQuarters_zero (B : Nat) : OnQuarters B 0 := ⟨0, by simp, by simp⟩

theorem onQuarters_natCast (n : Nat) : OnQuarters (4 * n) (n : ℚ) :=
  ⟨4 * (n : ℤ), by push_cast; ring, by rw [abs_of_nonneg (by positivity)]; push_cast; rfl⟩

theorem onQuarters_neg_natCast (n : Nat) : OnQuarters (4 * n) (-(n : ℚ)) :=
  ⟨-(4 * (n : ℤ)), by push_cast; ring,
    by rw [abs_neg, abs_of_nonneg (by positivity)]; push_cast; rfl⟩

/-- The single-precision sum of two multiples of `1/4` is their sum, as long
as it stays below `2^22` in magnitude. -/
theorem add_onQuarters {B C : Nat} {a b : ℚ} (ha : OnQuarters B a) (hb : OnQuarters C b)
    (h : B + C < 2 ^ 24) : add a b = a + b :=
  round_onQuarters (B + C) _ (onQuarters_add ha hb) h

theorem sub_onQuarters {B C : Nat} {a b : ℚ} (ha : OnQuarters B a) (hb : OnQuarters C b)
    (h : B + C < 2 ^ 24) : sub a b = a - b :=
  round_onQuarters (B + C) _ (onQuarters_sub ha hb) h

end Float32

end SnakeGame

/-! ### The methods of the snake -/

namespace SnakeGame

@[simp] theorem Vector2f.add_def (a b : Vector2f) : a + b = ⟨a.x + b.x, a.y + b.y⟩ := rfl

@[simp] theorem Vector2f.sub_def (a b : Vector2f) : a - b = ⟨a.x - b.x, a.y - b.y⟩ := rfl

@[simp] theorem Vector2f.mul_def (a : Vector2f) (k : ℚ) : a * k = ⟨a.x * k, a.y * k⟩ := rfl

@[simp] theorem Vector2f.smul_def (k : ℚ) (a : Vector2f) : k * a = ⟨a.x * k, a.y * k⟩ := rfl

theorem readAt_natCast {α : Type} (v : List α) (n : Nat) : readAt v (n : Int) = v[n]? := by
  simp [readAt]

theorem readAt_succ_sub_one {α : Type} (v : List α) (n : Nat) :
    readAt v (((n + 1 : Nat) : Int) - 1) = v[n]? := by
  have h : (((n + 1 : Nat) : Int) - 1) = (n : Int) := by push_cast; ring
  rw [h, readAt_natCast]

theorem readAt_neg {α : Type} (v : List α) (i : Int) (h : i < 0) : readAt v i = none := by
  simp [readAt, not_le.mpr h]

namespace Snake

/-- The loop of `move` succeeds when the iterator has at least as many entries
before it as the body has parts; part `i` then moves along the entry `i + 1`
places before the iterator. -/
theorem moveParts_spec (dirs : List Vector2f) (size : ℚ) :
    ∀ (body : List RectangleShape) (it : Nat), body.length ≤ it → it ≤ dirs.length →
      ∃ body1, moveParts dirs size (it : Int) body = some body1 ∧
        body1.length = body.length ∧
        ∀ i part, body[i]? = some part →
          ∃ d, dirs[it - 1 - i]? = some d ∧ body1[i]? = some (part.move (d * size)) := by
  intro body
  induction body with
  | nil =>
    intro it _ _
    exact ⟨[], by simp [moveParts]⟩
  | cons part rest ih =>
    intro it hlen hit
    obtain ⟨n, rfl⟩ : ∃ n, it = n + 1 := ⟨it - 1, by simp at hlen; omega⟩
    have hn : n < dirs.length := by omega
    obtain ⟨rest1, hrest, hl, hparts⟩ := ih n (by simp at hlen; omega) (by omega)
    have hcast : (((n + 1 : Nat) : Int) - 1) = (n : Int) := by push_cast; ring
    refine ⟨part.move (dirs[n] * size) :: rest1, ?_, by simp [hl], ?_⟩
    · simp only [moveParts, hcast, readAt_natCast, hrest, List.getElem?_eq_getElem hn]
    · intro i p hp
      cases i with
      | zero =>
        simp at hp
        subst hp
        exact ⟨dirs[n], by simp [List.getElem?_eq_getElem hn], by simp⟩
      | succ j =>
        simp at hp
        obtain ⟨d, hd, hb⟩ := hparts j p hp
        refine ⟨d, ?_, by simpa using hb⟩
        have : n + 1 - 1 - (j + 1) = n - 1 - j := by omega
        rw [this]; exact hd

/-- The loop of `move` reads before `dirs.begin()` when the body has more parts
than there are entries before the iterator. -/
theorem moveParts_short (dirs : List Vector2f) (size : ℚ) :
    ∀ (body : List RectangleShape) (it : Nat), it < body.length →
      moveParts dirs size (it : Int) body = none := by
  intro body
  induction body with
  | nil => intro it h; simp at h
  | cons part rest ih =>
    intro it h
    cases it with
    | zero =>
      have : readAt dirs (((0 : Nat) : Int) - 1) = none := readAt_neg _ _ (by simp)
      simp only [moveParts, this]
    | succ n =>
      have hcast : (((n + 1 : Nat) : Int) - 1) = (n : Int) := by push_cast; ring
      have := ih n (by simp at h; omega)
      simp only [moveParts, hcast, this]
      cases readAt dirs (n : Int) <;> rfl

end Snake

theorem set_last_eq_dropLast_append {α : Type} (l : List α) (d : α) (h : l ≠ []) :
    l.set (l.length - 1) d = l.dropLast ++ [d] := by
  induction l with
  | nil => exact absurd rfl h
  | cons a t ih =>
    cases t with
    | nil => simp
    | cons b u =>
      have := ih (by simp)
      simp only [List.length_cons, Nat.add_sub_cancel] at this ⊢
      simp [List.set, this]

namespace Snake

/-- What `turn` does on a non-empty history: the last entry is replaced. -/
theorem turn_spec (s : Snake) (dir : Vector2f) (h : s.dirs ≠ []) :
    s.turn dir = some { s with dirs := s.dirs.dropLast ++ [dir] } := by
  unfold turn
  cases hd : s.dirs with
  | nil => exact absurd hd h
  | cons a t =>
    simp only []
    rw [← hd, set_last_eq_dropLast_append _ _ h]

theorem turn_eq_some (s s1 : Snake) (dir : Vector2f) (h : s.turn dir = some s1) :
    s.dirs ≠ [] ∧ s1 = { s with dirs := s.dirs.dropLast ++ [dir] } := by
  have hne : s.dirs ≠ [] := by
    intro hd
    simp [turn, hd] at h
  rw [turn_spec s dir hne] at h
  exact ⟨hne, (Option.some.inj h).symm⟩

/-- What `move` does when the history holds at least one entry more than the
body has parts. -/
theorem move_spec (s : Snake) (h : s.body.length + 1 ≤ s.dirs.length) :
    ∃ last body1, s.dirs.getLast? = some last ∧
      s.move = some { head := { s.head with position := s.head.position + last * s.size }
                      dirs := s.dirs ++ [last]
                      body := body1 } ∧
      body1.length = s.body.length ∧
      ∀ i part, s.body[i]? = some part →
        ∃ d, s.dirs[s.dirs.length - 2 - i]? = some d ∧
          body1[i]? = some (part.move (d * s.size)) := by
  obtain ⟨n, hn⟩ : ∃ n, s.dirs.length = n + 1 := ⟨s.dirs.length - 1, by omega⟩
  obtain ⟨body1, hb, hl, hparts⟩ := moveParts_spec s.dirs s.size s.body n (by omega) (by omega)
  have hlt : n < s.dirs.length := by omega
  refine ⟨s.dirs[n], body1, ?_, ?_, hl, ?_⟩
  · rw [List.getLast?_eq_getElem?, hn]
    simp [List.getElem?_eq_getElem hlt]
  · unfold move
    simp only [hn, readAt_succ_sub_one]
    have hcast : (((n + 1 : Nat) : Int) - 1) = (n : Int) := by push_cast; ring
    rw [hcast, hb, List.getElem?_eq_getElem hlt]
  · intro i part hp
    obtain ⟨d, hd, hb1⟩ := hparts i part hp
    refine ⟨d, ?_, hb1⟩
    have : s.dirs.length - 2 - i = n - 1 - i := by omega
    rw [this]; exact hd

/-- The method `move` has a result only when every read is inside `dirs`. -/
theorem move_eq_some_length (s s1 : Snake) (h : s.move = some s1) :
    s.body.length + 1 ≤ s.dirs.length := by
  by_contra hc
  have hlt : s.dirs.length < s.body.length + 1 := by omega
  unfold move at h
  cases hd : s.dirs.length with
  | zero =>
    have : readAt s.dirs (((0 : Nat) : Int) - 1) = none := readAt_neg _ _ (by simp)
    simp only [hd, this] at h
    exact absurd h (by simp)
  | succ n =>
    have hcast : (((n + 1 : Nat) : Int) - 1) = (n : Int) := by push_cast; ring
    have hshort := moveParts_short s.dirs s.size s.body n (by omega)
    simp only [hd, hcast, hshort] at h
    cases hr : readAt s.dirs (n : Int) <;> simp [hr] at h

/-- What `extend` does when the body is not empty and the history holds at
least two entries more than the body has parts. -/
theorem extend_spec (s : Snake) (hb : s.body ≠ []) (h : s.body.length + 2 ≤ s.dirs.length) :
    ∃ tail d, s.body.getLast? = some tail ∧
      s.dirs[s.dirs.length - 2 - s.body.length]? = some d ∧
      s.extend = some { s with body := s.body ++ [⟨⟨s.size, s.size⟩, tail.position - s.size * d⟩] } := by
  obtain ⟨k, hk⟩ : ∃ k, s.dirs.length - 2 - s.body.length = k := ⟨_, rfl⟩
  have hklt : k < s.dirs.length := by omega
  have hcast : ((s.dirs.length : Int) - 2 - (s.body.length : Int)) = (k : Int) := by omega
  refine ⟨s.body.getLast hb, s.dirs[k], List.getLast?_eq_getLast _ hb, ?_, ?_⟩
  · rw [hk, List.getElem?_eq_getElem hklt]
  · unfold extend
    rw [hcast, readAt_natCast, List.getElem?_eq_getElem hklt, List.getLast?_eq_getLast _ hb]
    rfl

/-- The method `extend` has a result only on a non-empty body and with its read
inside `dirs`. -/
theorem extend_eq_some_length (s s1 : Snake) (h : s.extend = some s1) :
    s.body ≠ [] ∧ s.body.length + 2 ≤ s.dirs.length := by
  unfold extend at h
  constructor
  · intro hb
    simp [hb] at h
  · by_contra hc
    have hneg : ((s.dirs.length : Int) - 2 - (s.body.length : Int)) < 0 := by omega
    rw [readAt_neg _ _ hneg] at h
    cases hl : s.body.getLast? <;> simp [hl] at h

theorem size_construct (scr : Vector2u) (size : ℚ) (length : Nat) :
    (construct scr size length).size = size := by
  simp [construct, Snake.size]

theorem length_placeBody (size : ℚ) : ∀ (n : Nat) (pos : Vector2f),
    (placeBody size pos n).length = n := by
  intro n
  induction n with
  | zero => intro pos; rfl
  | succ k ih => intro pos; simp [placeBody, ih]

/-- The position of part `i` after the loop of the constructor: `i + 1` sizes
below the starting position. -/
theorem getElem?_placeBody (size : ℚ) : ∀ (n : Nat) (pos : Vector2f) (i : Nat), i < n →
    (placeBody size pos n)[i]? = some ⟨⟨size, size⟩, ⟨pos.x, pos.y + ((i : ℚ) + 1) * size⟩⟩ := by
  intro n
  induction n with
  | zero => intro pos i h; omega
  | succ k ih =>
    intro pos i h
    cases i with
    | zero => simp [placeBody]
    | succ j =>
      simp only [placeBody, List.getElem?_cons_succ]
      rw [ih _ j (by omega)]
      simp only [Vector2f.add_def, add_zero, Option.some.injEq, RectangleShape.mk.injEq,
        Vector2f.mk.injEq, true_and]
      push_cast
      ring

theorem length_body_construct (scr : Vector2u) (size : ℚ) (length : Nat) :
    (construct scr size length).body.length = length := by
  simp [construct, length_placeBody]

theorem length_dirs_construct (scr : Vector2u) (size : ℚ) (length : Nat) :
    (construct scr size length).dirs.length = length + 1 := by
  simp [construct]

theorem getElem?_dirs_construct (scr : Vector2u) (size : ℚ) (length i : Nat) (d : Vector2f)
    (h : (construct scr size length).dirs[i]? = some d) : d = UP := by
  have hmem : d ∈ (construct scr size length).dirs := List.getElem?_mem h
  simp only [construct] at hmem
  exact List.eq_of_mem_replicate hmem

/-- The postcondition of `step()` (`Snake::move`) in exact arithmetic.  In every state whose
history has at least `len(body) + 1` entries, `move` has a result: the head has
moved by `size()` times the last entry, part `i` by `size()` times the entry
`i + 1` places before the last, and one copy of the last entry is appended.  For
every freshly constructed snake one `move` without a turn translates the head
and every part by `(0, -size)`, so each part keeps its offset from the head.  A
head at `(400, 150)` with size 20 and last entry `UP` moves to `(400, 130)`. -/
theorem move_postcondition_exact :
    (∀ s : Snake, s.body.length + 1 ≤ s.dirs.length →
      ∃ last s1, s.dirs.getLast? = some last ∧ s.move = some s1 ∧
        s1.head = { s.head with position := s.head.position + last * s.size } ∧
        s1.dirs = s.dirs ++ [last] ∧ s1.body.length = s.body.length ∧
        ∀ (i : Nat) (part : RectangleShape), s.body[i]? = some part →
          ∃ d, s.dirs[s.dirs.length - 1 - (i + 1)]? = some d ∧
            s1.body[i]? = some { part with position := part.position + d * s.size }) ∧
    (∀ (scr : Vector2u) (size : ℚ) (length : Nat),
      ∃ s1, (construct scr size length).move = some s1 ∧
        s1.head.position = (construct scr size length).head.position + (⟨0, -size⟩ : Vector2f) ∧
        s1.body.length = length ∧
        ∀ (i : Nat) (part : RectangleShape), (construct scr size length).body[i]? = some part →
          ∃ part1 : RectangleShape, s1.body[i]? = some part1 ∧ part1.size = part.size ∧
            part1.position = part.position + (⟨0, -size⟩ : Vector2f) ∧
            part1.position - s1.head.position =
              part.position - (construct scr size length).head.position) ∧
    (∀ s : Snake, s.body.length + 1 ≤ s.dirs.length → s.head.position = ⟨400, 150⟩ →
      s.size = 20 → s.dirs.getLast? = some UP →
      ∃ s1, s.move = some s1 ∧ s1.head.position = ⟨400, 130⟩) := by
  refine ⟨?_, ?_, ?_⟩
  · intro s h
    obtain ⟨last, body1, hlast, hmove, hlen, hparts⟩ := move_spec s h
    refine ⟨last, _, hlast, hmove, rfl, rfl, hlen, ?_⟩
    intro i part hp
    obtain ⟨d, hd, hb⟩ := hparts i part hp
    refine ⟨d, ?_, hb⟩
    have : s.dirs.length - 1 - (i + 1) = s.dirs.length - 2 - i := by omega
    rw [this]; exact hd
  · intro scr size length
    have h : (construct scr size length).body.length + 1 ≤ (construct scr size length).dirs.length := by
      rw [length_body_construct, length_dirs_construct]
    obtain ⟨last, body1, hlast, hmove, hlen, hparts⟩ := move_spec _ h
    have hUP : last = UP := by
      rw [List.getLast?_eq_getElem?] at hlast
      exact getElem?_dirs_construct scr size length _ last hlast
    subst hUP
    refine ⟨_, hmove, ?_, by rw [hlen, length_body_construct], ?_⟩
    · simp [size_construct, UP]
    · intro i part hp
      obtain ⟨d, hd, hb⟩ := hparts i part hp
      have hdUP : d = UP := getElem?_dirs_construct scr size length _ d hd
      subst hdUP
      refine ⟨_, hb, rfl, ?_, ?_⟩
      · simp [RectangleShape.move, size_construct, UP]
      · simp [RectangleShape.move, size_construct, UP]
  · intro s h hpos hsize hlast
    obtain ⟨last, body1, hlast1, hmove, -, -⟩ := move_spec s h
    rw [hlast] at hlast1
    have hUP : last = UP := (Option.some.inj hlast1).symm
    subst hUP
    refine ⟨_, hmove, ?_⟩
    simp only [hpos, hsize, UP, Vector2f.mul_def, Vector2f.add_def]
    norm_num

end Snake

/-- A step of `k` along a unit direction covers the distance `|k|`. -/
theorem distanceIs_unit_step (p q d : Vector2f) (k : ℚ) (hd : IsUnitDirection d)
    (hq : q = p - k * d) : DistanceIs q p |k| := by
  have hx : q.x - p.x = -(d.x * k) := by rw [hq]; simp
  have hy : q.y - p.y = -(d.y * k) := by rw [hq]; simp
  have hsq : ((q.x - p.x : ℚ) : ℝ) ^ 2 + ((q.y - p.y : ℚ) : ℝ) ^ 2 = (k : ℝ) ^ 2 := by
    rw [hx, hy]
    rcases hd with h | h | h | h <;> subst h <;> simp [UP, LEFT, DOWN, RIGHT]
  unfold DistanceIs
  rw [hsq, Real.sqrt_sq_eq_abs]
  simp

namespace Snake

/-- The postcondition of `grow()` (`Snake::extend`) in exact arithmetic.  In every state with a
tail (a non-empty body), whose history holds only the four unit directions and
has at least `len(body) + 2` entries, `extend` has a result: the body is one
part longer, the head, the existing parts and the history are unchanged, and
the new tail sits at the prior tail's position minus `size()` times
`dirs[len(dirs) - 2 - len(body)]`.  The distance between the new and the prior
tail is `|size()|`, which is `size()` for every size that is not negative. -/
theorem extend_postcondition_exact (s : Snake) (hb : s.body ≠ [])
    (hdirs : ∀ d ∈ s.dirs, IsUnitDirection d) (h : s.body.length + 2 ≤ s.dirs.length) :
    ∃ (tail newTail : RectangleShape) (d : Vector2f) (s1 : Snake),
      s.body.getLast? = some tail ∧
      s.dirs[s.dirs.length - 2 - s.body.length]? = some d ∧
      s.extend = some s1 ∧
      s1.head = s.head ∧ s1.dirs = s.dirs ∧ s1.body = s.body ++ [newTail] ∧
      s1.body.length = s.body.length + 1 ∧
      newTail.position = tail.position - s.size * d ∧
      DistanceIs newTail.position tail.position |s.size| ∧
      (0 ≤ s.size → DistanceIs newTail.position tail.position s.size) := by
  obtain ⟨tail, d, htail, hd, hext⟩ := extend_spec s hb h
  have hunit : IsUnitDirection d := hdirs d (List.getElem?_mem hd)
  have hdist := distanceIs_unit_step tail.position (tail.position - s.size * d) d s.size hunit rfl
  refine ⟨tail, ⟨⟨s.size, s.size⟩, tail.position - s.size * d⟩, d, _, htail, hd, hext,
    rfl, rfl, rfl, by simp, rfl, hdist, ?_⟩
  intro hpos
  have := hdist
  rwa [abs_of_nonneg hpos] at this

end Snake

/-- The function `direction` gives the zero vector for every key other than W,
A, S and D. -/
theorem direction_eq_zero (code : Key) (hW : code ≠ Key.W) (hA : code ≠ Key.A)
    (hS : code ≠ Key.S) (hD : code ≠ Key.D) : direction code = Vector2f.zero := by
  cases code <;> first | rfl | contradiction

namespace Snake

/-- C4 fails as stated: on the freshly constructed snake of the shipped
configuration, `turn` with the vector `direction` returns for an unmapped key
replaces the last history entry `UP` by the zero vector, and the next `move`
leaves the head at `(400, 140)` where it would have gone to `(400, 120)`. -/
theorem turn_zero_changes_history :
    direction (Key.other 0) = Vector2f.zero ∧
    ∃ s1 s2 s3, (construct ⟨800, 600⟩ 20 15).turn (direction (Key.other 0)) = some s1 ∧
      s1.dirs ≠ (construct ⟨800, 600⟩ 20 15).dirs ∧
      (construct ⟨800, 600⟩ 20 15).dirs.getLast? = some UP ∧
      s1.dirs.getLast? = some Vector2f.zero ∧
      s1.move = some s2 ∧ s2.head.position = ⟨400, 140⟩ ∧
      (construct ⟨800, 600⟩ 20 15).move = some s3 ∧ s3.head.position = ⟨400, 120⟩ := by
  refine ⟨rfl, ?_⟩
  have hne : (construct ⟨800, 600⟩ 20 15).dirs ≠ [] := by decide
  have hlen : (construct ⟨800, 600⟩ 20 15).body.length + 1 ≤
      (construct ⟨800, 600⟩ 20 15).dirs.length := by decide
  obtain ⟨last, body1, hlast, hmove, -, -⟩ := move_spec _ hlen
  have hUP : (construct ⟨800, 600⟩ 20 15).dirs.getLast? = some UP := by decide
  rw [hUP] at hlast
  have hl : last = UP := (Option.some.inj hlast).symm
  subst hl
  have hlen1 : ({ construct ⟨800, 600⟩ 20 15 with
      dirs := (construct ⟨800, 600⟩ 20 15).dirs.dropLast ++ [direction (Key.other 0)] } : Snake).body.length + 1
      ≤ ({ construct ⟨800, 600⟩ 20 15 with
      dirs := (construct ⟨800, 600⟩ 20 15).dirs.dropLast ++ [direction (Key.other 0)] } : Snake).dirs.length := by
    decide
  obtain ⟨last1, body2, hlast1, hmove1, -, -⟩ := move_spec _ hlen1
  have hz : last1 = Vector2f.zero := by
    simp only [List.getLast?_append, List.getLast?_singleton] at hlast1
    simpa [direction] using hlast1.symm
  subst hz
  refine ⟨_, _, _, turn_spec _ _ hne, by decide, hUP, by decide, hmove1, ?_, hmove, ?_⟩
  · norm_num [construct, Vector2f.zero]
  · norm_num [construct, Snake.size, UP]

/-- C4 as amended.  In every state with a non-empty history, `turn` with the
vector of a key other than W, A, S and D (the zero vector) has a result: the
last history entry is replaced by the zero vector, and the head, the body and
every older entry stay.  The history is unchanged exactly when its last entry
already was the zero vector, and a `move` that follows leaves the head where it
is. -/
theorem turn_zero_overwrites (s : Snake) (code : Key) (hW : code ≠ Key.W) (hA : code ≠ Key.A)
    (hS : code ≠ Key.S) (hD : code ≠ Key.D) (h : s.dirs ≠ []) :
    direction code = Vector2f.zero ∧
    ∃ s1, s.turn (direction code) = some s1 ∧
      s1.head = s.head ∧ s1.body = s.body ∧
      s1.dirs = s.dirs.dropLast ++ [Vector2f.zero] ∧
      (s1.dirs = s.dirs ↔ s.dirs.getLast? = some Vector2f.zero) ∧
      (∀ s2, s1.move = some s2 → s2.head.position = s.head.position) := by
  have hz := direction_eq_zero code hW hA hS hD
  refine ⟨hz, _, turn_spec s _ h, rfl, rfl, by rw [hz], ?_, ?_⟩
  · rw [hz]
    constructor
    · intro he
      show s.dirs.getLast? = some Vector2f.zero
      have he1 : s.dirs = s.dirs.dropLast ++ [Vector2f.zero] := he.symm
      rw [he1]
      simp
    · intro hl
      show s.dirs.dropLast ++ [Vector2f.zero] = s.dirs
      have hl1 : s.dirs.getLast h = Vector2f.zero := by
        rw [List.getLast?_eq_getLast _ h] at hl
        exact Option.some.inj hl
      rw [← hl1]
      exact List.dropLast_append_getLast h
  · intro s2 hm
    have hlen := move_eq_some_length _ _ hm
    obtain ⟨last, body1, hlast, hmove, -, -⟩ := move_spec _ hlen
    rw [hmove] at hm
    have hl : last = Vector2f.zero := by
      rw [hz] at hlast
      simp only [List.getLast?_append, List.getLast?_singleton] at hlast
      simpa using hlast.symm
    rw [← Option.some.inj hm, hl]
    simp [Vector2f.zero]

/-- Witness for C4 as amended: the key `other 7` on the snake of length 3. -/
theorem turn_zero_overwrites_witness :
    direction (Key.other 7) = Vector2f.zero ∧
    ∃ s1, (construct ⟨800, 600⟩ 20 3).turn (direction (Key.other 7)) = some s1 ∧
      s1.head = (construct ⟨800, 600⟩ 20 3).head ∧ s1.body = (construct ⟨800, 600⟩ 20 3).body ∧
      s1.dirs = (construct ⟨800, 600⟩ 20 3).dirs.dropLast ++ [Vector2f.zero] ∧
      (s1.dirs = (construct ⟨800, 600⟩ 20 3).dirs ↔
        (construct ⟨800, 600⟩ 20 3).dirs.getLast? = some Vector2f.zero) ∧
      (∀ s2, s1.move = some s2 → s2.head.position = (construct ⟨800, 600⟩ 20 3).head.position) :=
  turn_zero_overwrites (construct ⟨800, 600⟩ 20 3) (Key.other 7) (by decide) (by decide)
    (by decide) (by decide) (by decide)

/-- The effect of one successful call on the two lengths and on the head's
radius. -/
theorem apply_lengths (s s1 : Snake) (op : Op) (h : s.apply op = some s1) :
    s1.dirs.length = s.dirs.length + (if op = Op.step then 1 else 0) ∧
    s1.body.length = s.body.length + (if op = Op.grow then 1 else 0) ∧
    s1.head.radius = s.head.radius ∧
    (s.body.length + 1 ≤ s.dirs.length → s1.body.length + 1 ≤ s1.dirs.length) := by
  cases op with
  | turn dir =>
    obtain ⟨hne, rfl⟩ := turn_eq_some s s1 dir h
    have : 0 < s.dirs.length := List.length_pos.mpr hne
    refine ⟨?_, by simp, rfl, ?_⟩
    · simp; omega
    · intro hinv; simp; omega
  | step =>
    have hlen := move_eq_some_length s s1 h
    obtain ⟨last, body1, -, hmove, hl, -⟩ := move_spec s hlen
    have h1 : s.move = some s1 := h
    rw [hmove] at h1
    have := Option.some.inj h1
    subst this
    refine ⟨by simp, by simp [hl], rfl, ?_⟩
    intro _; simp [hl]; omega
  | grow =>
    obtain ⟨hb, hlen⟩ := extend_eq_some_length s s1 h
    obtain ⟨tail, d, -, -, hext⟩ := extend_spec s hb hlen
    have h1 : s.extend = some s1 := h
    rw [hext] at h1
    have := Option.some.inj h1
    subst this
    refine ⟨by simp, by simp, rfl, ?_⟩
    intro _; simp; omega

/-- The lengths after a successful sequence of calls: `dirs` has grown by the
number of `step`s, `body` by the number of `grow`s. -/
theorem run_lengths : ∀ (ops : List Op) (s s1 : Snake), run ops s = some s1 →
    s1.dirs.length = s.dirs.length + ops.count Op.step ∧
    s1.body.length = s.body.length + ops.count Op.grow ∧
    s1.head.radius = s.head.radius ∧
    (s.body.length + 1 ≤ s.dirs.length → s1.body.length + 1 ≤ s1.dirs.length) := by
  intro ops
  induction ops with
  | nil =>
    intro s s1 h
    simp only [run, Option.some.injEq] at h
    subst h
    simp
  | cons op ops ih =>
    intro s s1 h
    simp only [run] at h
    cases ha : s.apply op with
    | none => simp [ha] at h
    | some s2 =>
      simp only [ha] at h
      obtain ⟨h1, h2, h3, h4⟩ := apply_lengths s s2 op ha
      obtain ⟨k1, k2, k3, k4⟩ := ih s2 s1 h
      refine ⟨?_, ?_, by rw [k3, h3], fun hinv => k4 (h4 hinv)⟩
      · rw [k1, h1, List.count_cons]
        by_cases hop : op = Op.step
        · simp [hop]; omega
        · simp [hop]
      · rw [k2, h2, List.count_cons]
        by_cases hop : op = Op.grow
        · simp [hop]; omega
        · simp [hop]

/-- C2 fails as stated: after the first `move` of the freshly constructed snake
of the shipped configuration the history has 17 entries and the body 15 parts. -/
theorem history_length_after_move :
    ∃ s1, (construct ⟨800, 600⟩ 20 15).move = some s1 ∧
      s1.dirs.length = 17 ∧ s1.body.length = 15 ∧ s1.dirs.length ≠ s1.body.length + 1 := by
  have hs : ((construct ⟨800, 600⟩ 20 15).move).isSome = true := by decide
  obtain ⟨s1, h1⟩ := Option.isSome_iff_exists.mp hs
  obtain ⟨h2, h3, -, -⟩ := apply_lengths (construct ⟨800, 600⟩ 20 15) s1 Op.step h1
  have hd : (construct ⟨800, 600⟩ 20 15).dirs.length = 16 := by decide
  have hb : (construct ⟨800, 600⟩ 20 15).body.length = 15 := by decide
  rw [hd] at h2
  rw [hb] at h3
  simp only [if_true] at h2
  simp only [reduceCtorEq, if_false] at h3
  exact ⟨s1, h1, by omega, by omega, by omega⟩

/-- C2 as amended.  Starting from any snake built by the constructor, after any
sequence of `turn`, `move` and `extend` calls that all succeed the history has
`len(body) + 1 + (number of move calls) - (number of extend calls)` entries,
which is at least `len(body) + 1`; the two are equal right after
construction. -/
theorem history_length_after_calls (scr : Vector2u) (size : ℚ) (length : Nat)
    (ops : List Op) (s : Snake) (h : run ops (construct scr size length) = some s) :
    (construct scr size length).dirs.length = (construct scr size length).body.length + 1 ∧
    s.dirs.length + ops.count Op.grow = s.body.length + 1 + ops.count Op.step ∧
    s.body.length + 1 ≤ s.dirs.length := by
  obtain ⟨h1, h2, -, h4⟩ := run_lengths ops _ s h
  rw [length_dirs_construct] at h1
  rw [length_body_construct] at h2
  refine ⟨by rw [length_dirs_construct, length_body_construct], by omega, h4 ?_⟩
  rw [length_dirs_construct, length_body_construct]

/-- Witness for C2 as amended: `move, extend, move` on the snake of length 3
gives 6 history entries for 4 parts. -/
theorem history_length_after_calls_witness :
    ∃ s, run [Op.step, Op.grow, Op.step] (construct ⟨800, 600⟩ 20 3) = some s ∧
      s.dirs.length + 1 = s.body.length + 1 + 2 ∧ s.body.length + 1 ≤ s.dirs.length := by
  have hs : (run [Op.step, Op.grow, Op.step] (construct ⟨800, 600⟩ 20 3)).isSome = true := by
    decide
  obtain ⟨s, h⟩ := Option.isSome_iff_exists.mp hs
  exact ⟨s, h, (history_length_after_calls ⟨800, 600⟩ 20 3 _ s h).2⟩

/-- The read of `extend` falls before `dirs.begin()` whenever the history has
exactly `len(body) + 1` entries. -/
theorem extend_eq_none_of_length (s : Snake) (h : s.dirs.length = s.body.length + 1) :
    s.extend = none := by
  cases he : s.extend with
  | none => rfl
  | some s1 =>
    have := (extend_eq_some_length s s1 he).2
    omega

end Snake

namespace Game

set_option maxRecDepth 100000 in
/-- C3, a defect of the code.  The game of the shipped configuration
(`Game(800, 600, 15, 5, 20)`) whose generator first yields 0.5 and 0.25 places
the first food on the cell of the head, `(400, 140)`.  The game starts paused
with `len(dirs) = len(body) + 1`, so the first pass through the loop, without
any event, finds the food eaten and calls `extend`, whose read
`dirs.end()[-2 - 15]` of a 16-entry history lies one entry before the buffer.
The hypothesis says that the head's box overlaps the box of a food on the
head's cell; the polygon box SFML computes and the exact box both do. -/
theorem frame_reads_out_of_range (lb : ℚ → FloatRect)
    (h : ((lb 10).translate ⟨400, 140⟩).intersects ⟨400, 140, 20, 20⟩ = true) :
    ∃ g, Game.construct 800 600 15 5 20
        [1/2, 1/4, 0, 1/2, 1/4, 1/2, 1/2, 1/2, 3/4, 1/2, 0, 3/4] = some g ∧
      g.isPaused = true ∧
      g.snake.dirs.length = g.snake.body.length + 1 ∧
      g.snake.extend = none ∧
      Game.frame lb [] g = Outcome.outOfRange := by
  have hg : (Game.construct 800 600 15 5 20
      [1/2, 1/4, 0, 1/2, 1/4, 1/2, 1/2, 1/2, 3/4, 1/2, 0, 3/4]).isSome = true := by
    with_unfolding_all decide
  obtain ⟨g, hg⟩ := Option.isSome_iff_exists.mp hg
  have hsnake : g.snake = Snake.construct ⟨800, 600⟩ 20 15 := by
    simp only [Game.construct] at hg
    split at hg
    · exact absurd hg (by simp)
    · rw [← Option.some.inj hg]
  have hfoods : FoodCollection.construct ⟨800, 600⟩ 20 5
      [1/2, 1/4, 0, 1/2, 1/4, 1/2, 1/2, 1/2, 3/4, 1/2, 0, 3/4] = some g.foods := by
    simp only [Game.construct] at hg
    split at hg
    · exact absurd hg (by simp)
    · rename_i foods hf
      rw [← Option.some.inj hg]
      exact hf
  have hpaused : g.isPaused = true := by
    simp only [Game.construct] at hg
    split at hg
    · exact absurd hg (by simp)
    · rw [← Option.some.inj hg]
  have hfc : g.foods = ⟨[⟨⟨20, 20⟩, ⟨400, 140⟩⟩, ⟨⟨20, 20⟩, ⟨0, 300⟩⟩, ⟨⟨20, 20⟩, ⟨200, 300⟩⟩,
      ⟨⟨20, 20⟩, ⟨400, 300⟩⟩, ⟨⟨20, 20⟩, ⟨600, 300⟩⟩], [0, 3/4], ⟨40, 30⟩⟩ := by
    have : FoodCollection.construct ⟨800, 600⟩ 20 5
        [1/2, 1/4, 0, 1/2, 1/4, 1/2, 1/2, 1/2, 3/4, 1/2, 0, 3/4] =
        some ⟨[⟨⟨20, 20⟩, ⟨400, 140⟩⟩, ⟨⟨20, 20⟩, ⟨0, 300⟩⟩, ⟨⟨20, 20⟩, ⟨200, 300⟩⟩,
          ⟨⟨20, 20⟩, ⟨400, 300⟩⟩, ⟨⟨20, 20⟩, ⟨600, 300⟩⟩], [0, 3/4], ⟨40, 30⟩⟩ := by
      with_unfolding_all decide
    rw [this] at hfoods
    exact (Option.some.inj hfoods).symm
  have hlen : (Snake.construct ⟨800, 600⟩ 20 15).dirs.length =
      (Snake.construct ⟨800, 600⟩ 20 15).body.length + 1 := by
    rw [Snake.length_dirs_construct, Snake.length_body_construct]
  have hext := Snake.extend_eq_none_of_length _ hlen
  have hcol : (Snake.construct ⟨800, 600⟩ 20 15).isCollided lb ⟨⟨20, 20⟩, ⟨400, 140⟩⟩ = true := by
    have h1 : (Snake.construct ⟨800, 600⟩ 20 15).head = ⟨10, ⟨400, 140⟩⟩ := by
      with_unfolding_all decide
    have h2 : (⟨⟨20, 20⟩, ⟨400, 140⟩⟩ : RectangleShape).getGlobalBounds = ⟨400, 140, 20, 20⟩ := by
      with_unfolding_all decide
    rw [Snake.isCollided, h1, h2]
    exact h
  have hmig : (migrate ⟨40, 30⟩ 0 (Snake.construct ⟨800, 600⟩ 20 15).size
      [⟨⟨20, 20⟩, ⟨400, 140⟩⟩, ⟨⟨20, 20⟩, ⟨0, 300⟩⟩, ⟨⟨20, 20⟩, ⟨200, 300⟩⟩,
        ⟨⟨20, 20⟩, ⟨400, 300⟩⟩, ⟨⟨20, 20⟩, ⟨600, 300⟩⟩] [0, 3/4]).isSome = true := by
    with_unfolding_all decide
  obtain ⟨r, hr⟩ := Option.isSome_iff_exists.mp hmig
  refine ⟨g, hg, hpaused, by rw [hsnake]; exact hlen, by rw [hsnake]; exact hext, ?_⟩
  simp only [Game.frame, Game.pollEvents, Game.simulate, hpaused, if_true, hsnake, hfc,
    FoodCollection.isEaten, FoodCollection.firstCollided, hcol, hr, hext]

set_option maxRecDepth 100000 in
/-- The defect of C3 with the box of the exact circle: the loop of `run` ends in
the read outside `dirs` on its first pass. -/
theorem frame_reads_out_of_range_witness :
    (∃ g, Game.construct 800 600 15 5 20
        [1/2, 1/4, 0, 1/2, 1/4, 1/2, 1/2, 1/2, 3/4, 1/2, 0, 3/4] = some g ∧
      g.isPaused = true ∧
      g.snake.dirs.length = g.snake.body.length + 1 ∧
      g.snake.extend = none ∧
      Game.frame exactCircleBounds [] g = Outcome.outOfRange) ∧
    (Game.construct 800 600 15 5 20
        [1/2, 1/4, 0, 1/2, 1/4, 1/2, 1/2, 1/2, 3/4, 1/2, 0, 3/4]).map
      (Game.run exactCircleBounds [[]]) = some Outcome.outOfRange :=
  ⟨frame_reads_out_of_range exactCircleBounds (by with_unfolding_all decide),
   by with_unfolding_all decide⟩

end Game

namespace Snake

/-- What a successful `move` has done. -/
theorem move_eq_some (s s1 : Snake) (h : s.move = some s1) :
    ∃ last, s.dirs.getLast? = some last ∧
      s1.head = { s.head with position := s.head.position + last * s.size } ∧
      s1.dirs = s.dirs ++ [last] ∧ s1.body.length = s.body.length ∧
      ∀ (i : Nat) (part : RectangleShape), s.body[i]? = some part →
        ∃ d, s.dirs[s.dirs.length - 2 - i]? = some d ∧
          s1.body[i]? = some (part.move (d * s.size)) := by
  obtain ⟨last, body1, hlast, hmove, hl, hparts⟩ := move_spec s (move_eq_some_length s s1 h)
  rw [hmove] at h
  have := Option.some.inj h
  subst this
  exact ⟨last, hlast, rfl, rfl, hl, hparts⟩

/-- A sequence of `turn` and `move` calls always runs through when the history
has at least one entry more than the body has parts; it has one tick for each
`move`. -/
theorem ticks_total : ∀ (ops : List Op) (s : Snake), (∀ op ∈ ops, op ≠ Op.grow) →
    s.body.length + 1 ≤ s.dirs.length →
    ∃ tr, ticks ops s = some tr ∧ tr.length = ops.count Op.step := by
  intro ops
  induction ops with
  | nil => intro s _ _; exact ⟨[], rfl, rfl⟩
  | cons op ops ih =>
    intro s hops hinv
    have hrest : ∀ o ∈ ops, o ≠ Op.grow := fun o ho => hops o (List.mem_cons_of_mem _ ho)
    cases op with
    | turn dir =>
      have hne : s.dirs ≠ [] := by
        intro h0; rw [h0] at hinv; simp at hinv
      have ht := turn_spec s dir hne
      obtain ⟨tr, htr, hl⟩ := ih { s with dirs := s.dirs.dropLast ++ [dir] } hrest (by
        have : 0 < s.dirs.length := List.length_pos.mpr hne
        simp; omega)
      refine ⟨tr, ?_, ?_⟩
      · simp only [ticks, apply, ht, htr]
      · rw [hl, List.count_cons]; simp
    | step =>
      obtain ⟨last, body1, -, hmove, -, -⟩ := move_spec s hinv
      obtain ⟨s1, hmove⟩ : ∃ s1, s.move = some s1 := ⟨_, hmove⟩
      obtain ⟨tr, htr, hl⟩ := ih s1 hrest ((apply_lengths s s1 Op.step hmove).2.2.2 hinv)
      refine ⟨(s, s1) :: tr, ?_, ?_⟩
      · simp only [ticks, hmove, htr]
      · rw [List.length_cons, hl, List.count_cons]; simp
    | grow => exact absurd rfl (hops Op.grow (List.mem_cons_self _ _))

/-- Along a sequence of `turn` and `move` calls, the snake before tick `k`
(counting from 0) has `k` more history entries than at the start, the same body
length and radius, and every entry but the last of the starting history. -/
theorem ticks_frame : ∀ (ops : List Op) (s : Snake) (tr : List (Snake × Snake)),
    (∀ op ∈ ops, op ≠ Op.grow) → ticks ops s = some tr →
    ∀ (k : Nat) (b a : Snake), tr[k]? = some (b, a) →
      b.move = some a ∧ b.dirs.length = s.dirs.length + k ∧
      b.body.length = s.body.length ∧ b.head.radius = s.head.radius ∧
      ∀ j, j + 1 < s.dirs.length → b.dirs[j]? = s.dirs[j]? := by
  intro ops
  induction ops with
  | nil =>
    intro s tr _ h k b a hk
    simp only [ticks, Option.some.injEq] at h
    subst h
    simp at hk
  | cons op ops ih =>
    intro s tr hops h k b a hk
    have hrest : ∀ o ∈ ops, o ≠ Op.grow := fun o ho => hops o (List.mem_cons_of_mem _ ho)
    cases op with
    | turn dir =>
      simp only [ticks, apply] at h
      cases ht : s.turn dir with
      | none => simp [ht] at h
      | some s1 =>
        simp only [ht] at h
        obtain ⟨hne, rfl⟩ := turn_eq_some s s1 dir ht
        have hpos : 0 < s.dirs.length := List.length_pos.mpr hne
        obtain ⟨h1, h2, h3, h4, h5⟩ := ih _ tr hrest h k b a hk
        refine ⟨h1, ?_, h3, h4, ?_⟩
        · rw [h2]; simp; omega
        · intro j hj
          rw [h5 j (by simp; omega)]
          show (s.dirs.dropLast ++ [dir])[j]? = s.dirs[j]?
          rw [List.getElem?_append_left (by simp; omega)]
          rw [List.getElem?_dropLast, if_pos (by omega)]
    | step =>
      simp only [ticks] at h
      cases hm : s.move with
      | none => simp [hm] at h
      | some s1 =>
        simp only [hm] at h
        cases hr : ticks ops s1 with
        | none => simp [hr] at h
        | some tr1 =>
          simp only [hr, Option.some.injEq] at h
          subst h
          obtain ⟨last, -, -, hd, hb, -⟩ := move_eq_some s s1 hm
          cases k with
          | zero =>
            simp only [List.getElem?_cons_zero, Option.some.injEq, Prod.mk.injEq] at hk
            obtain ⟨rfl, rfl⟩ := hk
            exact ⟨hm, rfl, rfl, rfl, fun _ _ => rfl⟩
          | succ k1 =>
            simp only [List.getElem?_cons_succ] at hk
            obtain ⟨h1, h2, h3, h4, h5⟩ := ih _ tr1 hrest hr k1 b a hk
            have hrad : s1.head.radius = s.head.radius := by
              obtain ⟨_, -, hh, -, -, -⟩ := move_eq_some s s1 hm
              rw [hh]
            refine ⟨h1, ?_, by rw [h3, hb], by rw [h4, hrad], ?_⟩
            · rw [h2, hd]; simp; omega
            · intro j hj
              rw [h5 j (by rw [hd]; simp; omega), hd]
              exact List.getElem?_append_left (by omega)
    | grow => exact absurd rfl (hops Op.grow (List.mem_cons_self _ _))

/-- Along a sequence of `turn` and `move` calls, the entry the head moved along
in tick `m` stays in the history: before every later tick `k` it is the entry at
offset `len(dirs at the start) - 1 + m`. -/
theorem ticks_relay : ∀ (ops : List Op) (s : Snake) (tr : List (Snake × Snake)),
    (∀ op ∈ ops, op ≠ Op.grow) → ticks ops s = some tr → s.dirs ≠ [] →
    ∀ (k m : Nat) (b a b1 a1 : Snake), m < k → tr[k]? = some (b, a) → tr[m]? = some (b1, a1) →
      b.dirs[s.dirs.length - 1 + m]? = b1.dirs.getLast? := by
  intro ops
  induction ops with
  | nil =>
    intro s tr _ h _ k m b a b1 a1 _ hk _
    simp only [ticks, Option.some.injEq] at h
    subst h
    simp at hk
  | cons op ops ih =>
    intro s tr hops h hne k m b a b1 a1 hmk hk hm
    have hrest : ∀ o ∈ ops, o ≠ Op.grow := fun o ho => hops o (List.mem_cons_of_mem _ ho)
    have hpos : 0 < s.dirs.length := List.length_pos.mpr hne
    cases op with
    | turn dir =>
      simp only [ticks, apply] at h
      cases ht : s.turn dir with
      | none => simp [ht] at h
      | some s1 =>
        simp only [ht] at h
        obtain ⟨-, rfl⟩ := turn_eq_some s s1 dir ht
        have := ih _ tr hrest h (by simp) k m b a b1 a1 hmk hk hm
        have hl : (s.dirs.dropLast ++ [dir]).length = s.dirs.length := by simp; omega
        simp only [hl] at this
        exact this
    | step =>
      simp only [ticks] at h
      cases hmv : s.move with
      | none => simp [hmv] at h
      | some s1 =>
        simp only [hmv] at h
        cases hr : ticks ops s1 with
        | none => simp [hr] at h
        | some tr1 =>
          simp only [hr, Option.some.injEq] at h
          subst h
          obtain ⟨last, -, -, hd, -, -⟩ := move_eq_some s s1 hmv
          obtain ⟨k1, rfl⟩ : ∃ k1, k = k1 + 1 := ⟨k - 1, by omega⟩
          simp only [List.getElem?_cons_succ] at hk
          have hne1 : s1.dirs ≠ [] := by rw [hd]; simp
          cases m with
          | zero =>
            simp only [List.getElem?_cons_zero, Option.some.injEq, Prod.mk.injEq] at hm
            obtain ⟨rfl, rfl⟩ := hm
            obtain ⟨-, -, -, -, h5⟩ := ticks_frame ops s1 tr1 hrest hr k1 b a hk
            rw [Nat.add_zero, h5 (s.dirs.length - 1) (by rw [hd]; simp; omega), hd,
              List.getElem?_append_left (by omega), List.getLast?_eq_getElem?]
          | succ m1 =>
            simp only [List.getElem?_cons_succ] at hm
            have := ih s1 tr1 hrest hr hne1 k1 m1 b a b1 a1 (by omega) hk hm
            rw [← this, hd]
            congr 1
            simp; omega
    | grow => exact absurd rfl (hops Op.grow (List.mem_cons_self _ _))

/-- The directional relay in exact arithmetic.  For every snake built by the constructor and
every sequence of `turn` and `move` calls, the sequence runs through with one
tick for each `move`, and at every tick `t` (from 1) every body part at trailing
distance `d` (index `d - 1`, `1 <= d <= length`) with `d < t` is displaced by
`size` times the direction the head moved along during tick `t - d`: its
displacement is the displacement of the head `d` ticks earlier. -/
theorem directional_relay_exact (scr : Vector2u) (size : ℚ) (length : Nat) (ops : List Op)
    (hops : ∀ op ∈ ops, op ≠ Op.grow) :
    ∃ tr, ticks ops (construct scr size length) = some tr ∧ tr.length = ops.count Op.step ∧
      ∀ (t d : Nat) (b a b1 a1 : Snake), 1 ≤ d → d ≤ length → d < t →
        tr[t - 1]? = some (b, a) → tr[t - d - 1]? = some (b1, a1) →
        ∃ (dir : Vector2f) (part part1 : RectangleShape),
          b1.dirs.getLast? = some dir ∧
          a1.head.position = b1.head.position + dir * size ∧
          b.body[d - 1]? = some part ∧ a.body[d - 1]? = some part1 ∧
          part1.position = part.position + dir * size ∧
          part1.position - part.position = dir * size ∧
          part1.position - part.position = a1.head.position - b1.head.position := by
  have hinv : (construct scr size length).body.length + 1 ≤
      (construct scr size length).dirs.length := by
    rw [length_body_construct, length_dirs_construct]
  have hne : (construct scr size length).dirs ≠ [] := by simp [construct]
  obtain ⟨tr, htr, hlen⟩ := ticks_total ops _ hops hinv
  refine ⟨tr, htr, hlen, ?_⟩
  intro t d b a b1 a1 hd1 hdL hdt hk hm
  obtain ⟨hmove, hbl, hbb, hbr, -⟩ := ticks_frame ops _ tr hops htr (t - 1) b a hk
  obtain ⟨hmove1, -, -, hbr1, -⟩ := ticks_frame ops _ tr hops htr (t - d - 1) b1 a1 hm
  have hrelay := ticks_relay ops _ tr hops htr hne (t - 1) (t - d - 1) b a b1 a1 (by omega) hk hm
  rw [length_dirs_construct] at hbl hrelay
  rw [length_body_construct] at hbb
  have hsize : b.size = size := by
    rw [Snake.size, hbr, ← Snake.size, size_construct]
  have hsize1 : b1.size = size := by
    rw [Snake.size, hbr1, ← Snake.size, size_construct]
  obtain ⟨part, hpart⟩ : ∃ part, b.body[d - 1]? = some part :=
    ⟨b.body[d - 1], List.getElem?_eq_getElem (by omega)⟩
  obtain ⟨-, -, -, -, -, hparts⟩ := move_eq_some b a hmove
  obtain ⟨e, he, hpart1⟩ := hparts (d - 1) part hpart
  obtain ⟨last1, hlast1, hhead1, -, -, -⟩ := move_eq_some b1 a1 hmove1
  have hidx : b.dirs.length - 2 - (d - 1) = length + 1 - 1 + (t - d - 1) := by omega
  rw [hidx, hrelay, hlast1] at he
  have hel : last1 = e := Option.some.inj he
  subst hel
  rw [hsize] at hpart1
  rw [hsize1] at hhead1
  refine ⟨last1, part, _, hlast1, by rw [hhead1], hpart, hpart1, rfl, ?_, ?_⟩
  · simp [RectangleShape.move]
  · rw [hhead1]
    simp [RectangleShape.move]

end Snake

theorem Vector2f.eq_of_components {a b : Vector2f} (hx : a.x = b.x) (hy : a.y = b.y) : a = b := by
  cases a; cases b; simp_all

namespace Snake

/-- The freshly constructed snake is a connected chain. -/
theorem isChain_construct (scr : Vector2u) (size : ℚ) (length : Nat) :
    (construct scr size length).IsChain := by
  constructor
  · intro part d hp hd
    have hdUP := getElem?_dirs_construct scr size length _ d hd
    subst hdUP
    have hlt : 0 < length := by
      have := (List.getElem?_eq_some_iff.mp hp).1
      rwa [length_body_construct] at this
    have hp1 : (construct scr size length).body[0]? = _ := getElem?_placeBody size length _ 0 hlt
    rw [hp] at hp1
    rw [Option.some.inj hp1, size_construct]
    apply Vector2f.eq_of_components <;> simp [construct, UP]
  · intro i part next d hp hn hd
    have hdUP := getElem?_dirs_construct scr size length _ d hd
    subst hdUP
    have hlt : i + 1 < length := by
      have := (List.getElem?_eq_some_iff.mp hn).1
      rwa [length_body_construct] at this
    have hp1 : (construct scr size length).body[i]? = _ :=
      getElem?_placeBody size length _ i (by omega)
    have hn1 : (construct scr size length).body[i + 1]? = _ :=
      getElem?_placeBody size length _ (i + 1) hlt
    rw [hp] at hp1
    rw [hn] at hn1
    rw [Option.some.inj hp1, Option.some.inj hn1, size_construct]
    apply Vector2f.eq_of_components
    · simp [UP]
    · simp only [UP, Vector2f.mul_def, Vector2f.add_def]
      push_cast
      ring

/-- The method `turn` keeps a connected chain connected. -/
theorem isChain_turn (s s1 : Snake) (dir : Vector2f) (h : s.turn dir = some s1)
    (hinv : s.body.length + 1 ≤ s.dirs.length) (hc : s.IsChain) : s1.IsChain := by
  obtain ⟨hne, rfl⟩ := turn_eq_some s s1 dir h
  have hpos : 0 < s.dirs.length := List.length_pos.mpr hne
  have hl : (s.dirs.dropLast ++ [dir]).length = s.dirs.length := by simp; omega
  have hget : ∀ (j : Nat) (d : Vector2f), (s.dirs.dropLast ++ [dir])[j]? = some d →
      j + 1 < s.dirs.length → s.dirs[j]? = some d := by
    intro j d hj hlt
    rw [List.getElem?_append_left (by simp; omega), List.getElem?_dropLast,
      if_pos (by omega)] at hj
    exact hj
  constructor
  · intro part d hp hd
    have hlt : 0 < s.body.length := (List.getElem?_eq_some_iff.mp hp).1
    simp only [hl] at hd
    exact hc.1 part d hp (hget _ d hd (by omega))
  · intro i part next d hp hn hd
    have hlt : i + 1 < s.body.length := (List.getElem?_eq_some_iff.mp hn).1
    simp only [hl] at hd
    exact hc.2 i part next d hp hn (hget _ d hd (by omega))

/-- The method `move` keeps a connected chain connected, and the snake after it
follows the snake before it. -/
theorem isChain_move (s s1 : Snake) (h : s.move = some s1) (hc : s.IsChain) :
    s1.IsChain ∧ s.Follows s1 := by
  have hinv := move_eq_some_length s s1 h
  obtain ⟨last, hlast, hhead, hdirs, hblen, hparts⟩ := move_eq_some s s1 h
  have hsize : s1.size = s.size := by rw [Snake.size, hhead, Snake.size]
  -- the position of every part after the move
  have hpos0 : ∀ part1 : RectangleShape, s1.body[0]? = some part1 →
      part1.position = s.head.position := by
    intro part1 hp1
    have hlt : 0 < s.body.length := by
      have := (List.getElem?_eq_some_iff.mp hp1).1
      omega
    obtain ⟨d, hd, hb⟩ := hparts 0 s.body[0] (List.getElem?_eq_getElem hlt)
    rw [hp1] at hb
    rw [Option.some.inj hb]
    exact hc.1 _ d (List.getElem?_eq_getElem hlt) hd
  have hposS : ∀ (i : Nat) (part part1 : RectangleShape), s.body[i]? = some part →
      s1.body[i + 1]? = some part1 → part1.position = part.position := by
    intro i part part1 hp hp1
    have hlt : i + 1 < s.body.length := by
      have := (List.getElem?_eq_some_iff.mp hp1).1
      omega
    obtain ⟨d, hd, hb⟩ := hparts (i + 1) s.body[i + 1] (List.getElem?_eq_getElem hlt)
    rw [hp1] at hb
    rw [Option.some.inj hb]
    exact hc.2 i part _ d hp (List.getElem?_eq_getElem hlt) hd
  refine ⟨⟨?_, ?_⟩, hpos0, hposS⟩
  · intro part1 d1 hp1 hd1
    have hd1last : d1 = last := by
      rw [hdirs] at hd1
      have hidx : (s.dirs ++ [last]).length - 2 = s.dirs.length - 1 := by simp
      rw [hidx, List.getElem?_append_left (by omega), ← List.getLast?_eq_getElem?, hlast] at hd1
      exact (Option.some.inj hd1).symm
    rw [hpos0 part1 hp1, hd1last, hsize, hhead]
  · intro i part1 next1 d1 hp1 hn1 hd1
    have hlt : i + 1 < s.body.length := by
      have := (List.getElem?_eq_some_iff.mp hn1).1
      omega
    obtain ⟨d, hd, hb⟩ := hparts i s.body[i] (List.getElem?_eq_getElem (by omega))
    have hdd : d1 = d := by
      rw [hdirs] at hd1
      have hidx : (s.dirs ++ [last]).length - 2 - (i + 1) = s.dirs.length - 2 - i := by
        simp; omega
      rw [hidx, List.getElem?_append_left (by omega), hd] at hd1
      exact (Option.some.inj hd1).symm
    rw [hp1] at hb
    rw [hposS i s.body[i] next1 (List.getElem?_eq_getElem (by omega)) hn1, hdd, hsize,
      Option.some.inj hb]
    rfl

/-- The method `extend` keeps a connected chain connected. -/
theorem isChain_extend (s s1 : Snake) (h : s.extend = some s1) (hc : s.IsChain) :
    s1.IsChain := by
  obtain ⟨hb, hlen⟩ := extend_eq_some_length s s1 h
  obtain ⟨tail, d0, htail, hd0, hext⟩ := extend_spec s hb hlen
  rw [hext] at h
  have := Option.some.inj h
  subst this
  have hpos : 0 < s.body.length := List.length_pos.mpr hb
  constructor
  · intro part d hp hd
    have hp0 : s.body[0]? = some part := by
      rw [← hp]
      exact (List.getElem?_append_left hpos).symm
    exact hc.1 part d hp0 hd
  · intro i part next d hp hn hd
    have hi : i + 1 < s.body.length + 1 := by
      have := (List.getElem?_eq_some_iff.mp hn).1
      simpa using this
    have hpi : s.body[i]? = some part := by
      rw [← hp]
      exact (List.getElem?_append_left (by omega)).symm
    by_cases hlast : i + 1 < s.body.length
    · have hni : s.body[i + 1]? = some next := by
        rw [← hn]
        exact (List.getElem?_append_left hlast).symm
      exact hc.2 i part next d hpi hni hd
    · have hi1 : i + 1 = s.body.length := by omega
      have hnew : next = ⟨⟨s.size, s.size⟩, tail.position - s.size * d0⟩ := by
        have : (s.body ++ [(⟨⟨s.size, s.size⟩, tail.position - s.size * d0⟩ :
            RectangleShape)])[i + 1]? = some next := hn
        rw [List.getElem?_append_right (by omega), hi1] at this
        simpa using this.symm
      have hpt : part = tail := by
        rw [List.getLast?_eq_getElem?] at htail
        have hidx : s.body.length - 1 = i := by omega
        rw [hidx, hpi] at htail
        exact Option.some.inj htail
      have hdd : d = d0 := by
        have hd' : s.dirs[s.dirs.length - 2 - (i + 1)]? = some d := hd
        rw [hi1, hd0] at hd'
        exact (Option.some.inj hd').symm
      rw [hnew, hpt, hdd]
      apply Vector2f.eq_of_components <;> simp [Snake.size]

/-- A `move` directly followed by `extend`: the new tail sits where the tail
was before the `move`. -/
theorem extend_after_move (s s1 s2 : Snake) (tail : RectangleShape) (hm : s.move = some s1)
    (he : s1.extend = some s2) (ht : s.body.getLast? = some tail) :
    ∃ newTail : RectangleShape, s2.body = s1.body ++ [newTail] ∧
      newTail.position = tail.position := by
  have hinv := move_eq_some_length s s1 hm
  obtain ⟨last, hlast, hhead, hdirs, hblen, hparts⟩ := move_eq_some s s1 hm
  have hsize : s1.size = s.size := by rw [Snake.size, hhead, Snake.size]
  obtain ⟨hb1, hlen1⟩ := extend_eq_some_length s1 s2 he
  obtain ⟨tail1, d1, htail1, hd1, hext⟩ := extend_spec s1 hb1 hlen1
  rw [hext] at he
  have := Option.some.inj he
  subst this
  refine ⟨_, rfl, ?_⟩
  have hpos : 0 < s.body.length := by
    have := List.length_pos.mpr hb1
    omega
  rw [List.getLast?_eq_getElem?] at ht htail1
  obtain ⟨d, hd, hb⟩ := hparts (s.body.length - 1) tail ht
  rw [hblen] at htail1
  rw [htail1] at hb
  have hdd : d1 = d := by
    rw [hdirs] at hd1
    have hidx : (s.dirs ++ [last]).length - 2 - s1.body.length =
        s.dirs.length - 2 - (s.body.length - 1) := by
      simp; omega
    rw [hidx, List.getElem?_append_left (by omega), hd] at hd1
    exact (Option.some.inj hd1).symm
  rw [hdd, Option.some.inj hb, hsize]
  apply Vector2f.eq_of_components <;> simp [RectangleShape.move]

/-- Every successful call keeps a connected chain connected. -/
theorem isChain_apply (s s1 : Snake) (op : Op) (h : s.apply op = some s1)
    (hinv : s.body.length + 1 ≤ s.dirs.length) (hc : s.IsChain) : s1.IsChain := by
  cases op with
  | turn dir => exact isChain_turn s s1 dir h hinv hc
  | step => exact (isChain_move s s1 h hc).1
  | grow => exact isChain_extend s s1 h hc

/-- A sequence of calls in which every `extend` directly follows a `move` runs
through on a snake with a body, and keeps it a connected chain. -/
theorem run_growsFollowSteps : ∀ (ops : List Op) (prev : Bool) (s : Snake),
    growsFollowSteps prev ops = true → s.body ≠ [] → s.body.length + 1 ≤ s.dirs.length →
    (prev = true → s.body.length + 2 ≤ s.dirs.length) → s.IsChain →
    ∃ s1, run ops s = some s1 ∧ s1.body ≠ [] ∧ s1.body.length + 1 ≤ s1.dirs.length ∧
      s1.IsChain := by
  intro ops
  induction ops with
  | nil => intro prev s _ hb hinv _ hc; exact ⟨s, rfl, hb, hinv, hc⟩
  | cons op ops ih =>
    intro prev s hops hb hinv hprev hc
    have hbody : ∀ s1 : Snake, s.apply op = some s1 → s1.body ≠ [] := by
      intro s1 h1
      have := (apply_lengths s s1 op h1).2.1
      have hpos : 0 < s.body.length := List.length_pos.mpr hb
      exact List.length_pos.mp (by omega)
    cases op with
    | turn dir =>
      have hne : s.dirs ≠ [] := List.length_pos.mp (by omega)
      have ht := turn_spec s dir hne
      simp only [growsFollowSteps] at hops
      obtain ⟨s2, hrun, h2⟩ := ih false _ hops (hbody _ ht)
        ((apply_lengths s _ (Op.turn dir) ht).2.2.2 hinv) (by simp)
        (isChain_apply s _ (Op.turn dir) ht hinv hc)
      exact ⟨s2, by simp only [run, apply, ht, hrun], h2⟩
    | step =>
      obtain ⟨last, body1, -, hmove, -, -⟩ := move_spec s hinv
      obtain ⟨s1, hmove⟩ : ∃ s1, s.move = some s1 := ⟨_, hmove⟩
      simp only [growsFollowSteps] at hops
      obtain ⟨h1, h2, -, -⟩ := apply_lengths s s1 Op.step hmove
      simp only [if_true] at h1
      simp only [reduceCtorEq, if_false] at h2
      obtain ⟨s2, hrun, h3⟩ := ih true s1 hops (hbody s1 hmove) (by omega) (fun _ => by omega)
        (isChain_apply s s1 Op.step hmove hinv hc)
      exact ⟨s2, by simp only [run, apply, hmove, hrun], h3⟩
    | grow =>
      simp only [growsFollowSteps, Bool.and_eq_true] at hops
      obtain ⟨tail, d, -, -, hext⟩ := extend_spec s hb (hprev hops.1)
      obtain ⟨s2, hrun, h3⟩ := ih false _ hops.2 (hbody _ hext)
        ((apply_lengths s _ Op.grow hext).2.2.2 hinv) (by simp)
        (isChain_apply s _ Op.grow hext hinv hc)
      exact ⟨s2, by simp only [run, apply, hext, hrun], h3⟩

/-- Growth tracks the tail's path, in exact arithmetic.  Take a snake built by the constructor
with at least one part and any sequence of `turn`, `move` and `extend` calls in
which every `extend` directly follows a `move` (two consecutive ticks with food,
`move, extend, move, extend`, included).  The sequence runs through; in the
state reached a further `move` and `extend` succeed, the `extend` puts the new
tail exactly where the tail was before that `move`, and after the `move` part 0
is where the head was and every part `i >= 1` where part `i - 1` was. -/
theorem growth_tracks_tail_exact (scr : Vector2u) (size : ℚ) (length : Nat) (ops : List Op)
    (hL : 1 ≤ length) (hops : growsFollowSteps false ops = true) :
    ∃ (s s1 s2 : Snake) (tail newTail : RectangleShape),
      run ops (construct scr size length) = some s ∧
      s.move = some s1 ∧ s1.extend = some s2 ∧
      s.body.getLast? = some tail ∧
      s2.body = s1.body ++ [newTail] ∧ newTail.position = tail.position ∧
      s.Follows s1 := by
  have hb0 : (construct scr size length).body ≠ [] :=
    List.length_pos.mp (by rw [length_body_construct]; omega)
  have hinv0 : (construct scr size length).body.length + 1 ≤
      (construct scr size length).dirs.length := by
    rw [length_body_construct, length_dirs_construct]
  obtain ⟨s, hrun, hb, hinv, hc⟩ := run_growsFollowSteps ops false _ hops hb0 hinv0 (by simp)
    (isChain_construct scr size length)
  obtain ⟨last, body1, -, hmove, -, -⟩ := move_spec s hinv
  obtain ⟨s1, hmove⟩ : ∃ s1, s.move = some s1 := ⟨_, hmove⟩
  obtain ⟨h1, h2, -, -⟩ := apply_lengths s s1 Op.step hmove
  simp only [if_true] at h1
  simp only [reduceCtorEq, if_false] at h2
  have hb1 : s1.body ≠ [] := by
    have hpos : 0 < s.body.length := List.length_pos.mpr hb
    exact List.length_pos.mp (by omega)
  obtain ⟨tail1, d, -, -, hext⟩ := extend_spec s1 hb1 (by omega)
  obtain ⟨s2, hext⟩ : ∃ s2, s1.extend = some s2 := ⟨_, hext⟩
  have htail : s.body.getLast? = some (s.body.getLast hb) := List.getLast?_eq_getLast _ hb
  obtain ⟨newTail, hbody2, hpos⟩ := extend_after_move s s1 s2 _ hmove hext htail
  exact ⟨s, s1, s2, _, newTail, hrun, hmove, hext, htail, hbody2, hpos,
    (isChain_move s s1 hmove hc).2⟩

end Snake

theorem bounded_eq_true (t : ℚ) (hi : Nat) :
    bounded 0 t hi = true ↔ 0 ≤ t ∧ t ≤ Float32.ofNat hi := by
  simp [bounded, Float32.ofNat, Float32.round_zero]

namespace Snake

/-- The value of `isAlive` on a body with a first part: `false` exactly when the
head collides with one of the parts after the first or the head's position
leaves `[0, float(scr.x)] x [0, float(scr.y)]`. -/
theorem isAlive_cons (lb : ℚ → FloatRect) (s : Snake) (scr : Vector2u)
    (first : RectangleShape) (rest : List RectangleShape) (hbody : s.body = first :: rest) :
    ∃ alive, s.isAlive lb scr = some alive ∧
      (alive = false ↔
        (∃ part ∈ rest, s.isCollided lb part = true) ∨
        ¬ (0 ≤ s.head.position.x ∧ s.head.position.x ≤ Float32.ofNat scr.x) ∨
        ¬ (0 ≤ s.head.position.y ∧ s.head.position.y ≤ Float32.ofNat scr.y)) := by
  unfold isAlive
  rw [hbody]
  by_cases hany : rest.any (fun part => s.isCollided lb part) = true
  · refine ⟨false, by simp only [hany, if_true], ?_⟩
    simp only [true_iff]
    left
    simpa using hany
  · refine ⟨_, by simp only [hany]; rfl, ?_⟩
    have hnone : ¬ ∃ part ∈ rest, s.isCollided lb part = true := by
      simpa using hany
    rw [← Bool.not_eq_true, Bool.and_eq_true, bounded_eq_true, bounded_eq_true]
    constructor
    · intro h
      right
      by_contra hc
      push_neg at hc
      exact h ⟨hc.1, hc.2⟩
    · rintro (h | h | h)
      · exact absurd h hnone
      · exact fun hc => h hc.1
      · exact fun hc => h hc.2

/-- C5 fails as stated: `bounded` compares the head's coordinate with the width
converted to `float`, and the width 16777219 converts to 16777220.  On that
screen a head at `x = W + 1 = 16777220`, without any collision (the body has a
single part, which is never tested), is alive. -/
theorem isAlive_beyond_width :
    Float32.ofNat 16777219 = 16777220 ∧
    (16777220 : ℚ) = ((16777219 : Nat) : ℚ) + 1 ∧
    (⟨⟨10, ⟨16777220, 100⟩⟩, [UP, UP], [⟨⟨20, 20⟩, ⟨16777220, 120⟩⟩]⟩ : Snake).isAlive
      exactCircleBounds ⟨16777219, 600⟩ = some true := by
  refine ⟨by decide!, by norm_num, by decide!⟩

/-- C5 as amended.  For every snake with at least one body part and every
screen size `(W, H)`, `isAlive` has a result, and the result is `false` exactly
when the head's box intersects the box of some part of index at least 1 or the
head's position `(x, y)` fails `0 <= x <= float(W)` or `0 <= y <= float(H)`,
where `float(n)` is `n` converted to single precision.  Part 0 is never tested:
replacing it changes nothing.  For `W <= 2^24` and `H <= 2^24` the conversion is
exact, so the bounds are `W` and `H`, inclusive: without a collision a head at
`(W, y)` with `0 <= y <= H` is alive, and a head at `(W + 1, y)` never is. -/
theorem isAlive_characterisation (lb : ℚ → FloatRect) (s : Snake) (scr : Vector2u)
    (hbody : s.body ≠ []) :
    ∃ alive, s.isAlive lb scr = some alive ∧
      (alive = false ↔
        (∃ (i : Nat) (part : RectangleShape), 1 ≤ i ∧ s.body[i]? = some part ∧
          s.isCollided lb part = true) ∨
        ¬ (0 ≤ s.head.position.x ∧ s.head.position.x ≤ Float32.ofNat scr.x) ∨
        ¬ (0 ≤ s.head.position.y ∧ s.head.position.y ≤ Float32.ofNat scr.y)) ∧
      (∀ other : RectangleShape,
        isAlive lb { s with body := other :: s.body.tail } scr = s.isAlive lb scr) ∧
      (scr.x ≤ 2 ^ 24 → scr.y ≤ 2 ^ 24 →
        Float32.ofNat scr.x = (scr.x : ℚ) ∧ Float32.ofNat scr.y = (scr.y : ℚ) ∧
        ((¬ ∃ (i : Nat) (part : RectangleShape), 1 ≤ i ∧ s.body[i]? = some part ∧
            s.isCollided lb part = true) →
          s.head.position.x = (scr.x : ℚ) → 0 ≤ s.head.position.y →
          s.head.position.y ≤ (scr.y : ℚ) → alive = true) ∧
        (s.head.position.x = (scr.x : ℚ) + 1 → alive = false)) := by
  obtain ⟨first, rest, hcons⟩ : ∃ first rest, s.body = first :: rest := by
    cases hb : s.body with
    | nil => exact absurd hb hbody
    | cons a t => exact ⟨a, t, rfl⟩
  obtain ⟨alive, halive, hiff⟩ := isAlive_cons lb s scr first rest hcons
  have hidx : (∃ part ∈ rest, s.isCollided lb part = true) ↔
      ∃ (i : Nat) (part : RectangleShape), 1 ≤ i ∧ s.body[i]? = some part ∧
        s.isCollided lb part = true := by
    rw [hcons]
    constructor
    · rintro ⟨part, hmem, hcol⟩
      obtain ⟨n, hn⟩ := List.getElem?_of_mem hmem
      exact ⟨n + 1, part, by omega, by simpa using hn, hcol⟩
    · rintro ⟨i, part, hi, hget, hcol⟩
      obtain ⟨n, rfl⟩ : ∃ n, i = n + 1 := ⟨i - 1, by omega⟩
      rw [List.getElem?_cons_succ] at hget
      exact ⟨part, List.getElem?_mem hget, hcol⟩
  rw [hidx] at hiff
  refine ⟨alive, halive, hiff, ?_, ?_⟩
  · intro other
    rw [hcons]
    unfold isAlive
    rw [hcons]
    rfl
  · intro hW hH
    have hfx : Float32.ofNat scr.x = (scr.x : ℚ) := Float32.round_natCast scr.x hW
    have hfy : Float32.ofNat scr.y = (scr.y : ℚ) := Float32.round_natCast scr.y hH
    rw [hfx, hfy] at hiff
    refine ⟨hfx, hfy, ?_, ?_⟩
    · intro hno hx hy0 hy1
      by_contra hne
      have hf : alive = false := by simpa using hne
      rcases hiff.mp hf with h | h | h
      · exact hno h
      · exact h ⟨by rw [hx]; exact Nat.cast_nonneg _, by rw [hx]⟩
      · exact h ⟨hy0, hy1⟩
    · intro hx
      apply hiff.mpr
      right; left
      intro hc
      rw [hx] at hc
      linarith [hc.2]

/-- Witness for C5 as amended: the snake the constructor builds on the machine
for the shipped configuration is alive on the 800 x 600 screen, with the box of
the exact circle; the two bounds are 800 and 600. -/
theorem isAlive_characterisation_witness :
    (construct32 ⟨800, 600⟩ 20 15).isAlive exactCircleBounds ⟨800, 600⟩ = some true ∧
    Float32.ofNat 800 = ((800 : Nat) : ℚ) ∧ Float32.ofNat 600 = ((600 : Nat) : ℚ) ∧
    ∃ alive, (construct32 ⟨800, 600⟩ 20 15).isAlive exactCircleBounds ⟨800, 600⟩ = some alive ∧
      (alive = false ↔
        (∃ (i : Nat) (part : RectangleShape), 1 ≤ i ∧
          (construct32 ⟨800, 600⟩ 20 15).body[i]? = some part ∧
          (construct32 ⟨800, 600⟩ 20 15).isCollided exactCircleBounds part = true) ∨
        ¬ (0 ≤ (construct32 ⟨800, 600⟩ 20 15).head.position.x ∧
          (construct32 ⟨800, 600⟩ 20 15).head.position.x ≤ Float32.ofNat 800) ∨
        ¬ (0 ≤ (construct32 ⟨800, 600⟩ 20 15).head.position.y ∧
          (construct32 ⟨800, 600⟩ 20 15).head.position.y ≤ Float32.ofNat 600)) := by
  obtain ⟨alive, h1, h2, -, h4⟩ := isAlive_characterisation exactCircleBounds
    (construct32 ⟨800, 600⟩ 20 15) ⟨800, 600⟩ (by decide)
  obtain ⟨h5, h6, -, -⟩ := h4 (by norm_num) (by norm_num)
  exact ⟨by decide!, h5, h6, alive, h1, h2⟩

end Snake

/-- What `migrate` has done when its loop exits: item `it` has a new position on
the lattice, keeps its size, is not too close to any other item, and the
generator has advanced. -/
theorem migrate_eq_some (range : Vector2u) (it : Nat) (size : ℚ) :
    ∀ (n : Nat) (samples : List ℚ), samples.length ≤ n →
      ∀ (foods foods1 : List RectangleShape) (gen1 : List ℚ),
        migrate range it size foods samples = some (foods1, gen1) →
        ∃ (item : RectangleShape) (p : Vector2f), foods[it]? = some item ∧
          foods1 = foods.set it ⟨item.size, p⟩ ∧
          too_close foods1 it (size * 4) = false ∧
          (∃ cx cy : Nat, p = ⟨size * (cx : ℚ), size * (cy : ℚ)⟩) ∧
          ∃ used, samples = used ++ gen1 := by
  intro n
  induction n with
  | zero =>
    intro samples hlen foods foods1 gen1 h
    have : samples = [] := List.length_eq_zero.mp (by omega)
    subst this
    simp [migrate] at h
  | succ n ih =>
    intro samples hlen foods foods1 gen1 h
    match samples, hlen, h with
    | [], _, h => simp [migrate] at h
    | [_], _, h => simp [migrate] at h
    | u :: v :: rest, hlen, h =>
      simp only [migrate] at h
      cases hitem : foods[it]? with
      | none => simp [hitem] at h
      | some item =>
        simp only [hitem] at h
        have hlt : it < foods.length := (List.getElem?_eq_some_iff.mp hitem).1
        split at h
        · rename_i hclose
          obtain ⟨item1, p, hitem1, hfoods1, hfar, hcell, used, hused⟩ :=
            ih rest (by simp at hlen; omega) _ foods1 gen1 h
          rw [List.getElem?_set_self hlt] at hitem1
          have hi := Option.some.inj hitem1
          subst hi
          refine ⟨item, p, rfl, ?_, hfar, hcell, u :: v :: used, by simp [hused]⟩
          rw [hfoods1, List.set_set]
          rfl
        · rename_i hclose
          simp only [Option.some.injEq, Prod.mk.injEq] at h
          obtain ⟨h1, h2⟩ := h
          subst h1 h2
          exact ⟨item, _, rfl, rfl, by simpa using hclose, ⟨_, _, rfl⟩, [u, v], rfl⟩

/-- The items of the collection apart from item `it` are untouched by
`migrate`. -/
theorem migrate_frame (range : Vector2u) (it : Nat) (size : ℚ) (samples : List ℚ)
    (foods foods1 : List RectangleShape) (gen1 : List ℚ)
    (h : migrate range it size foods samples = some (foods1, gen1)) :
    foods1.length = foods.length ∧ ∀ j, j ≠ it → foods1[j]? = foods[j]? := by
  obtain ⟨item, p, -, hfoods1, -, -, -⟩ :=
    migrate_eq_some range it size samples.length samples (Nat.le_refl _) foods foods1 gen1 h
  subst hfoods1
  exact ⟨by simp, fun j hj => List.getElem?_set_ne (Ne.symm hj)⟩

namespace FoodCollection

theorem firstCollided_eq_none (lb : ℚ → FloatRect) (snake : Snake) :
    ∀ (l : List RectangleShape) (start : Nat),
      firstCollided lb snake start l = none ↔ ∀ item ∈ l, snake.isCollided lb item = false := by
  intro l
  induction l with
  | nil => intro start; simp [firstCollided]
  | cons item rest ih =>
    intro start
    simp only [firstCollided]
    by_cases hc : snake.isCollided lb item = true
    · simp [hc]
    · rw [if_neg hc, ih (start + 1)]
      have hf : snake.isCollided lb item = false := by simpa using hc
      simp [hf]

theorem firstCollided_eq_some (lb : ℚ → FloatRect) (snake : Snake) :
    ∀ (l : List RectangleShape) (start it : Nat), firstCollided lb snake start l = some it →
      ∃ (k : Nat) (item : RectangleShape), it = start + k ∧ l[k]? = some item ∧
        snake.isCollided lb item = true ∧
        ∀ (j : Nat) (other : RectangleShape), j < k → l[j]? = some other →
          snake.isCollided lb other = false := by
  intro l
  induction l with
  | nil => intro start it h; simp [firstCollided] at h
  | cons item rest ih =>
    intro start it h
    simp only [firstCollided] at h
    by_cases hc : snake.isCollided lb item = true
    · rw [if_pos hc] at h
      refine ⟨0, item, by simpa using (Option.some.inj h).symm, by simp, hc, ?_⟩
      intro j other hj
      omega
    · rw [if_neg hc] at h
      obtain ⟨k, found, hk, hget, hcol, hbefore⟩ := ih (start + 1) it h
      refine ⟨k + 1, found, by omega, by simpa using hget, hcol, ?_⟩
      intro j other hj hother
      cases j with
      | zero =>
        simp only [List.getElem?_cons_zero, Option.some.injEq] at hother
        subst hother
        simpa using hc
      | succ j1 =>
        exact hbefore j1 other (by omega) (by simpa using hother)

/-- C7, `isEaten` is first-match-wins.  For every food collection and snake:
when no item's box intersects the head's, `isEaten` returns `false` and changes
nothing; when some item's does and the loop of `migrate` exits on the first such
item, `isEaten` returns `true`.  Whenever `isEaten` returns, it returns `true`
exactly when some item intersects the head; on `false` the collection is
unchanged; on `true` the first intersecting item in container order has been
given a new position and every other item is what it was. -/
theorem isEaten_first_match (lb : ℚ → FloatRect) (fc : FoodCollection) (snake : Snake) :
    ((∀ item ∈ fc.foods, snake.isCollided lb item = false) →
      fc.isEaten lb snake = some (false, fc)) ∧
    (∀ (it : Nat) (foods1 : List RectangleShape) (gen1 : List ℚ),
      firstCollided lb snake 0 fc.foods = some it →
      migrate fc.range it snake.size fc.foods fc.gen = some (foods1, gen1) →
      fc.isEaten lb snake = some (true, ⟨foods1, gen1, fc.range⟩)) ∧
    (∀ (b : Bool) (fc1 : FoodCollection), fc.isEaten lb snake = some (b, fc1) →
      (b = true ↔ ∃ item ∈ fc.foods, snake.isCollided lb item = true) ∧
      (b = false → fc1 = fc) ∧
      (b = true → ∃ (it : Nat) (item : RectangleShape) (p : Vector2f),
        fc.foods[it]? = some item ∧ snake.isCollided lb item = true ∧
        (∀ (j : Nat) (other : RectangleShape), j < it → fc.foods[j]? = some other →
          snake.isCollided lb other = false) ∧
        fc1.foods = fc.foods.set it ⟨item.size, p⟩ ∧
        fc1.range = fc.range ∧
        ∀ j, j ≠ it → fc1.foods[j]? = fc.foods[j]?)) := by
  refine ⟨?_, ?_, ?_⟩
  · intro hnone
    have := (firstCollided_eq_none lb snake fc.foods 0).mpr hnone
    simp only [isEaten, this]
  · intro it foods1 gen1 hfirst hmig
    simp only [isEaten, hfirst, hmig]
  · intro b fc1 h
    unfold isEaten at h
    cases hfirst : firstCollided lb snake 0 fc.foods with
    | none =>
      simp only [hfirst, Option.some.injEq, Prod.mk.injEq] at h
      obtain ⟨rfl, rfl⟩ := h
      have hnone := (firstCollided_eq_none lb snake fc.foods 0).mp hfirst
      refine ⟨?_, fun _ => rfl, fun hb => absurd hb (by simp)⟩
      constructor
      · intro hb; exact absurd hb (by simp)
      · rintro ⟨item, hmem, hcol⟩
        rw [hnone item hmem] at hcol
        exact absurd hcol (by simp)
    | some it =>
      simp only [hfirst] at h
      cases hmig : migrate fc.range it snake.size fc.foods fc.gen with
      | none => simp [hmig] at h
      | some r =>
        obtain ⟨foods1, gen1⟩ := r
        simp only [hmig, Option.some.injEq, Prod.mk.injEq] at h
        obtain ⟨rfl, rfl⟩ := h
        obtain ⟨k, item, hk, hget, hcol, hbefore⟩ :=
          firstCollided_eq_some lb snake fc.foods 0 it hfirst
        have hkit : k = it := by omega
        subst hkit
        obtain ⟨item1, p, hitem1, hfoods1, -, -, -⟩ :=
          migrate_eq_some fc.range k snake.size fc.gen.length fc.gen (Nat.le_refl _)
            fc.foods foods1 gen1 hmig
        rw [hget] at hitem1
        have hi := Option.some.inj hitem1
        subst hi
        refine ⟨⟨fun _ => ⟨item, List.getElem?_mem hget, hcol⟩, fun _ => rfl⟩,
          fun hb => absurd hb (by simp), fun _ => ?_⟩
        exact ⟨k, item, p, hget, hcol, hbefore, hfoods1, rfl,
          (migrate_frame fc.range k snake.size fc.gen fc.foods foods1 gen1 hmig).2⟩

set_option maxRecDepth 100000 in
/-- Witness for C7: two items under the head of the shipped snake, at offsets 1
and 2; `isEaten` returns `true`, moves only the item at offset 1 and consumes two
samples. -/
theorem isEaten_first_match_witness :
    isEaten exactCircleBounds
      ⟨[⟨⟨20, 20⟩, ⟨0, 300⟩⟩, ⟨⟨20, 20⟩, ⟨400, 140⟩⟩, ⟨⟨20, 20⟩, ⟨400, 140⟩⟩], [0, 3/4, 1/2],
        ⟨40, 30⟩⟩ (Snake.construct ⟨800, 600⟩ 20 15) =
      some (true, ⟨[⟨⟨20, 20⟩, ⟨0, 300⟩⟩, ⟨⟨20, 20⟩, ⟨0, 440⟩⟩, ⟨⟨20, 20⟩, ⟨400, 140⟩⟩], [1/2],
        ⟨40, 30⟩⟩) :=
  (isEaten_first_match exactCircleBounds
      ⟨[⟨⟨20, 20⟩, ⟨0, 300⟩⟩, ⟨⟨20, 20⟩, ⟨400, 140⟩⟩, ⟨⟨20, 20⟩, ⟨400, 140⟩⟩], [0, 3/4, 1/2],
        ⟨40, 30⟩⟩ (Snake.construct ⟨800, 600⟩ 20 15)).2.1 1
    [⟨⟨20, 20⟩, ⟨0, 300⟩⟩, ⟨⟨20, 20⟩, ⟨0, 440⟩⟩, ⟨⟨20, 20⟩, ⟨400, 140⟩⟩] [1/2]
    (by with_unfolding_all decide) (by with_unfolding_all decide)

end FoodCollection

namespace FoodCollection

end FoodCollection

end SnakeGame

/-! ## The constructor of the snake -/

namespace SnakeGame

namespace Snake

/-- The layout the constructor builds in exact arithmetic.  For every screen size, segment
size `size` and initial length `length`, the body has exactly `length` parts,
part `i` sits at the head's position plus `(0, (i + 1) * size)` (a vertical line
downward from the head), and the history has exactly `length + 1` entries, all
of them `UP`. -/
theorem construct_layout_exact (scr : Vector2u) (size : ℚ) (length : Nat) :
    (construct scr size length).body.length = length ∧
    (∀ i, i < length → ∃ part : RectangleShape,
      (construct scr size length).body[i]? = some part ∧
      part.position = (construct scr size length).head.position +
        (⟨0, ((i : ℚ) + 1) * size⟩ : Vector2f)) ∧
    (construct scr size length).dirs.length = length + 1 ∧
    (∀ d ∈ (construct scr size length).dirs, d = UP) := by
  refine ⟨length_body_construct scr size length, ?_, length_dirs_construct scr size length, ?_⟩
  · intro i hi
    refine ⟨_, getElem?_placeBody size length _ i hi, ?_⟩
    simp [construct]
  · intro d hd
    simp only [construct] at hd
    exact List.eq_of_mem_replicate hd

end Snake

/-! ## Pause toggling (C17) -/

namespace Game

/-- C17, pause toggling is an involution.  For every game state, handling
`KeyPressed(Space)` once changes only `isPaused`, and handling it twice gives
back the state itself: the flag has its original value, and the snake (head,
body, history) and the foods are untouched.  Events that follow are handled
from that same state. -/
theorem pause_twice (g : Game) (events : List Event) :
    pollEvents [Event.KeyPressed Key.Space] g =
      Outcome.next { g with isPaused := !g.isPaused } ∧
    pollEvents [Event.KeyPressed Key.Space, Event.KeyPressed Key.Space] g = Outcome.next g ∧
    pollEvents (Event.KeyPressed Key.Space :: Event.KeyPressed Key.Space :: events) g =
      pollEvents events g := by
  have hx : xor (xor g.isPaused true) true = g.isPaused := by cases g.isPaused <;> rfl
  refine ⟨?_, ?_, ?_⟩
  · simp [pollEvents]
  · simp only [pollEvents, hx]
  · simp only [pollEvents, hx]

end Game

end SnakeGame

/-! ## The history under `turn`, `move` and `extend` (C12, C20) -/

namespace SnakeGame

theorem readAt_isSome_iff {α : Type} (v : List α) (i : Int) :
    (readAt v i).isSome = true ↔ 0 ≤ i ∧ i < (v.length : Int) := by
  unfold readAt
  by_cases h : 0 ≤ i
  · rw [if_pos h]
    obtain ⟨n, rfl⟩ : ∃ n : Nat, i = (n : Int) := ⟨i.toNat, (Int.toNat_of_nonneg h).symm⟩
    simp only [Int.toNat_ofNat, Nat.cast_nonneg, true_and, Nat.cast_lt]
    constructor
    · intro hs
      obtain ⟨a, ha⟩ := Option.isSome_iff_exists.mp hs
      exact (List.getElem?_eq_some_iff.mp ha).1
    · intro hlt
      rw [List.getElem?_eq_getElem hlt]
      rfl
  · rw [if_neg h]
    simp [h]

namespace Snake

/-- C12, `turn` overwrites only the most recent history entry.  In every state
with a history (every state the constructor and the three methods produce has
one) and for all directions `a` and `b`: `turn(a)` keeps the length of the
history, every entry but the last, the head and the body, and makes `a` the
last entry; `turn(a)` followed by `turn(b)` gives the same state as `turn(b)`
alone. -/
theorem turn_overwrites_last (s : Snake) (a b : Vector2f) (h : s.dirs ≠ []) :
    ∃ s1 s2, s.turn a = some s1 ∧
      s1.dirs.length = s.dirs.length ∧
      (∀ j, j + 1 < s.dirs.length → s1.dirs[j]? = s.dirs[j]?) ∧
      s1.dirs.getLast? = some a ∧
      s1.head = s.head ∧ s1.body = s.body ∧
      s1.turn b = some s2 ∧ s.turn b = some s2 := by
  have hpos : 0 < s.dirs.length := List.length_pos.mpr h
  have h1 := turn_spec s a h
  have hne1 : (s.dirs.dropLast ++ [a]) ≠ [] := by simp
  have h2 := turn_spec { s with dirs := s.dirs.dropLast ++ [a] } b hne1
  refine ⟨_, _, h1, ?_, ?_, by simp, rfl, rfl, h2, ?_⟩
  · simp; omega
  · intro j hj
    show (s.dirs.dropLast ++ [a])[j]? = s.dirs[j]?
    rw [List.getElem?_append_left (by simp; omega), List.getElem?_dropLast, if_pos (by omega)]
  · rw [turn_spec s b h]
    simp

/-- Witness for C12: `turn(LEFT)` then `turn(DOWN)` on the freshly constructed
snake of length 3. -/
theorem turn_overwrites_last_witness :
    ∃ s1 s2, (construct ⟨800, 600⟩ 20 3).turn LEFT = some s1 ∧
      s1.dirs.length = (construct ⟨800, 600⟩ 20 3).dirs.length ∧
      (∀ j, j + 1 < (construct ⟨800, 600⟩ 20 3).dirs.length →
        s1.dirs[j]? = (construct ⟨800, 600⟩ 20 3).dirs[j]?) ∧
      s1.dirs.getLast? = some LEFT ∧
      s1.head = (construct ⟨800, 600⟩ 20 3).head ∧ s1.body = (construct ⟨800, 600⟩ 20 3).body ∧
      s1.turn DOWN = some s2 ∧ (construct ⟨800, 600⟩ 20 3).turn DOWN = some s2 :=
  turn_overwrites_last (construct ⟨800, 600⟩ 20 3) LEFT DOWN (by decide)

/-- C20, the actual lengths.  For every snake built by the constructor with
initial length `length`, after any sequence of calls that all succeed, with `t`
`move` calls, `g` `extend` calls and any number of `turn` calls, the history has
exactly `length + 1 + t` entries and the body exactly `length + g` parts.  A
further `move` adds exactly one entry, a further `extend` or `turn` none, and no
call removes one.  The history read of `extend` is inside `dirs` exactly when
`t >= g + 1`, and the reads of `move` are exactly when `t >= g`. -/
theorem lengths_after_calls (scr : Vector2u) (size : ℚ) (length : Nat) (ops : List Op)
    (s : Snake) (h : run ops (construct scr size length) = some s) :
    s.dirs.length = length + 1 + ops.count Op.step ∧
    s.body.length = length + ops.count Op.grow ∧
    (∀ s1, s.move = some s1 → s1.dirs.length = s.dirs.length + 1) ∧
    (∀ s1, s.extend = some s1 → s1.dirs.length = s.dirs.length) ∧
    (∀ s1 dir, s.turn dir = some s1 → s1.dirs.length = s.dirs.length) ∧
    ((readAt s.dirs ((s.dirs.length : Int) - 2 - s.body.length)).isSome = true ↔
      ops.count Op.grow + 1 ≤ ops.count Op.step) ∧
    (s.extend.isSome = true ↔ ops.count Op.grow + 1 ≤ ops.count Op.step ∧ s.body ≠ []) ∧
    (s.move.isSome = true ↔ ops.count Op.grow ≤ ops.count Op.step) := by
  obtain ⟨h1, h2, -, -⟩ := run_lengths ops _ s h
  rw [length_dirs_construct] at h1
  rw [length_body_construct] at h2
  refine ⟨h1, h2, ?_, ?_, ?_, ?_, ?_, ?_⟩
  · intro s1 hm
    have := (apply_lengths s s1 Op.step hm).1
    simpa using this
  · intro s1 he
    have := (apply_lengths s s1 Op.grow he).1
    simpa using this
  · intro s1 dir ht
    have := (apply_lengths s s1 (Op.turn dir) ht).1
    simpa using this
  · rw [readAt_isSome_iff]
    omega
  · constructor
    · intro hs
      obtain ⟨s1, he⟩ := Option.isSome_iff_exists.mp hs
      obtain ⟨hb, hl⟩ := extend_eq_some_length s s1 he
      exact ⟨by omega, hb⟩
    · rintro ⟨hl, hb⟩
      obtain ⟨_, _, -, -, he⟩ := extend_spec s hb (by omega)
      rw [he]; rfl
  · constructor
    · intro hs
      obtain ⟨s1, hm⟩ := Option.isSome_iff_exists.mp hs
      have := move_eq_some_length s s1 hm
      omega
    · intro hl
      obtain ⟨_, _, -, hm, -, -⟩ := move_spec s (by omega)
      rw [hm]; rfl

/-- Witness for C20: `move, extend, turn(LEFT), move` on the snake of length 3
leaves 6 history entries and 4 parts; one more `extend` is in range. -/
theorem lengths_after_calls_witness :
    ∃ s, run [Op.step, Op.grow, Op.turn LEFT, Op.step] (construct ⟨800, 600⟩ 20 3) = some s ∧
      s.dirs.length = 3 + 1 + 2 ∧ s.body.length = 3 + 1 ∧
      s.extend.isSome = true ∧ s.move.isSome = true := by
  have hs : (run [Op.step, Op.grow, Op.turn LEFT, Op.step]
      (construct ⟨800, 600⟩ 20 3)).isSome = true := by decide
  obtain ⟨s, h⟩ := Option.isSome_iff_exists.mp hs
  obtain ⟨h1, h2, -, -, -, -, h7, h8⟩ := lengths_after_calls ⟨800, 600⟩ 20 3 _ s h
  refine ⟨s, h, h1, h2, h7.mpr ⟨by decide, ?_⟩, h8.mpr (by decide)⟩
  exact List.length_pos.mp (by rw [h2]; omega)

end Snake

end SnakeGame

/-! ## Snake and food on one grid (C15) -/

namespace SnakeGame

namespace Snake

end Snake

end SnakeGame

/-! ## Placement of the food in exact arithmetic (C18) -/

namespace SnakeGame

theorem toUnsigned_natCast (n : Nat) : toUnsigned (n : ℚ) = n := by
  simp [toUnsigned]

end SnakeGame

namespace SnakeGame

end SnakeGame

namespace SnakeGame

namespace FoodCollection

end FoodCollection

end SnakeGame

/-! ## Reversing the direction -/

namespace SnakeGame

@[simp] theorem Vector2f.neg_def (a : Vector2f) : -a = ⟨-a.x, -a.y⟩ := rfl

namespace Snake

/-- Every successful call keeps every part at the size `(size(), size())`. -/
theorem partsSized_apply (s s1 : Snake) (op : Op) (h : s.apply op = some s1)
    (hs : ∀ part ∈ s.body, part.size = ⟨s.size, s.size⟩) :
    ∀ part ∈ s1.body, part.size = ⟨s1.size, s1.size⟩ := by
  have hsize : s1.size = s.size := by
    rw [Snake.size, (apply_lengths s s1 op h).2.2.1, Snake.size]
  rw [hsize]
  cases op with
  | turn dir =>
    obtain ⟨-, rfl⟩ := turn_eq_some s s1 dir h
    exact hs
  | step =>
    obtain ⟨last, -, -, -, hl, hparts⟩ := move_eq_some s s1 h
    intro part1 hp1
    obtain ⟨i, hi⟩ := List.getElem?_of_mem hp1
    have hlt : i < s.body.length := by
      have := (List.getElem?_eq_some_iff.mp hi).1
      omega
    obtain ⟨d, -, hb⟩ := hparts i s.body[i] (List.getElem?_eq_getElem hlt)
    rw [hi] at hb
    rw [Option.some.inj hb]
    exact hs s.body[i] (List.getElem_mem hlt)
  | grow =>
    obtain ⟨hb, hlen⟩ := extend_eq_some_length s s1 h
    obtain ⟨tail, d, -, -, hext⟩ := extend_spec s hb hlen
    have h1 : s.extend = some s1 := h
    rw [hext] at h1
    have := Option.some.inj h1
    subst this
    intro part hp
    rcases List.mem_append.mp hp with hp1 | hp1
    · exact hs part hp1
    · rw [List.mem_singleton.mp hp1]

theorem partsSized_construct (scr : Vector2u) (size : ℚ) (length : Nat) :
    ∀ part ∈ (construct scr size length).body,
      part.size = ⟨(construct scr size length).size, (construct scr size length).size⟩ := by
  intro part hp
  rw [size_construct]
  obtain ⟨i, hi⟩ := List.getElem?_of_mem hp
  have hlt : i < length := by
    have := (List.getElem?_eq_some_iff.mp hi).1
    rwa [length_body_construct] at this
  have h1 : (construct scr size length).body[i]? = _ := getElem?_placeBody size length _ i hlt
  rw [hi] at h1
  rw [Option.some.inj h1]

/-- A successful sequence of calls keeps the history long enough for `move`,
the body a connected chain, the parts at size `(size(), size())` and the radius
of the head. -/
theorem run_wellFormed : ∀ (ops : List Op) (s s1 : Snake), run ops s = some s1 →
    s.body.length + 1 ≤ s.dirs.length → s.IsChain →
    (∀ part ∈ s.body, part.size = ⟨s.size, s.size⟩) →
    s1.body.length + 1 ≤ s1.dirs.length ∧ s1.IsChain ∧
      (∀ part ∈ s1.body, part.size = ⟨s1.size, s1.size⟩) ∧ s1.head.radius = s.head.radius := by
  intro ops
  induction ops with
  | nil =>
    intro s s1 h hinv hc hs
    simp only [run, Option.some.injEq] at h
    subst h
    exact ⟨hinv, hc, hs, rfl⟩
  | cons op ops ih =>
    intro s s1 h hinv hc hs
    simp only [run] at h
    cases hap : s.apply op with
    | none => simp [hap] at h
    | some s2 =>
      simp only [hap] at h
      obtain ⟨-, -, hr, hinv2⟩ := apply_lengths s s2 op hap
      obtain ⟨k1, k2, k3, k4⟩ := ih s2 s1 h (hinv2 hinv) (isChain_apply s s2 op hap hinv hc)
        (partsSized_apply s s2 op hap hs)
      exact ⟨k1, k2, k3, by rw [k4, hr]⟩

end Snake

end SnakeGame

namespace SnakeGame

namespace Snake

/-- Reversing on a connected chain, in exact arithmetic: after `turn(-d)` and
`move`, where `d` is the entry before the last, the head sits on part 1 and
`isAlive` is `false`, provided the head's box overlaps the box of a part at the
head's position wherever a part of the snake is. -/
theorem reverse_on_chain (lb : ℚ → FloatRect) (s : Snake) (d : Vector2f)
    (hinv : s.body.length + 1 ≤ s.dirs.length) (hc : s.IsChain)
    (hs : ∀ part ∈ s.body, part.size = ⟨s.size, s.size⟩) (hbody : 2 ≤ s.body.length)
    (hd : s.dirs[s.dirs.length - 2]? = some d)
    (hlb : ∀ part ∈ s.body, ((lb s.head.radius).translate part.position).intersects
      (RectangleShape.getGlobalBounds ⟨⟨s.size, s.size⟩, part.position⟩) = true) :
    ∃ (s1 s2 : Snake) (part1 : RectangleShape), s.turn (-d) = some s1 ∧ s1.move = some s2 ∧
      s2.body[1]? = some part1 ∧ s2.head.position = part1.position ∧
      ∀ scr, s2.isAlive lb scr = some false := by
  have hne : s.dirs ≠ [] := List.length_pos.mp (by omega)
  have ht := turn_spec s (-d) hne
  have hc1 := isChain_turn s _ (-d) ht hinv hc
  have hinv1 := (apply_lengths s _ (Op.turn (-d)) ht).2.2.2 hinv
  obtain ⟨s2, hmove⟩ : ∃ s2, Snake.move { s with dirs := s.dirs.dropLast ++ [-d] } = some s2 := by
    obtain ⟨_, _, -, hm, -, -⟩ := move_spec _ hinv1
    exact ⟨_, hm⟩
  obtain ⟨last, hlast, hhead, -, hblen, hparts⟩ := move_eq_some _ s2 hmove
  have hlast1 : last = -d := by
    simp only [List.getLast?_append, List.getLast?_singleton] at hlast
    simpa using hlast.symm
  have hfollows := (isChain_move _ s2 hmove hc1).2
  have hblen' : s2.body.length = s.body.length := hblen
  -- parts 0 and 1 before the move, part 1 after it
  have h0 : s.body[0]? = some s.body[0] := List.getElem?_eq_getElem (by omega)
  have h1 : s2.body[1]? = some s2.body[1] := List.getElem?_eq_getElem (by omega)
  have hpos1 : s2.body[1].position = s.body[0].position := hfollows.2 0 _ _ h0 h1
  have hchain0 := hc.1 _ d h0 hd
  have hheadpos : s2.head.position = s.body[0].position := by
    rw [hhead, hlast1]
    have hx := congrArg Vector2f.x hchain0
    have hy := congrArg Vector2f.y hchain0
    simp only [Vector2f.add_def, Vector2f.mul_def] at hx hy
    apply Vector2f.eq_of_components
    · simp only [Vector2f.add_def, Vector2f.mul_def, Vector2f.neg_def, Snake.size]
      simp only [Snake.size] at hx
      linarith
    · simp only [Vector2f.add_def, Vector2f.mul_def, Vector2f.neg_def, Snake.size]
      simp only [Snake.size] at hy
      linarith
  have hsize1 : s2.body[1].size = ⟨s.size, s.size⟩ := by
    obtain ⟨e, -, hb⟩ := hparts 1 s.body[1] (List.getElem?_eq_getElem (by omega))
    rw [h1] at hb
    rw [Option.some.inj hb]
    exact hs s.body[1] (List.getElem_mem (by omega))
  have hrad : s2.head.radius = s.head.radius := by rw [hhead]
  have hcol : s2.isCollided lb s2.body[1] = true := by
    have hpart : s2.body[1] = ⟨⟨s.size, s.size⟩, s2.head.position⟩ := by
      cases hp : s2.body[1] with
      | mk sz pos =>
        rw [hp] at hsize1 hpos1
        simp only at hsize1 hpos1
        rw [hsize1, hpos1, hheadpos]
    rw [isCollided, hpart, CircleShape.getGlobalBounds, hrad, hheadpos]
    exact hlb s.body[0] (List.getElem_mem (by omega))
  refine ⟨_, s2, s2.body[1], ht, hmove, h1, by rw [hheadpos, hpos1], ?_⟩
  intro scr
  obtain ⟨b0, b1, rest, hb⟩ : ∃ b0 b1 rest, s2.body = b0 :: b1 :: rest := by
    cases hb : s2.body with
    | nil => rw [hb] at hblen'; simp at hblen'; omega
    | cons b0 t =>
      cases t with
      | nil => rw [hb] at hblen'; simp at hblen'; omega
      | cons b1 rest => exact ⟨b0, b1, rest, rfl⟩
  have hb1 : s2.body[1] = b1 := by
    have : s2.body[1]? = some b1 := by rw [hb]; simp
    rw [h1] at this
    exact Option.some.inj this
  rw [hb1] at hcol
  unfold isAlive
  rw [hb]
  simp only [List.any_cons, hcol, Bool.true_or, if_true]

end Snake

end SnakeGame

/-! ## Single precision against exact arithmetic: the quarter grid -/

namespace SnakeGame

theorem readAt_mem {α : Type} (v : List α) (i : Int) (a : α) (h : readAt v i = some a) : a ∈ v := by
  unfold readAt at h
  split at h
  · exact List.getElem?_mem h
  · exact absurd h (by simp)

/-- A vector `direction` returns has components among `0`, `1` and `-1`. -/
theorem keyDirection_components (d : Vector2f) (hd : IsKeyDirection d) :
    (d.x = 0 ∨ d.x = 1 ∨ d.x = -1) ∧ (d.y = 0 ∨ d.y = 1 ∨ d.y = -1) := by
  obtain ⟨code, rfl⟩ := hd
  cases code <;> simp [direction, UP, LEFT, DOWN, RIGHT, Vector2f.zero]

/-- The single-precision product of a component of a key direction and an
integer size below `2^24` is the exact product, a multiple of `1/4`. -/
theorem Float32.mul_keyComponent (c : ℚ) (hc : c = 0 ∨ c = 1 ∨ c = -1) (m : Nat)
    (hm : m < 2 ^ 24) :
    Float32.mul c (m : ℚ) = c * (m : ℚ) ∧ Float32.OnQuarters (4 * m) (c * (m : ℚ)) := by
  rcases hc with h | h | h <;> subst h
  · simp [Float32.mul, Float32.round_zero, Float32.onQuarters_zero]
  · simp only [Float32.mul, one_mul]
    exact ⟨Float32.round_natCast m (le_of_lt hm), Float32.onQuarters_natCast m⟩
  · simp only [Float32.mul, neg_one_mul]
    exact ⟨Float32.round_natCast_neg m hm, Float32.onQuarters_neg_natCast m⟩

theorem Vector2f.mul32_keyDirection (d : Vector2f) (hd : IsKeyDirection d) (m : Nat)
    (hm : m < 2 ^ 24) : d.mul32 (m : ℚ) = d * (m : ℚ) := by
  obtain ⟨hx, hy⟩ := keyDirection_components d hd
  simp only [Vector2f.mul32, Vector2f.mul_def, (Float32.mul_keyComponent d.x hx m hm).1,
    (Float32.mul_keyComponent d.y hy m hm).1]

theorem Vector2f.smul32_keyDirection (d : Vector2f) (hd : IsKeyDirection d) (m : Nat)
    (hm : m < 2 ^ 24) : Vector2f.smul32 (m : ℚ) d = (m : ℚ) * d := by
  obtain ⟨hx, hy⟩ := keyDirection_components d hd
  simp only [Vector2f.smul32, Vector2f.smul_def, (Float32.mul_keyComponent d.x hx m hm).1,
    (Float32.mul_keyComponent d.y hy m hm).1]

/-- Adding a key direction times an integer size to a position on the quarter
grid is exact in single precision, and the sum is on the quarter grid. -/
theorem Vector2f.add32_keyStep (p d : Vector2f) (B m : Nat) (hd : IsKeyDirection d)
    (hx : Float32.OnQuarters B p.x) (hy : Float32.OnQuarters B p.y) (hB : B + 4 * m < 2 ^ 24) :
    p.add32 (d * (m : ℚ)) = p + d * (m : ℚ) ∧
    Float32.OnQuarters (B + 4 * m) (p + d * (m : ℚ)).x ∧
    Float32.OnQuarters (B + 4 * m) (p + d * (m : ℚ)).y := by
  obtain ⟨hdx, hdy⟩ := keyDirection_components d hd
  have hm : m < 2 ^ 24 := by omega
  have qx := (Float32.mul_keyComponent d.x hdx m hm).2
  have qy := (Float32.mul_keyComponent d.y hdy m hm).2
  refine ⟨?_, Float32.onQuarters_add hx qx, Float32.onQuarters_add hy qy⟩
  simp only [Vector2f.add32, Vector2f.add_def, Vector2f.mul_def,
    Float32.add_onQuarters hx qx hB, Float32.add_onQuarters hy qy hB]

/-- Subtracting an integer size times a key direction from a position on the
quarter grid is exact in single precision. -/
theorem Vector2f.sub32_keyStep (p d : Vector2f) (B m : Nat) (hd : IsKeyDirection d)
    (hx : Float32.OnQuarters B p.x) (hy : Float32.OnQuarters B p.y) (hB : B + 4 * m < 2 ^ 24) :
    p.sub32 ((m : ℚ) * d) = p - (m : ℚ) * d ∧
    Float32.OnQuarters (B + 4 * m) (p - (m : ℚ) * d).x ∧
    Float32.OnQuarters (B + 4 * m) (p - (m : ℚ) * d).y := by
  obtain ⟨hdx, hdy⟩ := keyDirection_components d hd
  have hm : m < 2 ^ 24 := by omega
  have qx := (Float32.mul_keyComponent d.x hdx m hm).2
  have qy := (Float32.mul_keyComponent d.y hdy m hm).2
  refine ⟨?_, Float32.onQuarters_sub hx qx, Float32.onQuarters_sub hy qy⟩
  simp only [Vector2f.sub32, Vector2f.sub_def, Vector2f.smul_def,
    Float32.sub_onQuarters hx qx hB, Float32.sub_onQuarters hy qy hB]

namespace Snake

/-- The single-precision `size()` of a snake of integer segment size `m`. -/
theorem size32_of_radius (s : Snake) (m : Nat) (hr : s.head.radius = (m : ℚ) / 2)
    (hm : m < 2 ^ 24) : s.size32 = (m : ℚ) ∧ s.size = (m : ℚ) := by
  have h : (m : ℚ) / 2 * 2 = (m : ℚ) := by ring
  exact ⟨by rw [size32, Float32.mul, hr, h, Float32.round_natCast m (le_of_lt hm)],
    by rw [Snake.size, hr, h]⟩

/-- The loop of `move` on the machine succeeds when the iterator has at least as
many entries before it as the body has parts; part `i` then moves along the
entry `i + 1` places before the iterator. -/
theorem moveParts32_spec (dirs : List Vector2f) (size : ℚ) :
    ∀ (body : List RectangleShape) (it : Nat), body.length ≤ it → it ≤ dirs.length →
      ∃ body1, moveParts32 dirs size (it : Int) body = some body1 ∧
        body1.length = body.length ∧
        ∀ i part, body[i]? = some part →
          ∃ d, dirs[it - 1 - i]? = some d ∧ body1[i]? = some (part.move32 (d.mul32 size)) := by
  intro body
  induction body with
  | nil =>
    intro it _ _
    exact ⟨[], by simp [moveParts32]⟩
  | cons part rest ih =>
    intro it hlen hit
    obtain ⟨n, rfl⟩ : ∃ n, it = n + 1 := ⟨it - 1, by simp at hlen; omega⟩
    have hn : n < dirs.length := by omega
    obtain ⟨rest1, hrest, hl, hparts⟩ := ih n (by simp at hlen; omega) (by omega)
    have hcast : (((n + 1 : Nat) : Int) - 1) = (n : Int) := by push_cast; ring
    refine ⟨part.move32 (dirs[n].mul32 size) :: rest1, ?_, by simp [hl], ?_⟩
    · simp only [moveParts32, hcast, readAt_natCast, hrest, List.getElem?_eq_getElem hn]
    · intro i p hp
      cases i with
      | zero =>
        simp at hp
        subst hp
        exact ⟨dirs[n], by simp [List.getElem?_eq_getElem hn], by simp⟩
      | succ j =>
        simp at hp
        obtain ⟨d, hd, hb⟩ := hparts j p hp
        refine ⟨d, ?_, by simpa using hb⟩
        have : n + 1 - 1 - (j + 1) = n - 1 - j := by omega
        rw [this]; exact hd

/-- What `move` does on the machine when the history holds at least one entry
more than the body has parts. -/
theorem move32_spec (s : Snake) (h : s.body.length + 1 ≤ s.dirs.length) :
    ∃ last body1, s.dirs.getLast? = some last ∧
      s.move32 = some { head := { s.head with
                                    position := s.head.position.add32 (last.mul32 s.size32) }
                        dirs := s.dirs ++ [last]
                        body := body1 } ∧
      body1.length = s.body.length ∧
      ∀ i part, s.body[i]? = some part →
        ∃ d, s.dirs[s.dirs.length - 2 - i]? = some d ∧
          body1[i]? = some (part.move32 (d.mul32 s.size32)) := by
  obtain ⟨n, hn⟩ : ∃ n, s.dirs.length = n + 1 := ⟨s.dirs.length - 1, by omega⟩
  obtain ⟨body1, hb, hl, hparts⟩ := moveParts32_spec s.dirs s.size32 s.body n (by omega) (by omega)
  have hlt : n < s.dirs.length := by omega
  refine ⟨s.dirs[n], body1, ?_, ?_, hl, ?_⟩
  · rw [List.getLast?_eq_getElem?, hn]
    simp [List.getElem?_eq_getElem hlt]
  · unfold move32
    simp only [hn, readAt_succ_sub_one]
    have hcast : (((n + 1 : Nat) : Int) - 1) = (n : Int) := by push_cast; ring
    rw [hcast, hb, List.getElem?_eq_getElem hlt]
  · intro i part hp
    obtain ⟨d, hd, hb1⟩ := hparts i part hp
    refine ⟨d, ?_, hb1⟩
    have : s.dirs.length - 2 - i = n - 1 - i := by omega
    rw [this]; exact hd

/-- What `extend` does on the machine when the body is not empty and the
history holds at least two entries more than the body has parts. -/
theorem extend32_spec (s : Snake) (hb : s.body ≠ []) (h : s.body.length + 2 ≤ s.dirs.length) :
    ∃ tail d, s.body.getLast? = some tail ∧
      s.dirs[s.dirs.length - 2 - s.body.length]? = some d ∧
      s.extend32 = some { s with body := s.body ++
        [⟨⟨s.size32, s.size32⟩, tail.position.sub32 (Vector2f.smul32 s.size32 d)⟩] } := by
  obtain ⟨k, hk⟩ : ∃ k, s.dirs.length - 2 - s.body.length = k := ⟨_, rfl⟩
  have hklt : k < s.dirs.length := by omega
  have hcast : ((s.dirs.length : Int) - 2 - (s.body.length : Int)) = (k : Int) := by omega
  refine ⟨s.body.getLast hb, s.dirs[k], List.getLast?_eq_getLast _ hb, ?_, ?_⟩
  · rw [hk, List.getElem?_eq_getElem hklt]
  · unfold extend32
    rw [hcast, readAt_natCast, List.getElem?_eq_getElem hklt, List.getLast?_eq_getLast _ hb]
    rfl

/-- On the quarter grid the loop of `move` computes on the machine what it
computes in exact arithmetic. -/
theorem moveParts32_eq_moveParts (dirs : List Vector2f) (m B : Nat)
    (hd : ∀ d ∈ dirs, IsKeyDirection d) (hB : B + 4 * m < 2 ^ 24) :
    ∀ (body : List RectangleShape) (it : Int),
      (∀ part ∈ body,
        Float32.OnQuarters B part.position.x ∧ Float32.OnQuarters B part.position.y) →
      moveParts32 dirs (m : ℚ) it body = moveParts dirs (m : ℚ) it body := by
  intro body
  induction body with
  | nil => intro it _; rfl
  | cons part rest ih =>
    intro it hparts
    have hrest := ih (it - 1) (fun p hp => hparts p (List.mem_cons_of_mem _ hp))
    simp only [moveParts32, moveParts, hrest]
    cases hr : readAt dirs (it - 1) with
    | none => rfl
    | some d =>
      have hkey := hd d (readAt_mem _ _ _ hr)
      obtain ⟨hx, hy⟩ := hparts part (List.mem_cons_self _ _)
      have hmove : part.move32 (d.mul32 (m : ℚ)) = part.move (d * (m : ℚ)) := by
        rw [RectangleShape.move32, RectangleShape.move,
          Vector2f.mul32_keyDirection d hkey m (by omega),
          (Vector2f.add32_keyStep part.position d B m hkey hx hy hB).1]
      cases moveParts dirs (m : ℚ) (it - 1) rest with
      | none => rfl
      | some rest1 => simp only [hmove]

/-- On the quarter grid `move` computes on the machine what it computes in
exact arithmetic. -/
theorem move32_eq_move (s : Snake) (m B : Nat) (h : s.Within m B) (hB : B + 4 * m < 2 ^ 24) :
    s.move32 = s.move := by
  obtain ⟨hr, hx, hy, hparts, hdirs⟩ := h
  obtain ⟨hs32, hs⟩ := size32_of_radius s m hr (by omega)
  unfold move32 move
  simp only [hs32, hs, moveParts32_eq_moveParts s.dirs m B hdirs hB s.body _ hparts]
  cases hread : readAt s.dirs ((s.dirs.length : Int) - 1) with
  | none => rfl
  | some d =>
    have hkey := hdirs d (readAt_mem _ _ _ hread)
    cases moveParts s.dirs (m : ℚ) ((s.dirs.length : Int) - 1) s.body with
    | none => rfl
    | some body1 =>
      simp only [Vector2f.mul32_keyDirection d hkey m (by omega),
        (Vector2f.add32_keyStep s.head.position d B m hkey hx hy hB).1]

/-- On the quarter grid `extend` computes on the machine what it computes in
exact arithmetic. -/
theorem extend32_eq_extend (s : Snake) (m B : Nat) (h : s.Within m B)
    (hB : B + 4 * m < 2 ^ 24) : s.extend32 = s.extend := by
  obtain ⟨hr, hx, hy, hparts, hdirs⟩ := h
  obtain ⟨hs32, hs⟩ := size32_of_radius s m hr (by omega)
  unfold extend32 extend
  simp only [hs32, hs]
  cases htail : s.body.getLast? with
  | none => rfl
  | some tail =>
    cases hread : readAt s.dirs ((s.dirs.length : Int) - 2 - (s.body.length : Int)) with
    | none => rfl
    | some d =>
      have hkey := hdirs d (readAt_mem _ _ _ hread)
      obtain ⟨tx, ty⟩ := hparts tail (List.mem_of_mem_getLast? htail)
      simp only [Vector2f.smul32_keyDirection d hkey m (by omega),
        (Vector2f.sub32_keyStep tail.position d B m hkey tx ty hB).1]

theorem within_mono (s : Snake) (m B C : Nat) (h : s.Within m B) (hBC : B ≤ C) :
    s.Within m C := by
  obtain ⟨hr, hx, hy, hparts, hdirs⟩ := h
  exact ⟨hr, Float32.onQuarters_mono hx hBC, Float32.onQuarters_mono hy hBC,
    fun p hp => ⟨Float32.onQuarters_mono (hparts p hp).1 hBC,
      Float32.onQuarters_mono (hparts p hp).2 hBC⟩, hdirs⟩

end Snake

end SnakeGame

namespace SnakeGame

namespace Snake

/-- A `move` keeps a snake on the quarter grid, with a bound larger by four
times the segment size. -/
theorem within_move (s s1 : Snake) (m B : Nat) (h : s.Within m B) (hm : s.move = some s1) :
    s1.Within m (B + 4 * m) := by
  obtain ⟨hr, hx, hy, hparts, hdirs⟩ := h
  obtain ⟨last, hlast, hhead, hd1, hlen, hp1⟩ := move_eq_some s s1 hm
  have hsize : s.size = (m : ℚ) := by rw [Snake.size, hr]; ring
  have hlastKey : IsKeyDirection last := hdirs last (List.mem_of_mem_getLast? hlast)
  have hstep : ∀ (p d : Vector2f), IsKeyDirection d → Float32.OnQuarters B p.x →
      Float32.OnQuarters B p.y →
      Float32.OnQuarters (B + 4 * m) (p + d * (m : ℚ)).x ∧
      Float32.OnQuarters (B + 4 * m) (p + d * (m : ℚ)).y := by
    intro p d hd px py
    obtain ⟨hdx, hdy⟩ := keyDirection_components d hd
    by_cases hm24 : m < 2 ^ 24
    · exact ⟨Float32.onQuarters_add px (Float32.mul_keyComponent d.x hdx m hm24).2,
        Float32.onQuarters_add py (Float32.mul_keyComponent d.y hdy m hm24).2⟩
    · have key : ∀ c : ℚ, (c = 0 ∨ c = 1 ∨ c = -1) → Float32.OnQuarters (4 * m) (c * (m : ℚ)) := by
        intro c hc
        rcases hc with h | h | h <;> subst h
        · simpa using Float32.onQuarters_zero (4 * m)
        · simpa using Float32.onQuarters_natCast m
        · simpa using Float32.onQuarters_neg_natCast m
      exact ⟨Float32.onQuarters_add px (key d.x hdx), Float32.onQuarters_add py (key d.y hdy)⟩
  refine ⟨by rw [hhead]; exact hr, ?_, ?_, ?_, ?_⟩
  · rw [hhead, hsize]; exact (hstep _ _ hlastKey hx hy).1
  · rw [hhead, hsize]; exact (hstep _ _ hlastKey hx hy).2
  · intro part1 hmem
    obtain ⟨i, hi⟩ := List.getElem?_of_mem hmem
    have hlt : i < s.body.length := by
      have := (List.getElem?_eq_some_iff.mp hi).1
      omega
    obtain ⟨d, hd, hb⟩ := hp1 i s.body[i] (List.getElem?_eq_getElem hlt)
    rw [hi] at hb
    rw [Option.some.inj hb, hsize]
    obtain ⟨px, py⟩ := hparts s.body[i] (List.getElem_mem hlt)
    exact hstep _ _ (hdirs d (List.getElem?_mem hd)) px py
  · intro d hd
    rw [hd1] at hd
    rcases List.mem_append.mp hd with h | h
    · exact hdirs d h
    · rw [List.mem_singleton.mp h]; exact hlastKey

end Snake

end SnakeGame

namespace SnakeGame

namespace Snake

/-- An `extend` keeps a snake on the quarter grid, with a bound larger by four
times the segment size. -/
theorem within_extend (s s1 : Snake) (m B : Nat) (h : s.Within m B)
    (he : s.extend = some s1) : s1.Within m (B + 4 * m) := by
  obtain ⟨hr, hx, hy, hparts, hdirs⟩ := h
  obtain ⟨hb, hlen⟩ := extend_eq_some_length s s1 he
  obtain ⟨tail, d, htail, hd, hext⟩ := extend_spec s hb hlen
  rw [hext] at he
  have := Option.some.inj he
  subst this
  have hsize : s.size = (m : ℚ) := by rw [Snake.size, hr]; ring
  have hle : B ≤ B + 4 * m := by omega
  refine ⟨hr, Float32.onQuarters_mono hx hle, Float32.onQuarters_mono hy hle, ?_, hdirs⟩
  intro part hmem
  rcases List.mem_append.mp hmem with h1 | h1
  · exact ⟨Float32.onQuarters_mono (hparts part h1).1 hle,
      Float32.onQuarters_mono (hparts part h1).2 hle⟩
  · rw [List.mem_singleton.mp h1, hsize]
    obtain ⟨tx, ty⟩ := hparts tail (List.mem_of_mem_getLast? htail)
    obtain ⟨hdx, hdy⟩ := keyDirection_components d (hdirs d (List.getElem?_mem hd))
    have key : ∀ c : ℚ, (c = 0 ∨ c = 1 ∨ c = -1) → Float32.OnQuarters (4 * m) (c * (m : ℚ)) := by
      intro c hc
      rcases hc with h | h | h <;> subst h
      · simpa using Float32.onQuarters_zero (4 * m)
      · simpa using Float32.onQuarters_natCast m
      · simpa using Float32.onQuarters_neg_natCast m
    exact ⟨Float32.onQuarters_sub tx (key d.x hdx), Float32.onQuarters_sub ty (key d.y hdy)⟩

/-- A `turn` with a key direction keeps a snake on the quarter grid. -/
theorem within_turn (s s1 : Snake) (m B : Nat) (dir : Vector2f) (h : s.Within m B)
    (hdir : IsKeyDirection dir) (ht : s.turn dir = some s1) : s1.Within m B := by
  obtain ⟨hr, hx, hy, hparts, hdirs⟩ := h
  obtain ⟨-, rfl⟩ := turn_eq_some s s1 dir ht
  refine ⟨hr, hx, hy, hparts, ?_⟩
  intro d hd
  rcases List.mem_append.mp hd with h1 | h1
  · exact hdirs d (List.mem_of_mem_dropLast h1)
  · rw [List.mem_singleton.mp h1]; exact hdir

/-- Every call with a key direction keeps a snake on the quarter grid, with a
bound larger by four times the segment size. -/
theorem within_apply (s s1 : Snake) (m B : Nat) (op : Op) (h : s.Within m B)
    (hop : op.Keyed) (ha : s.apply op = some s1) : s1.Within m (B + 4 * m) := by
  cases op with
  | turn dir => exact within_mono _ m B _ (within_turn s s1 m B dir h hop ha) (by omega)
  | step => exact within_move s s1 m B h ha
  | grow => exact within_extend s s1 m B h ha

/-- On the quarter grid every call computes on the machine what it computes in
exact arithmetic. -/
theorem apply32_eq_apply (s : Snake) (m B : Nat) (op : Op) (h : s.Within m B)
    (hB : B + 4 * m < 2 ^ 24) : s.apply32 op = s.apply op := by
  cases op with
  | turn dir => rfl
  | step => exact move32_eq_move s m B h hB
  | grow => exact extend32_eq_extend s m B h hB

/-- A successful sequence of calls with key directions keeps a snake on the
quarter grid; the bound grows by four times the segment size with each call. -/
theorem within_run : ∀ (ops : List Op) (s s1 : Snake) (m B : Nat), s.Within m B →
    (∀ op ∈ ops, op.Keyed) → run ops s = some s1 → s1.Within m (B + 4 * m * ops.length) := by
  intro ops
  induction ops with
  | nil =>
    intro s s1 m B h _ hrun
    simp only [run, Option.some.injEq] at hrun
    subst hrun
    simpa using h
  | cons op ops ih =>
    intro s s1 m B h hops hrun
    simp only [run] at hrun
    cases ha : s.apply op with
    | none => simp [ha] at hrun
    | some s2 =>
      simp only [ha] at hrun
      have h2 := within_apply s s2 m B op h (hops op (List.mem_cons_self _ _)) ha
      have := ih s2 s1 m (B + 4 * m) h2 (fun o ho => hops o (List.mem_cons_of_mem _ ho)) hrun
      have e : B + 4 * m + 4 * m * ops.length = B + 4 * m * (op :: ops).length := by
        simp only [List.length_cons]; ring
      rwa [e] at this

/-- Refinement: a sequence of calls with key directions on a snake on the
quarter grid computes on the machine what it computes in exact arithmetic, as
long as the bound, grown by four times the segment size for each call, stays
below `2^24`. -/
theorem run32_eq_run : ∀ (ops : List Op) (s : Snake) (m B : Nat), s.Within m B →
    (∀ op ∈ ops, op.Keyed) → B + 4 * m * ops.length < 2 ^ 24 → run32 ops s = run ops s := by
  intro ops
  induction ops with
  | nil => intro s m B _ _ _; rfl
  | cons op ops ih =>
    intro s m B h hops hB
    have hB' : B + 4 * m + 4 * m * ops.length < 2 ^ 24 := by
      have e : B + 4 * m + 4 * m * ops.length = B + 4 * m * (op :: ops).length := by
        simp only [List.length_cons]; ring
      omega
    have hB1 : B + 4 * m < 2 ^ 24 := by omega
    simp only [run32, run, apply32_eq_apply s m B op h hB1]
    cases ha : s.apply op with
    | none => rfl
    | some s2 =>
      exact ih s2 m (B + 4 * m)
        (within_apply s s2 m B op h (hops op (List.mem_cons_self _ _)) ha)
        (fun o ho => hops o (List.mem_cons_of_mem _ ho)) hB'

/-- Refinement for the ticks of a sequence of calls. -/
theorem ticks32_eq_ticks : ∀ (ops : List Op) (s : Snake) (m B : Nat), s.Within m B →
    (∀ op ∈ ops, op.Keyed) → B + 4 * m * ops.length < 2 ^ 24 →
    ticks32 ops s = ticks ops s := by
  intro ops
  induction ops with
  | nil => intro s m B _ _ _; rfl
  | cons op ops ih =>
    intro s m B h hops hB
    have hB' : B + 4 * m + 4 * m * ops.length < 2 ^ 24 := by
      have e : B + 4 * m + 4 * m * ops.length = B + 4 * m * (op :: ops).length := by
        simp only [List.length_cons]; ring
      omega
    have hB1 : B + 4 * m < 2 ^ 24 := by omega
    have hrest : ∀ o ∈ ops, o.Keyed := fun o ho => hops o (List.mem_cons_of_mem _ ho)
    have hkey := hops op (List.mem_cons_self _ _)
    cases op with
    | step =>
      simp only [ticks32, ticks, move32_eq_move s m B h hB1]
      cases hm : s.move with
      | none => rfl
      | some s2 =>
        simp only [ih s2 m (B + 4 * m) (within_move s s2 m B h hm) hrest hB']
    | turn dir =>
      simp only [ticks32, ticks, apply32, apply]
      cases ht : s.turn dir with
      | none => rfl
      | some s2 =>
        exact ih s2 m (B + 4 * m) (within_apply s s2 m B (Op.turn dir) h hkey ht) hrest hB'
    | grow =>
      simp only [ticks32, ticks, apply32, apply, extend32_eq_extend s m B h hB1]
      cases he : s.extend with
      | none => rfl
      | some s2 =>
        exact ih s2 m (B + 4 * m) (within_apply s s2 m B Op.grow h hkey he) hrest hB'

/-- On the quarter grid the loop of the constructor computes on the machine what
it computes in exact arithmetic, and every part is on the grid. -/
theorem placeBody32_eq_placeBody (m : Nat) : ∀ (n : Nat) (pos : Vector2f) (B : Nat),
    Float32.OnQuarters B pos.x → Float32.OnQuarters B pos.y → B + 4 * m * n < 2 ^ 24 →
    placeBody32 (m : ℚ) pos n = placeBody (m : ℚ) pos n ∧
    ∀ part ∈ placeBody (m : ℚ) pos n,
      Float32.OnQuarters (B + 4 * m * n) part.position.x ∧
      Float32.OnQuarters (B + 4 * m * n) part.position.y := by
  intro n
  induction n with
  | zero =>
    intro pos B _ _ _
    exact ⟨rfl, by intro part hp; simp [placeBody] at hp⟩
  | succ k ih =>
    intro pos B hx hy hB
    have e : B + 4 * m + 4 * m * k = B + 4 * m * (k + 1) := by ring
    have hB1 : B + 4 * m < 2 ^ 24 := by
      have : 4 * m ≤ 4 * m * (k + 1) := Nat.le_mul_of_pos_right _ (by omega)
      omega
    have hx1 : Float32.OnQuarters (B + 4 * m) (pos.x + 0) := by
      simpa using Float32.onQuarters_mono hx (show B ≤ B + 4 * m by omega)
    have hy1 : Float32.OnQuarters (B + 4 * m) (pos.y + (m : ℚ)) :=
      Float32.onQuarters_add hy (Float32.onQuarters_natCast m)
    have hadd : pos.add32 ⟨0, (m : ℚ)⟩ = pos + ⟨0, (m : ℚ)⟩ := by
      simp only [Vector2f.add32, Vector2f.add_def]
      rw [Float32.add_onQuarters hx (Float32.onQuarters_zero 0) (by omega),
        Float32.add_onQuarters hy (Float32.onQuarters_natCast m) hB1]
    obtain ⟨h1, h2⟩ := ih (pos + ⟨0, (m : ℚ)⟩) (B + 4 * m) hx1 hy1 (by omega)
    rw [e] at h2
    refine ⟨?_, ?_⟩
    · simp only [placeBody32, placeBody, hadd, h1]
    · intro part hp
      simp only [placeBody, List.mem_cons] at hp
      rcases hp with hp | hp
      · subst hp
        exact ⟨Float32.onQuarters_mono hx1 (by omega), Float32.onQuarters_mono hy1 (by omega)⟩
      · exact h2 part hp

theorem onQuarters_half (n : Nat) : Float32.OnQuarters (2 * n) ((n : ℚ) / 2) :=
  ⟨2 * (n : ℤ), by push_cast; ring, by rw [abs_of_nonneg (by positivity)]; push_cast; rfl⟩

theorem onQuarters_quarter (n : Nat) : Float32.OnQuarters n ((n : ℚ) / 4) :=
  ⟨(n : ℤ), rfl, by rw [abs_of_nonneg (by positivity)]⟩

/-- The snake the constructor builds for an integer segment size is on the
quarter grid. -/
theorem within_construct (scr : Vector2u) (m length : Nat) :
    (construct scr (m : ℚ) length).Within m (reach scr m length) := by
  have hy : Float32.OnQuarters (scr.y + 2 * m) ((scr.y : ℚ) / 4 - (m : ℚ) / 2) :=
    Float32.onQuarters_sub (onQuarters_quarter scr.y) (onQuarters_half m)
  refine ⟨rfl, ?_, ?_, ?_, ?_⟩
  · exact Float32.onQuarters_mono (onQuarters_half scr.x) (by unfold reach; omega)
  · exact Float32.onQuarters_mono hy (by unfold reach; omega)
  · intro part hmem
    obtain ⟨i, hi⟩ := List.getElem?_of_mem hmem
    have hlt : i < length := by
      have := (List.getElem?_eq_some_iff.mp hi).1
      rwa [length_body_construct] at this
    have h1 : (construct scr (m : ℚ) length).body[i]? = _ :=
      getElem?_placeBody (m : ℚ) length _ i hlt
    rw [hi] at h1
    rw [Option.some.inj h1]
    constructor
    · exact Float32.onQuarters_mono (onQuarters_half scr.x) (by unfold reach; omega)
    · have hstep : Float32.OnQuarters (4 * ((i + 1) * m)) (((i : ℚ) + 1) * (m : ℚ)) := by
        have := Float32.onQuarters_natCast ((i + 1) * m)
        push_cast at this
        exact this
      have hmul : (i + 1) * m ≤ length * m := Nat.mul_le_mul_right m (by omega)
      exact Float32.onQuarters_mono (Float32.onQuarters_add hy hstep) (by
        unfold reach
        have e : 4 * m * length = 4 * (length * m) := by ring
        omega)
  · intro d hd
    have : d = UP := by
      simp only [construct] at hd
      exact List.eq_of_mem_replicate hd
    exact ⟨Key.W, this⟩

/-- Refinement for the constructor: for an integer segment size and a screen
whose `reach` is below `2^24`, the machine builds the snake of exact
arithmetic. -/
theorem construct32_eq_construct (scr : Vector2u) (m length : Nat)
    (h : reach scr m length < 2 ^ 24) :
    construct32 scr (m : ℚ) length = construct scr (m : ℚ) length := by
  unfold reach at h
  have hrad : Float32.div (m : ℚ) 2 = (m : ℚ) / 2 :=
    Float32.round_onQuarters _ _ (onQuarters_half m) (by omega)
  have hW : Float32.ofNat scr.x = (scr.x : ℚ) := Float32.round_natCast scr.x (by omega)
  have hH : Float32.ofNat scr.y = (scr.y : ℚ) := Float32.round_natCast scr.y (by omega)
  have hx : Float32.div (Float32.ofNat scr.x) 2 = (scr.x : ℚ) / 2 := by
    rw [hW]
    exact Float32.round_onQuarters _ _ (onQuarters_half scr.x) (by omega)
  have hq : Float32.div (Float32.ofNat scr.y) 4 = (scr.y : ℚ) / 4 := by
    rw [hH]
    exact Float32.round_onQuarters _ _ (onQuarters_quarter scr.y) (by omega)
  have hy : Float32.sub (Float32.div (Float32.ofNat scr.y) 4) (Float32.div (m : ℚ) 2) =
      (scr.y : ℚ) / 4 - (m : ℚ) / 2 := by
    rw [hq, hrad]
    exact Float32.sub_onQuarters (onQuarters_quarter scr.y) (onQuarters_half m) (by omega)
  have hbody := (placeBody32_eq_placeBody m length ⟨(scr.x : ℚ) / 2, (scr.y : ℚ) / 4 - (m : ℚ) / 2⟩
    (2 * scr.x + scr.y + 2 * m)
    (Float32.onQuarters_mono (onQuarters_half scr.x) (by omega))
    (Float32.onQuarters_mono
      (Float32.onQuarters_sub (onQuarters_quarter scr.y) (onQuarters_half m)) (by omega))
    (by omega)).1
  simp only [construct32, construct]
  rw [hy, hx, hrad, hbody]

end Snake

end SnakeGame

/-! ## The constructor on the machine (C13, C14) -/

namespace SnakeGame

namespace Snake

theorem length_placeBody32 (size : ℚ) : ∀ (n : Nat) (pos : Vector2f),
    (placeBody32 size pos n).length = n := by
  intro n
  induction n with
  | zero => intro pos; rfl
  | succ k ih => intro pos; simp [placeBody32, ih]

theorem length_body_construct32 (scr : Vector2u) (size : ℚ) (length : Nat) :
    (construct32 scr size length).body.length = length := by
  simp [construct32, length_placeBody32]

theorem length_dirs_construct32 (scr : Vector2u) (size : ℚ) (length : Nat) :
    (construct32 scr size length).dirs.length = length + 1 := by
  simp [construct32]

/-- C13 fails as stated: the constructor accumulates `pos += (0, size)` in
single precision.  On the 800 x 600 screen with the segment size `0.1f`
(13421773/134217728) the head sits at height 9827123/65536 and `body[0]` at
height 9833677/65536, which is 3277/32768 below the head and not `0.1f`. -/
theorem construct_layout_rounds :
    Float32.round (1 / 10) = 13421773 / 134217728 ∧
    (construct32 ⟨800, 600⟩ (13421773 / 134217728) 2).head.position = ⟨400, 9827123 / 65536⟩ ∧
    (construct32 ⟨800, 600⟩ (13421773 / 134217728) 2).body[0]? =
      some ⟨⟨13421773 / 134217728, 13421773 / 134217728⟩, ⟨400, 9833677 / 65536⟩⟩ ∧
    (9833677 / 65536 : ℚ) - 9827123 / 65536 = 3277 / 32768 ∧
    (⟨400, 9833677 / 65536⟩ : Vector2f) ≠
      (construct32 ⟨800, 600⟩ (13421773 / 134217728) 2).head.position +
        (⟨0, ((0 : ℚ) + 1) * (13421773 / 134217728)⟩ : Vector2f) := by
  refine ⟨by decide!, by decide!, by decide!, by norm_num, by decide!⟩

/-- C13 as amended.  For every screen size, segment size and initial length
`length`, the constructor yields exactly `length` parts and a history of
exactly `length + 1` entries, all of them `UP`.  For every integer-valued
segment size `m` and every screen `(W, H)` with
`2 W + H + 2 m + 4 m length < 2^24`, part `i` sits at the head's position plus
`(0, (i + 1) * m)` (a vertical line downward from the head). -/
theorem construct_layout (scr : Vector2u) (size : ℚ) (length : Nat) :
    (construct32 scr size length).body.length = length ∧
    (construct32 scr size length).dirs.length = length + 1 ∧
    (∀ d ∈ (construct32 scr size length).dirs, d = UP) ∧
    (∀ m : Nat, size = (m : ℚ) → reach scr m length < 2 ^ 24 →
      ∀ i, i < length → ∃ part : RectangleShape,
        (construct32 scr size length).body[i]? = some part ∧
        part.position = (construct32 scr size length).head.position +
          (⟨0, ((i : ℚ) + 1) * (m : ℚ)⟩ : Vector2f)) := by
  refine ⟨length_body_construct32 scr size length, length_dirs_construct32 scr size length,
    ?_, ?_⟩
  · intro d hd
    simp only [construct32] at hd
    exact List.eq_of_mem_replicate hd
  · intro m hsize hreach i hi
    subst hsize
    rw [construct32_eq_construct scr m length hreach]
    exact (construct_layout_exact scr (m : ℚ) length).2.1 i hi

/-- Witness for C13 as amended: the shipped configuration; the last part,
`body[14]`, sits 300 below the head. -/
theorem construct_layout_witness :
    reach ⟨800, 600⟩ 20 15 < 2 ^ 24 ∧
    ∃ part : RectangleShape,
      (construct32 ⟨800, 600⟩ ((20 : Nat) : ℚ) 15).body[14]? = some part ∧
      part.position = (construct32 ⟨800, 600⟩ ((20 : Nat) : ℚ) 15).head.position +
        (⟨0, (((14 : Nat) : ℚ) + 1) * ((20 : Nat) : ℚ)⟩ : Vector2f) :=
  ⟨by decide,
   (construct_layout ⟨800, 600⟩ ((20 : Nat) : ℚ) 15).2.2.2 20 rfl (by decide) 14 (by decide)⟩

/-- The head the constructor builds on the machine for an integer segment
size. -/
theorem head_construct32 (scr : Vector2u) (m length : Nat)
    (h : 2 * scr.x + scr.y + 2 * m < 2 ^ 24) :
    (construct32 scr (m : ℚ) length).head =
      ⟨(m : ℚ) / 2, ⟨(scr.x : ℚ) / 2, (scr.y : ℚ) / 4 - (m : ℚ) / 2⟩⟩ := by
  have hrad : Float32.div (m : ℚ) 2 = (m : ℚ) / 2 :=
    Float32.round_onQuarters _ _ (onQuarters_half m) (by omega)
  have hW : Float32.ofNat scr.x = (scr.x : ℚ) := Float32.round_natCast scr.x (by omega)
  have hH : Float32.ofNat scr.y = (scr.y : ℚ) := Float32.round_natCast scr.y (by omega)
  have hx : Float32.div (Float32.ofNat scr.x) 2 = (scr.x : ℚ) / 2 := by
    rw [hW]
    exact Float32.round_onQuarters _ _ (onQuarters_half scr.x) (by omega)
  have hq : Float32.div (Float32.ofNat scr.y) 4 = (scr.y : ℚ) / 4 := by
    rw [hH]
    exact Float32.round_onQuarters _ _ (onQuarters_quarter scr.y) (by omega)
  have hy : Float32.sub (Float32.div (Float32.ofNat scr.y) 4) (Float32.div (m : ℚ) 2) =
      (scr.y : ℚ) / 4 - (m : ℚ) / 2 := by
    rw [hq, hrad]
    exact Float32.sub_onQuarters (onQuarters_quarter scr.y) (onQuarters_half m) (by omega)
  simp only [construct32]
  rw [hy, hx, hrad]

/-- C14 fails as stated: on the 800 x 600 screen with segment size 20 the
constructor puts the head's position at `(400, 140)`, which is neither
`(400, 150)` nor `(W / 2, H / 4)`. -/
theorem head_position_shipped :
    (construct32 ⟨800, 600⟩ 20 15).head.position = ⟨400, 140⟩ ∧
    (construct32 ⟨800, 600⟩ 20 15).head.position ≠ ⟨400, 150⟩ ∧
    (construct32 ⟨800, 600⟩ 20 15).head.position ≠
      ⟨((800 : Nat) : ℚ) / 2, ((600 : Nat) : ℚ) / 4⟩ := by
  refine ⟨by decide!, by decide!, by decide!⟩

/-- C14 as amended.  For every integer-valued segment size `m`, every length
and every screen size `(W, H)` with `2 W + H + 2 m < 2^24`, the constructor puts
the head's position (the top-left corner of the circle's box) at
`(W / 2, H / 4 - m / 2)`: horizontally at the centre of the screen, vertically
half a segment above one quarter of the height, so that the centre of the
circle, `position + (radius, radius)`, is at height `H / 4`.  The position is
`(W / 2, H / 4)` only for size 0; on the 800 x 600 screen with size 20 it is
`(400, 140)`. -/
theorem head_position_construct (scr : Vector2u) (m length : Nat)
    (h : 2 * scr.x + scr.y + 2 * m < 2 ^ 24) :
    (construct32 scr (m : ℚ) length).head.position =
      ⟨(scr.x : ℚ) / 2, (scr.y : ℚ) / 4 - (m : ℚ) / 2⟩ ∧
    (construct32 scr (m : ℚ) length).head.radius = (m : ℚ) / 2 ∧
    ((construct32 scr (m : ℚ) length).head.position +
        (⟨(construct32 scr (m : ℚ) length).head.radius,
          (construct32 scr (m : ℚ) length).head.radius⟩ : Vector2f)).y = (scr.y : ℚ) / 4 ∧
    ((construct32 scr (m : ℚ) length).head.position = ⟨(scr.x : ℚ) / 2, (scr.y : ℚ) / 4⟩ ↔
      m = 0) ∧
    (construct32 ⟨800, 600⟩ 20 length).head.position = ⟨400, 140⟩ := by
  rw [head_construct32 scr m length h]
  refine ⟨rfl, rfl, by simp, ?_, ?_⟩
  · simp only [Vector2f.mk.injEq, true_and]
    constructor
    · intro h1
      have : (m : ℚ) = 0 := by linarith
      exact_mod_cast this
    · intro h1; rw [h1]; simp
  · have := head_construct32 ⟨800, 600⟩ 20 length (by norm_num)
    have e : ((20 : Nat) : ℚ) = 20 := by norm_num
    rw [e] at this
    rw [this]
    norm_num

/-- Witness for C14 as amended: the shipped configuration. -/
theorem head_position_construct_witness :
    2 * 800 + 600 + 2 * 20 < 2 ^ 24 ∧
    (construct32 ⟨800, 600⟩ ((20 : Nat) : ℚ) 15).head.position =
      ⟨((800 : Nat) : ℚ) / 2, ((600 : Nat) : ℚ) / 4 - ((20 : Nat) : ℚ) / 2⟩ :=
  ⟨by norm_num, (head_position_construct ⟨800, 600⟩ 20 15 (by norm_num)).1⟩

end Snake

end SnakeGame

/-! ## `move` and `extend` on the machine (C10, C9) -/

namespace SnakeGame

namespace Snake

/-- C10 fails as stated: `move` adds in single precision.  The snake built on
the 800 x 600 screen with the segment size `0.1f` (13421773/134217728) and 2
parts has its head at height 9827123/65536; `move` puts it at height
9820569/65536, that is 3277/32768 higher, not `0.1f` higher. -/
theorem move_rounds :
    (construct32 ⟨800, 600⟩ (13421773 / 134217728) 2).body.length + 1 ≤
      (construct32 ⟨800, 600⟩ (13421773 / 134217728) 2).dirs.length ∧
    (construct32 ⟨800, 600⟩ (13421773 / 134217728) 2).size32 = 13421773 / 134217728 ∧
    (construct32 ⟨800, 600⟩ (13421773 / 134217728) 2).dirs.getLast? = some UP ∧
    (construct32 ⟨800, 600⟩ (13421773 / 134217728) 2).head.position = ⟨400, 9827123 / 65536⟩ ∧
    ((construct32 ⟨800, 600⟩ (13421773 / 134217728) 2).move32).map
      (fun s1 => s1.head.position) = some ⟨400, 9820569 / 65536⟩ ∧
    (9820569 / 65536 : ℚ) - 9827123 / 65536 = -(3277 / 32768) ∧
    (⟨400, 9820569 / 65536⟩ : Vector2f) ≠
      (⟨400, 9827123 / 65536⟩ : Vector2f) + UP * (13421773 / 134217728 : ℚ) := by
  refine ⟨by decide, by decide!, by decide, by decide!, by decide!, by norm_num, by decide!⟩

/-- C10 as amended.  In every state whose history has at least `len(body) + 1`
entries, `move` has a result: the radius of the head and the number of parts
are kept and one copy of the last entry is appended to the history.  When the
segment size is an integer `m`, every history entry is a key direction (one of
the four unit directions, or zero) and every coordinate is a multiple of `1/4`
of magnitude at most `B / 4` with `B + 4 m < 2^24`, the sums `move` computes are
exact: the head has moved by `m` times the last entry and part `i` by `m` times
the entry `i + 1` places before the last.  For every snake freshly constructed
with an integer size `m` on a screen with
`2 W + H + 2 m + 4 m length + 4 m < 2^24`, one `move` without a turn translates
the head and every part by `(0, -m)`, so each part keeps its offset from the
head.  A head at `(400, 150)` with size 20 and last entry `UP` moves to
`(400, 130)`. -/
theorem move_postcondition :
    (∀ s : Snake, s.body.length + 1 ≤ s.dirs.length →
      ∃ last s1, s.dirs.getLast? = some last ∧ s.move32 = some s1 ∧
        s1.head.radius = s.head.radius ∧
        s1.dirs = s.dirs ++ [last] ∧ s1.body.length = s.body.length) ∧
    (∀ (s : Snake) (m B : Nat), s.Within m B → B + 4 * m < 2 ^ 24 →
      s.body.length + 1 ≤ s.dirs.length →
      ∃ last s1, s.dirs.getLast? = some last ∧ s.move32 = some s1 ∧
        s1.head = { s.head with position := s.head.position + last * (m : ℚ) } ∧
        s1.dirs = s.dirs ++ [last] ∧ s1.body.length = s.body.length ∧
        ∀ (i : Nat) (part : RectangleShape), s.body[i]? = some part →
          ∃ d, s.dirs[s.dirs.length - 1 - (i + 1)]? = some d ∧
            s1.body[i]? = some { part with position := part.position + d * (m : ℚ) }) ∧
    (∀ (scr : Vector2u) (m length : Nat), reach scr m length + 4 * m < 2 ^ 24 →
      ∃ s1, (construct32 scr (m : ℚ) length).move32 = some s1 ∧
        s1.head.position =
          (construct32 scr (m : ℚ) length).head.position + (⟨0, -(m : ℚ)⟩ : Vector2f) ∧
        s1.body.length = length ∧
        ∀ (i : Nat) (part : RectangleShape),
          (construct32 scr (m : ℚ) length).body[i]? = some part →
          ∃ part1 : RectangleShape, s1.body[i]? = some part1 ∧ part1.size = part.size ∧
            part1.position = part.position + (⟨0, -(m : ℚ)⟩ : Vector2f) ∧
            part1.position - s1.head.position =
              part.position - (construct32 scr (m : ℚ) length).head.position) ∧
    (∀ s : Snake, s.body.length + 1 ≤ s.dirs.length → s.head.position = ⟨400, 150⟩ →
      s.size32 = 20 → s.dirs.getLast? = some UP →
      ∃ s1, s.move32 = some s1 ∧ s1.head.position = ⟨400, 130⟩) := by
  refine ⟨?_, ?_, ?_, ?_⟩
  · intro s h
    obtain ⟨last, body1, hlast, hmove, hlen, -⟩ := move32_spec s h
    exact ⟨last, _, hlast, hmove, rfl, rfl, hlen⟩
  · intro s m B hw hB h
    obtain ⟨last, s1, h1, h2, h3, h4, h5, h6⟩ := move_postcondition_exact.1 s h
    have hsize : s.size = (m : ℚ) := (size32_of_radius s m hw.1 (by omega)).2
    rw [hsize] at h3 h6
    exact ⟨last, s1, h1, by rw [move32_eq_move s m B hw hB]; exact h2, h3, h4, h5, h6⟩
  · intro scr m length hB
    have hreach : reach scr m length < 2 ^ 24 := by omega
    rw [construct32_eq_construct scr m length hreach,
      move32_eq_move _ m _ (within_construct scr m length) hB]
    exact move_postcondition_exact.2.1 scr (m : ℚ) length
  · intro s h hpos hsize hlast
    obtain ⟨last, body1, hlast1, hmove, -, -⟩ := move32_spec s h
    rw [hlast] at hlast1
    have hUP : last = UP := (Option.some.inj hlast1).symm
    subst hUP
    refine ⟨_, hmove, ?_⟩
    simp only [hpos, hsize]
    decide!

/-- Witness for C10 as amended: the snake of length 3 and size 20 the machine
builds for a 800 x 640 screen has its head at `(400, 150)`; its `move` puts the
head at `(400, 130)`. -/
theorem move_postcondition_witness :
    (construct32 ⟨800, 640⟩ 20 3).head.position = ⟨400, 150⟩ ∧
    ∃ s1, (construct32 ⟨800, 640⟩ 20 3).move32 = some s1 ∧ s1.head.position = ⟨400, 130⟩ :=
  ⟨by decide!,
   move_postcondition.2.2.2 (construct32 ⟨800, 640⟩ 20 3) (by decide) (by decide!)
     (by decide!) (by decide)⟩

/-- C9 fails as stated: `extend` subtracts in single precision, and it needs a
tail.  The snake built on the 800 x 600 screen with the segment size `0.1f`
(13421773/134217728) and 2 parts, after one `move`, has 4 history entries, all
`UP`, and its tail at height 9833677/65536; `extend` puts the new tail at height
9840231/65536, at distance 3277/32768 from the tail and not `0.1f`.  And on a
snake without any part `extend` has no result, whatever the history. -/
theorem extend_rounds :
    ((construct32 ⟨800, 600⟩ (13421773 / 134217728) 2).move32).map
      (fun s => (s.size32, s.dirs, s.body.map (fun part => part.position))) =
      some (13421773 / 134217728, [UP, UP, UP, UP],
        [⟨400, 9827123 / 65536⟩, ⟨400, 9833677 / 65536⟩]) ∧
    (((construct32 ⟨800, 600⟩ (13421773 / 134217728) 2).move32).bind extend32).map
      (fun s => s.body.map (fun part => part.position)) =
      some [⟨400, 9827123 / 65536⟩, ⟨400, 9833677 / 65536⟩, ⟨400, 9840231 / 65536⟩] ∧
    (9840231 / 65536 : ℚ) - 9833677 / 65536 = 3277 / 32768 ∧
    (⟨400, 9840231 / 65536⟩ : Vector2f) ≠
      (⟨400, 9833677 / 65536⟩ : Vector2f) - (13421773 / 134217728 : ℚ) * UP ∧
    (⟨⟨10, ⟨400, 140⟩⟩, [UP, UP], []⟩ : Snake).extend32 = none := by
  refine ⟨by decide!, by decide!, by norm_num, by decide!, by decide⟩

/-- C9 as amended.  In every state with a tail (a non-empty body) whose history
has at least `len(body) + 2` entries, `extend` has a result: the body is one
part longer, and the head, the existing parts and the history are unchanged.
When moreover the history holds only the four unit directions, the segment size
is an integer `m` (not negative) and every coordinate is a multiple of `1/4` of
magnitude at most `B / 4` with `B + 4 m < 2^24`, the difference `extend`
computes is exact: the new tail sits at the prior tail's position minus `m`
times `dirs[len(dirs) - 2 - len(body)]`, and the distance between the new and
the prior tail is exactly `m`. -/
theorem extend_postcondition :
    (∀ s : Snake, s.body ≠ [] → s.body.length + 2 ≤ s.dirs.length →
      ∃ (tail newTail : RectangleShape) (d : Vector2f) (s1 : Snake),
        s.body.getLast? = some tail ∧
        s.dirs[s.dirs.length - 2 - s.body.length]? = some d ∧
        s.extend32 = some s1 ∧
        s1.head = s.head ∧ s1.dirs = s.dirs ∧ s1.body = s.body ++ [newTail] ∧
        s1.body.length = s.body.length + 1) ∧
    (∀ (s : Snake) (m B : Nat), s.Within m B → B + 4 * m < 2 ^ 24 → s.body ≠ [] →
      (∀ d ∈ s.dirs, IsUnitDirection d) → s.body.length + 2 ≤ s.dirs.length →
      ∃ (tail newTail : RectangleShape) (d : Vector2f) (s1 : Snake),
        s.body.getLast? = some tail ∧
        s.dirs[s.dirs.length - 2 - s.body.length]? = some d ∧
        s.extend32 = some s1 ∧
        s1.head = s.head ∧ s1.dirs = s.dirs ∧ s1.body = s.body ++ [newTail] ∧
        s1.body.length = s.body.length + 1 ∧
        newTail.position = tail.position - (m : ℚ) * d ∧
        DistanceIs newTail.position tail.position (m : ℚ)) := by
  refine ⟨?_, ?_⟩
  · intro s hb h
    obtain ⟨tail, d, htail, hd, hext⟩ := extend32_spec s hb h
    exact ⟨tail, _, d, _, htail, hd, hext, rfl, rfl, rfl, by simp⟩
  · intro s m B hw hB hb hdirs h
    obtain ⟨tail, newTail, d, s1, h1, h2, h3, h4, h5, h6, h7, h8, -, h10⟩ :=
      extend_postcondition_exact s hb hdirs h
    have hsize : s.size = (m : ℚ) := (size32_of_radius s m hw.1 (by omega)).2
    rw [hsize] at h8 h10
    exact ⟨tail, newTail, d, s1, h1, h2, by rw [extend32_eq_extend s m B hw hB]; exact h3,
      h4, h5, h6, h7, h8, h10 (Nat.cast_nonneg m)⟩

/-- Witness for C9 as amended: the snake of length 3 and size 20 after one
`move`; the new tail sits at distance 20 from the prior tail. -/
theorem extend_postcondition_witness :
    ∃ (tail newTail : RectangleShape) (d : Vector2f) (s1 : Snake),
      (⟨⟨10, ⟨400, 120⟩⟩, [UP, UP, UP, UP, UP],
        [⟨⟨20, 20⟩, ⟨400, 140⟩⟩, ⟨⟨20, 20⟩, ⟨400, 160⟩⟩, ⟨⟨20, 20⟩, ⟨400, 180⟩⟩]⟩ : Snake).body.getLast?
        = some tail ∧
      (⟨⟨10, ⟨400, 120⟩⟩, [UP, UP, UP, UP, UP],
        [⟨⟨20, 20⟩, ⟨400, 140⟩⟩, ⟨⟨20, 20⟩, ⟨400, 160⟩⟩, ⟨⟨20, 20⟩, ⟨400, 180⟩⟩]⟩ : Snake).extend32
        = some s1 ∧
      s1.body.length = 4 ∧
      newTail.position = tail.position - ((20 : Nat) : ℚ) * d ∧
      DistanceIs newTail.position tail.position ((20 : Nat) : ℚ) := by
  obtain ⟨tail, newTail, d, s1, h1, -, h3, -, -, -, h7, h8, h9⟩ :=
    extend_postcondition.2
      ⟨⟨10, ⟨400, 120⟩⟩, [UP, UP, UP, UP, UP],
        [⟨⟨20, 20⟩, ⟨400, 140⟩⟩, ⟨⟨20, 20⟩, ⟨400, 160⟩⟩, ⟨⟨20, 20⟩, ⟨400, 180⟩⟩]⟩ 20 2880
      ⟨by norm_num, ⟨1600, by norm_num, by norm_num⟩, ⟨480, by norm_num, by norm_num⟩,
        by
          intro part hp
          simp only [List.mem_cons, List.mem_singleton, List.not_mem_nil, or_false] at hp
          rcases hp with h | h | h <;> subst h
          · exact ⟨⟨1600, by norm_num, by norm_num⟩, ⟨560, by norm_num, by norm_num⟩⟩
          · exact ⟨⟨1600, by norm_num, by norm_num⟩, ⟨640, by norm_num, by norm_num⟩⟩
          · exact ⟨⟨1600, by norm_num, by norm_num⟩, ⟨720, by norm_num, by norm_num⟩⟩,
        by
          intro d hd
          have : d = UP := by simpa using hd
          exact ⟨Key.W, this⟩⟩
      (by norm_num) (by decide) (by intro d hd; left; simpa using hd) (by decide)
  exact ⟨tail, newTail, d, s1, h1, h3, h7, h8, h9⟩

end Snake

end SnakeGame

/-! ## Relay and growth on the machine (C1, C8) -/

namespace SnakeGame

namespace Snake

/-- C1 fails as stated: `move` adds in single precision.  On the snake built on
the 800 x 480 screen with the segment size `20.3f` (5321523/262144) and 3 parts,
two `move` calls make two ticks; listed for each tick are the height of the head
before and after it and the heights of the parts before and after it.  In tick
1 the head is displaced by -2660761/131072, in tick 2 the part at trailing
distance 1 (`body[0]`) by -1330381/65536, which is another number. -/
theorem relay_rounds :
    Float32.round (203 / 10) = 5321523 / 262144 ∧
    (ticks32 [Op.step, Op.step] (construct32 ⟨800, 480⟩ (5321523 / 262144) 3)).map
      (fun tr => tr.map (fun ba => (ba.1.head.position.y, ba.2.head.position.y,
        ba.1.body.map (fun part => part.position.y),
        ba.2.body.map (fun part => part.position.y)))) =
      some [(14398259 / 131072, 5868749 / 65536,
              [4264755 / 32768, 9859891 / 65536, 683 / 4],
              [7199129 / 65536, 4264755 / 32768, 9859891 / 65536]),
            (5868749 / 65536, 277 / 4,
              [7199129 / 65536, 4264755 / 32768, 9859891 / 65536],
              [1467187 / 16384, 7199129 / 65536, 4264755 / 32768])] ∧
    (5868749 / 65536 : ℚ) - 14398259 / 131072 = -(2660761 / 131072) ∧
    (1467187 / 16384 : ℚ) - 7199129 / 65536 = -(1330381 / 65536) ∧
    (-(1330381 / 65536) : ℚ) ≠ -(2660761 / 131072) := by
  refine ⟨by decide!, by decide!, by norm_num, by norm_num, by norm_num⟩

/-- C1 as amended.  For every snake built by the constructor with an
integer-valued segment size `m` and every sequence of `turn` and `move` calls
whose turns take key directions (one of the four unit directions, or zero), on
a screen `(W, H)` with `2 W + H + 2 m + 4 m length + 4 m n < 2^24` for the
number `n` of calls: the sequence runs through with one tick for each `move`,
and at every tick `t` (from 1) every body part at trailing distance `d` (index
`d - 1`, `1 <= d <= length`) with `d < t` is displaced by `m` times the
direction the head moved along during tick `t - d`: its displacement is the
displacement of the head `d` ticks earlier. -/
theorem directional_relay (scr : Vector2u) (m length : Nat) (ops : List Op)
    (hops : ∀ op ∈ ops, op ≠ Op.grow) (hkey : ∀ op ∈ ops, op.Keyed)
    (hB : reach scr m length + 4 * m * ops.length < 2 ^ 24) :
    ∃ tr, ticks32 ops (construct32 scr (m : ℚ) length) = some tr ∧
      tr.length = ops.count Op.step ∧
      ∀ (t d : Nat) (b a b1 a1 : Snake), 1 ≤ d → d ≤ length → d < t →
        tr[t - 1]? = some (b, a) → tr[t - d - 1]? = some (b1, a1) →
        ∃ (dir : Vector2f) (part part1 : RectangleShape),
          b1.dirs.getLast? = some dir ∧
          a1.head.position = b1.head.position + dir * (m : ℚ) ∧
          b.body[d - 1]? = some part ∧ a.body[d - 1]? = some part1 ∧
          part1.position = part.position + dir * (m : ℚ) ∧
          part1.position - part.position = dir * (m : ℚ) ∧
          part1.position - part.position = a1.head.position - b1.head.position := by
  rw [construct32_eq_construct scr m length (by omega),
    ticks32_eq_ticks ops _ m _ (within_construct scr m length) hkey hB]
  exact directional_relay_exact scr (m : ℚ) length ops hops

/-- Witness for C1 as amended: the snake of length 3 and size 20 with the calls
`move, turn(LEFT), move, move`; in tick 3 part 0 (distance 1) and part 1
(distance 2) repeat the head's displacements of ticks 2 and 1. -/
theorem directional_relay_witness :
    ∃ tr, ticks32 [Op.step, Op.turn LEFT, Op.step, Op.step]
        (construct32 ⟨800, 600⟩ ((20 : Nat) : ℚ) 3) = some tr ∧
      tr.length = 3 ∧
      ∀ (t d : Nat) (b a b1 a1 : Snake), 1 ≤ d → d ≤ 3 → d < t →
        tr[t - 1]? = some (b, a) → tr[t - d - 1]? = some (b1, a1) →
        ∃ (dir : Vector2f) (part part1 : RectangleShape),
          b1.dirs.getLast? = some dir ∧
          a1.head.position = b1.head.position + dir * ((20 : Nat) : ℚ) ∧
          b.body[d - 1]? = some part ∧ a.body[d - 1]? = some part1 ∧
          part1.position = part.position + dir * ((20 : Nat) : ℚ) ∧
          part1.position - part.position = dir * ((20 : Nat) : ℚ) ∧
          part1.position - part.position = a1.head.position - b1.head.position :=
  directional_relay ⟨800, 600⟩ 20 3 [Op.step, Op.turn LEFT, Op.step, Op.step] (by decide)
    (by
      intro op hop
      simp only [List.mem_cons, List.mem_singleton, List.not_mem_nil, or_false] at hop
      rcases hop with h | h | h | h <;> subst h
      · trivial
      · exact ⟨Key.A, rfl⟩
      · trivial
      · trivial)
    (by decide)

/-- C8 fails as stated: `move` adds in single precision.  The snake built on the
800 x 480 screen with the segment size `20.3f` (5321523/262144) and 3 parts has
its head at height 14398259/131072; after `move` its `body[0]` is at height
7199129/65536, which is not where the head was. -/
theorem growth_rounds :
    (construct32 ⟨800, 480⟩ (5321523 / 262144) 3).head.position = ⟨400, 14398259 / 131072⟩ ∧
    ((construct32 ⟨800, 480⟩ (5321523 / 262144) 3).move32).map
      (fun s1 => s1.body.map (fun part => part.position)) =
      some [⟨400, 7199129 / 65536⟩, ⟨400, 4264755 / 32768⟩, ⟨400, 9859891 / 65536⟩] ∧
    (⟨400, 7199129 / 65536⟩ : Vector2f) ≠ ⟨400, 14398259 / 131072⟩ := by
  refine ⟨by decide!, by decide!, by decide!⟩

/-- C8 as amended.  Take a snake built by the constructor with an
integer-valued segment size `m` and at least one part, and any sequence of `n`
`turn`, `move` and `extend` calls in which every turn takes a key direction and
every `extend` directly follows a `move` (two consecutive ticks with food,
`move, extend, move, extend`, included), on a screen `(W, H)` with
`2 W + H + 2 m + 4 m length + 4 m (n + 2) < 2^24`.  The sequence runs through;
in the state reached a further `move` and `extend` succeed, the `extend` puts
the new tail exactly where the tail was before that `move`, and after the `move`
part 0 is where the head was and every part `i >= 1` where part `i - 1` was. -/
theorem growth_tracks_tail (scr : Vector2u) (m length : Nat) (ops : List Op)
    (hL : 1 ≤ length) (hops : growsFollowSteps false ops = true)
    (hkey : ∀ op ∈ ops, op.Keyed)
    (hB : reach scr m length + 4 * m * (ops.length + 2) < 2 ^ 24) :
    ∃ (s s1 s2 : Snake) (tail newTail : RectangleShape),
      run32 ops (construct32 scr (m : ℚ) length) = some s ∧
      s.move32 = some s1 ∧ s1.extend32 = some s2 ∧
      s.body.getLast? = some tail ∧
      s2.body = s1.body ++ [newTail] ∧ newTail.position = tail.position ∧
      s.Follows s1 := by
  have e : reach scr m length + 4 * m * (ops.length + 2) =
      reach scr m length + 4 * m * ops.length + 4 * m + 4 * m := by ring
  obtain ⟨s, s1, s2, tail, newTail, hrun, hmove, hext, h4, h5, h6, h7⟩ :=
    growth_tracks_tail_exact scr (m : ℚ) length ops hL hops
  have hw := within_run ops _ s m _ (within_construct scr m length) hkey hrun
  have hw1 := within_move s s1 m _ hw hmove
  refine ⟨s, s1, s2, tail, newTail, ?_, ?_, ?_, h4, h5, h6, h7⟩
  · rw [construct32_eq_construct scr m length (by omega),
      run32_eq_run ops _ m _ (within_construct scr m length) hkey (by omega)]
    exact hrun
  · rw [move32_eq_move s m _ hw (by omega)]
    exact hmove
  · rw [extend32_eq_extend s1 m _ hw1 (by omega)]
    exact hext

/-- Witness for C8 as amended: food in two consecutive ticks, `move, extend,
move, extend`, on the snake of length 3 and size 20. -/
theorem growth_tracks_tail_witness :
    ∃ (s s1 s2 : Snake) (tail newTail : RectangleShape),
      run32 [Op.step, Op.grow, Op.step, Op.grow] (construct32 ⟨800, 600⟩ ((20 : Nat) : ℚ) 3)
        = some s ∧
      s.move32 = some s1 ∧ s1.extend32 = some s2 ∧
      s.body.getLast? = some tail ∧
      s2.body = s1.body ++ [newTail] ∧ newTail.position = tail.position ∧
      s.Follows s1 :=
  growth_tracks_tail ⟨800, 600⟩ 20 3 [Op.step, Op.grow, Op.step, Op.grow] (by decide)
    (by decide) (by intro op hop; fin_cases hop <;> trivial) (by decide)

end Snake

end SnakeGame

/-! ## Reversing the direction on the machine (C19) -/

namespace SnakeGame

/-- The opposite of a key direction is a key direction. -/
theorem isKeyDirection_neg (d : Vector2f) (hd : IsKeyDirection d) : IsKeyDirection (-d) := by
  obtain ⟨code, rfl⟩ := hd
  cases code with
  | W => exact ⟨Key.S, by simp [direction, UP, DOWN]⟩
  | A => exact ⟨Key.D, by simp [direction, LEFT, RIGHT]⟩
  | S => exact ⟨Key.W, by simp [direction, UP, DOWN]⟩
  | D => exact ⟨Key.A, by simp [direction, LEFT, RIGHT]⟩
  | Space => exact ⟨Key.Space, by simp [direction, Vector2f.zero]⟩
  | other c => exact ⟨Key.other c, by simp [direction, Vector2f.zero]⟩

/-- A square box of integer side `m` at the origin, translated to a position on
the quarter grid, is the square box of side `m` at that position. -/
theorem FloatRect.translate_square (m B : Nat) (hB : B + 4 * m < 2 ^ 24) (p : Vector2f)
    (hx : Float32.OnQuarters B p.x) (hy : Float32.OnQuarters B p.y) :
    (⟨0, 0, (m : ℚ), (m : ℚ)⟩ : FloatRect).translate p = ⟨p.x, p.y, (m : ℚ), (m : ℚ)⟩ := by
  have hm0 : (0 : ℚ) ≤ (m : ℚ) := Nat.cast_nonneg m
  have a0 : Float32.add 0 (m : ℚ) = (m : ℚ) := by
    rw [Float32.add, zero_add]; exact Float32.round_natCast m (by omega)
  have key : ∀ t : ℚ, Float32.OnQuarters B t →
      Float32.add 0 t = t ∧ Float32.add (m : ℚ) t = (m : ℚ) + t ∧
      Float32.sub ((m : ℚ) + t) t = (m : ℚ) := by
    intro t ht
    refine ⟨?_, ?_, ?_⟩
    · have := Float32.add_onQuarters (Float32.onQuarters_zero 0) ht (by omega)
      simpa using this
    · exact Float32.add_onQuarters (Float32.onQuarters_natCast m) ht (by omega)
    · have e : (m : ℚ) + t - t = (m : ℚ) := by ring
      rw [Float32.sub, e]; exact Float32.round_natCast m (by omega)
  obtain ⟨x0, x1, x2⟩ := key p.x hx
  obtain ⟨y0, y1, y2⟩ := key p.y hy
  simp only [FloatRect.translate, a0, x0, x1, y0, y1]
  have hminx : min p.x ((m : ℚ) + p.x) = p.x := min_eq_left (by linarith)
  have hmaxx : max p.x ((m : ℚ) + p.x) = (m : ℚ) + p.x := max_eq_right (by linarith)
  have hminy : min p.y ((m : ℚ) + p.y) = p.y := min_eq_left (by linarith)
  have hmaxy : max p.y ((m : ℚ) + p.y) = (m : ℚ) + p.y := max_eq_right (by linarith)
  rw [hminx, hmaxx, hminy, hmaxy, x2, y2]

/-- The box of the exact circle of integer diameter `m > 0` overlaps the box of
a part of that size at the same position, on the quarter grid. -/
theorem exactCircleBounds_overlaps (m B : Nat) (hm : 0 < m) (hB : B + 4 * m < 2 ^ 24)
    (p : Vector2f) (hx : Float32.OnQuarters B p.x) (hy : Float32.OnQuarters B p.y) :
    ((exactCircleBounds ((m : ℚ) / 2)).translate p).intersects
      (RectangleShape.getGlobalBounds ⟨⟨(m : ℚ), (m : ℚ)⟩, p⟩) = true := by
  have hmq : (0 : ℚ) < (m : ℚ) := by exact_mod_cast hm
  have h1 : exactCircleBounds ((m : ℚ) / 2) = ⟨0, 0, (m : ℚ), (m : ℚ)⟩ := by
    simp only [exactCircleBounds]
    have : (m : ℚ) / 2 * 2 = (m : ℚ) := by ring
    rw [this]
  have hsub : Float32.sub (m : ℚ) 0 = (m : ℚ) := by
    rw [Float32.sub, sub_zero]; exact Float32.round_natCast m (by omega)
  have h2 : RectangleShape.getLocalBounds ⟨⟨(m : ℚ), (m : ℚ)⟩, p⟩ = ⟨0, 0, (m : ℚ), (m : ℚ)⟩ := by
    simp only [RectangleShape.getLocalBounds, min_eq_left hmq.le, max_eq_right hmq.le, hsub]
  rw [h1, RectangleShape.getGlobalBounds, h2, FloatRect.translate_square m B hB p hx hy]
  have ax : Float32.add p.x (m : ℚ) = p.x + (m : ℚ) :=
    Float32.add_onQuarters hx (Float32.onQuarters_natCast m) (by omega)
  have ay : Float32.add p.y (m : ℚ) = p.y + (m : ℚ) :=
    Float32.add_onQuarters hy (Float32.onQuarters_natCast m) (by omega)
  simp only [FloatRect.intersects, ax, ay, max_self, min_self, Bool.and_eq_true,
    decide_eq_true_eq]
  have hminx : min p.x (p.x + (m : ℚ)) = p.x := min_eq_left (by linarith)
  have hmaxx : max p.x (p.x + (m : ℚ)) = p.x + (m : ℚ) := max_eq_right (by linarith)
  have hminy : min p.y (p.y + (m : ℚ)) = p.y := min_eq_left (by linarith)
  have hmaxy : max p.y (p.y + (m : ℚ)) = p.y + (m : ℚ) := max_eq_right (by linarith)
  rw [hminx, hmaxx, hminy, hmaxy]
  constructor <;> linarith

namespace Snake

/-- C19 fails as stated, twice.  With the segment size `7.7f` (8074035/1048576)
on the 800 x 480 screen, the fresh snake of 3 parts after `turn(-UP)` and `move`
has its head at height 16233267/131072 and `body[1]` at height 4058317/32768:
not the same position.  With the positive segment size `1e-10f`
(14411519/144115188075855872) on the 800 x 600 screen, head and parts all sit
at `(400, 150)` after the same calls, every box has width 0 in single
precision, no box intersects another and `isAlive` returns `true`. -/
theorem reverse_rounds :
    (run32 [Op.turn (-UP), Op.step] (construct32 ⟨800, 480⟩ (8074035 / 1048576) 3)).map
      (fun s => (s.head.position, s.body.map (fun part => part.position))) =
      some (⟨400, 16233267 / 131072⟩,
        [⟨400, 15224013 / 131072⟩, ⟨400, 4058317 / 32768⟩, ⟨400, 8621261 / 65536⟩]) ∧
    (⟨400, 16233267 / 131072⟩ : Vector2f) ≠ ⟨400, 4058317 / 32768⟩ ∧
    (0 : ℚ) < 14411519 / 144115188075855872 ∧
    (run32 [Op.turn (-UP), Op.step]
      (construct32 ⟨800, 600⟩ (14411519 / 144115188075855872) 3)).map
      (fun s => (s.head.position, s.body.map (fun part => part.position),
        s.isAlive exactCircleBounds ⟨800, 600⟩)) =
      some (⟨400, 150⟩, [⟨400, 150⟩, ⟨400, 150⟩, ⟨400, 150⟩], some true) := by
  refine ⟨by decide!, by decide!, by norm_num, by decide!⟩

/-- C19 as amended.  Take a snake built by the constructor with an
integer-valued segment size `m`, on a screen `(W, H)` with
`2 W + H + 2 m + 4 m length + 4 m (n + 1) < 2^24`, and reached by `n` successful
calls whose turns take key directions (a connected chain); let it have at least
2 body parts, let `d` be the direction the head last moved along (the history
entry before the last; `UP` for a fresh snake), and let the head's box overlap
the box of a part that sits at the head's position, at every position on the
quarter grid the snake can reach (true of the exact circle's box whenever
`m > 0`).  Then `turn(-d)` followed by `move` puts the head on exactly the
position of `body[1]`, and `isAlive` returns `false` for every screen size. -/
theorem reverse_is_fatal (lb : ℚ → FloatRect) (scr0 : Vector2u) (m length : Nat)
    (ops : List Op) (s : Snake) (d : Vector2f)
    (hkey : ∀ op ∈ ops, op.Keyed)
    (hB : reach scr0 m length + 4 * m * (ops.length + 1) < 2 ^ 24)
    (hrun : run32 ops (construct32 scr0 (m : ℚ) length) = some s) (hbody : 2 ≤ s.body.length)
    (hd : s.dirs[s.dirs.length - 2]? = some d)
    (hlb : ∀ p : Vector2f,
      Float32.OnQuarters (reach scr0 m length + 4 * m * ops.length) p.x →
      Float32.OnQuarters (reach scr0 m length + 4 * m * ops.length) p.y →
      ((lb ((m : ℚ) / 2)).translate p).intersects
        (RectangleShape.getGlobalBounds ⟨⟨(m : ℚ), (m : ℚ)⟩, p⟩) = true) :
    ∃ (s1 s2 : Snake) (part1 : RectangleShape), s.turn (-d) = some s1 ∧ s1.move32 = some s2 ∧
      s2.body[1]? = some part1 ∧ s2.head.position = part1.position ∧
      ∀ scr, s2.isAlive lb scr = some false := by
  have e : reach scr0 m length + 4 * m * (ops.length + 1) =
      reach scr0 m length + 4 * m * ops.length + 4 * m := by ring
  rw [construct32_eq_construct scr0 m length (by omega),
    run32_eq_run ops _ m _ (within_construct scr0 m length) hkey (by omega)] at hrun
  have hw := within_run ops _ s m _ (within_construct scr0 m length) hkey hrun
  have hinv0 : (construct scr0 (m : ℚ) length).body.length + 1 ≤
      (construct scr0 (m : ℚ) length).dirs.length := by
    rw [length_body_construct, length_dirs_construct]
  obtain ⟨hinv, hc, hs, hrad⟩ := run_wellFormed ops _ s hrun hinv0
    (isChain_construct scr0 (m : ℚ) length) (partsSized_construct scr0 (m : ℚ) length)
  have hsize : s.size = (m : ℚ) := by rw [Snake.size, hw.1]; ring
  obtain ⟨s1, s2, part1, h1, h2, h3, h4, h5⟩ :=
    reverse_on_chain lb s d hinv hc hs hbody hd (by
      intro part hp
      rw [hw.1, hsize]
      exact hlb part.position (hw.2.2.2.1 part hp).1 (hw.2.2.2.1 part hp).2)
  have hdkey : IsKeyDirection (-d) :=
    isKeyDirection_neg d (hw.2.2.2.2 d (List.getElem?_mem hd))
  have hw1 := within_turn s s1 m _ (-d) hw hdkey h1
  exact ⟨s1, s2, part1, h1, by rw [move32_eq_move s1 m _ hw1 (by omega)]; exact h2, h3, h4, h5⟩

/-- Witness for C19 as amended: the shipped snake after `turn(LEFT), move`; its
head last moved along `LEFT`, and `turn(RIGHT), move` kills it on every
screen. -/
theorem reverse_is_fatal_witness :
    ∃ (s s1 s2 : Snake) (part1 : RectangleShape),
      run32 [Op.turn LEFT, Op.step] (construct32 ⟨800, 600⟩ ((20 : Nat) : ℚ) 15) = some s ∧
      s.dirs[s.dirs.length - 2]? = some LEFT ∧
      s.turn (-LEFT) = some s1 ∧ s1.move32 = some s2 ∧
      s2.body[1]? = some part1 ∧ s2.head.position = part1.position ∧
      ∀ scr, s2.isAlive exactCircleBounds scr = some false := by
  have hs : (run32 [Op.turn LEFT, Op.step]
      (construct32 ⟨800, 600⟩ ((20 : Nat) : ℚ) 15)).isSome = true := by decide!
  obtain ⟨s, h⟩ := Option.isSome_iff_exists.mp hs
  have hlen : (run32 [Op.turn LEFT, Op.step] (construct32 ⟨800, 600⟩ ((20 : Nat) : ℚ) 15)).map
      (fun t => t.body.length) = some 15 := by decide!
  have hdir : (run32 [Op.turn LEFT, Op.step] (construct32 ⟨800, 600⟩ ((20 : Nat) : ℚ) 15)).map
      (fun t => t.dirs[t.dirs.length - 2]?) = some (some LEFT) := by decide!
  rw [h] at hlen hdir
  have hlen1 : s.body.length = 15 := by simpa using hlen
  have hdir1 : s.dirs[s.dirs.length - 2]? = some LEFT := by simpa using hdir
  obtain ⟨s1, s2, part1, h1, h2, h3, h4, h5⟩ :=
    reverse_is_fatal exactCircleBounds ⟨800, 600⟩ 20 15 [Op.turn LEFT, Op.step] s LEFT
      (by
        intro op hop
        simp only [List.mem_cons, List.mem_singleton, List.not_mem_nil, or_false] at hop
        rcases hop with h | h <;> subst h
        · exact ⟨Key.A, rfl⟩
        · trivial)
      (by decide) h (by omega) hdir1
      (fun p hx hy => exactCircleBounds_overlaps 20 _ (by norm_num) (by decide) p hx hy)
  exact ⟨s, s1, s2, part1, h, hdir1, h1, h2, h3, h4, h5⟩

end Snake

end SnakeGame

/-! ## Placement of the food on the machine (C11) -/

namespace SnakeGame

namespace Float32

theorem roundHalfEven_nonneg (x : ℚ) (h : 0 ≤ x) : 0 ≤ roundHalfEven x := by
  have hf : 0 ≤ ⌊x⌋ := Int.floor_nonneg.mpr h
  unfold roundHalfEven
  split_ifs <;> omega

/-- Rounding to nearest does not pass an integer that lies less than one half
below. -/
theorem roundHalfEven_le (x : ℚ) (Z : ℤ) (h : x < (Z : ℚ) + 1 / 2) : roundHalfEven x ≤ Z := by
  have hfl : (⌊x⌋ : ℚ) ≤ x := Int.floor_le x
  unfold roundHalfEven
  by_cases h1 : x - (⌊x⌋ : ℚ) < 1 / 2
  · rw [if_pos h1]
    have : (⌊x⌋ : ℚ) < (Z : ℚ) + 1 := by linarith
    have : ⌊x⌋ < Z + 1 := by exact_mod_cast this
    omega
  · rw [if_neg h1]
    have h2 : (⌊x⌋ : ℚ) < (Z : ℚ) := by linarith [not_lt.mp h1]
    have h3 : ⌊x⌋ < Z := by exact_mod_cast h2
    split_ifs <;> omega

theorem round_nonneg (q : ℚ) (h : 0 ≤ q) : 0 ≤ round q := by
  unfold round
  have h2 : (0 : ℚ) < (2 : ℚ) ^ ulpExponent q := by positivity
  have hx : 0 ≤ q / (2 : ℚ) ^ ulpExponent q := div_nonneg h h2.le
  have := roundHalfEven_nonneg _ hx
  have hc : (0 : ℚ) ≤ (roundHalfEven (q / (2 : ℚ) ^ ulpExponent q) : ℚ) := by exact_mod_cast this
  exact mul_nonneg hc h2.le

/-- Rounding does not pass a multiple of the spacing that lies less than half a
spacing below. -/
theorem round_le_of_lt (q f : ℚ) (Z : ℤ) (hf : f = (Z : ℚ) * (2 : ℚ) ^ ulpExponent q)
    (hq : q < f + (2 : ℚ) ^ ulpExponent q / 2) : round q ≤ f := by
  have h2 : (0 : ℚ) < (2 : ℚ) ^ ulpExponent q := by positivity
  have hx : q / (2 : ℚ) ^ ulpExponent q < (Z : ℚ) + 1 / 2 := by
    rw [div_lt_iff₀ h2, hf] at *
    linarith
  have := roundHalfEven_le _ Z hx
  have hc : (roundHalfEven (q / (2 : ℚ) ^ ulpExponent q) : ℚ) ≤ (Z : ℚ) := by exact_mod_cast this
  unfold round
  rw [hf]
  exact mul_le_mul_of_nonneg_right hc h2.le

/-- The binade is determined by its bounds. -/
theorem binade_unique (q : ℚ) (e : ℤ) (h1 : (2 : ℚ) ^ e ≤ |q|) (h2 : |q| < (2 : ℚ) ^ (e + 1)) :
    binade q = e := by
  have hq : q ≠ 0 := by
    intro h0
    rw [h0, abs_zero] at h1
    have : (0 : ℚ) < (2 : ℚ) ^ e := by positivity
    linarith
  obtain ⟨s1, s2⟩ := binade_spec q hq
  have a : binade q < e + 1 :=
    (zpow_lt_zpow_iff_right₀ (by norm_num : (1 : ℚ) < 2)).mp (lt_of_le_of_lt s1 h2)
  have b : e < binade q + 1 :=
    (zpow_lt_zpow_iff_right₀ (by norm_num : (1 : ℚ) < 2)).mp (lt_of_le_of_lt h1 s2)
  omega

/-- The single-precision product of a sample `u <= 1 - 2^-24` and a positive
count `R <= 2^24` stays below `R`: rounding never reaches `R`. -/
theorem round_mul_sample_lt (u : ℚ) (R : Nat) (hR0 : 0 < R) (hR : R ≤ 2 ^ 24) (hu0 : 0 ≤ u)
    (hu1 : u ≤ 1 - 1 / 2 ^ 24) : 0 ≤ round (u * (R : ℚ)) ∧ round (u * (R : ℚ)) < (R : ℚ) := by
  have hRq : (0 : ℚ) < (R : ℚ) := by exact_mod_cast hR0
  have hq0 : 0 ≤ u * (R : ℚ) := mul_nonneg hu0 hRq.le
  refine ⟨round_nonneg _ hq0, ?_⟩
  have hqle : u * (R : ℚ) ≤ (R : ℚ) - (R : ℚ) / 2 ^ 24 := by
    have := mul_le_mul_of_nonneg_right hu1 hRq.le
    calc u * (R : ℚ) ≤ (1 - 1 / 2 ^ 24) * (R : ℚ) := this
      _ = (R : ℚ) - (R : ℚ) / 2 ^ 24 := by ring
  by_cases hz : u * (R : ℚ) = 0
  · rw [hz, round_zero]; exact hRq
  have hqpos : 0 < u * (R : ℚ) := lt_of_le_of_ne hq0 (Ne.symm hz)
  obtain ⟨hb1, -⟩ := binade_spec _ hz
  rw [abs_of_pos hqpos] at hb1
  have hqlt : u * (R : ℚ) < (R : ℚ) := by
    have : (0 : ℚ) < (R : ℚ) / 2 ^ 24 := by positivity
    linarith
  -- the spacing exponent plus 23
  obtain ⟨M, hM⟩ : ∃ M : ℤ, M = max (binade (u * (R : ℚ))) (-126) := ⟨_, rfl⟩
  have hue : ulpExponent (u * (R : ℚ)) = M - 23 := by rw [ulpExponent, hM]
  have hMR : (2 : ℚ) ^ M < (R : ℚ) := by
    rcases max_cases (binade (u * (R : ℚ))) (-126) with ⟨h, -⟩ | ⟨h, -⟩
    · rw [hM, h]; exact lt_of_le_of_lt hb1 hqlt
    · rw [hM, h]
      have h1 : (2 : ℚ) ^ (-126 : ℤ) < 1 := by
        rw [zpow_neg, zpow_ofNat]
        norm_num
      have h2 : (1 : ℚ) ≤ (R : ℚ) := by exact_mod_cast hR0
      linarith
  have hM24 : M < 24 := by
    have h1 : (R : ℚ) ≤ (2 : ℚ) ^ (24 : ℤ) := by
      rw [zpow_ofNat]; exact_mod_cast hR
    exact (zpow_lt_zpow_iff_right₀ (by norm_num : (1 : ℚ) < 2)).mp (lt_of_lt_of_le hMR h1)
  obtain ⟨n, hn⟩ := Int.eq_ofNat_of_zero_le (show 0 ≤ 23 - M by omega)
  have hpow : (2 : ℚ) ^ (M - 23) * (2 : ℚ) ^ n = 1 := by
    rw [← zpow_natCast, ← zpow_add₀ (by norm_num), ← hn]
    simp
  have hupos : (0 : ℚ) < (2 : ℚ) ^ (M - 23) := by positivity
  have hf : (R : ℚ) - (2 : ℚ) ^ (M - 23) =
      (((R : ℤ) * 2 ^ n - 1 : ℤ) : ℚ) * (2 : ℚ) ^ ulpExponent (u * (R : ℚ)) := by
    rw [hue]
    push_cast
    have : (R : ℚ) * (2 : ℚ) ^ n * (2 : ℚ) ^ (M - 23) = (R : ℚ) := by
      rw [mul_assoc, mul_comm ((2 : ℚ) ^ n), hpow, mul_one]
    linarith
  have hhalf : (R : ℚ) / 2 ^ 24 > (2 : ℚ) ^ (M - 23) / 2 := by
    have e : (2 : ℚ) ^ (M - 23) / 2 = (2 : ℚ) ^ M / 2 ^ 24 := by
      rw [zpow_sub₀ (by norm_num), zpow_ofNat]
      have h2M : (2 : ℚ) ^ M ≠ 0 := by positivity
      field_simp
      norm_num
    rw [e]
    exact div_lt_div_of_pos_right hMR (by positivity)
  have hle := round_le_of_lt (u * (R : ℚ)) ((R : ℚ) - (2 : ℚ) ^ (M - 23)) _ hf (by
    rw [hue]
    linarith)
  linarith

end Float32

end SnakeGame

namespace SnakeGame

/-- A single-precision number below 1 is at most `1 - 2^-24`. -/
theorem isSample32_le (u : ℚ) (h : IsSample32 u) : 0 ≤ u ∧ u ≤ 1 - 1 / 2 ^ 24 := by
  obtain ⟨hr, h0, h1⟩ := h
  refine ⟨h0, ?_⟩
  by_cases hhalf : u < 1 / 2
  · have : (1 : ℚ) / 2 ≤ 1 - 1 / 2 ^ 24 := by norm_num
    linarith
  · have hge : (1 : ℚ) / 2 ≤ u := not_lt.mp hhalf
    have hb : Float32.binade u = -1 := by
      apply Float32.binade_unique
      · rw [abs_of_nonneg h0]
        have : (2 : ℚ) ^ (-1 : ℤ) = 1 / 2 := by norm_num
        rw [this]; exact hge
      · rw [abs_of_nonneg h0]
        norm_num
        exact h1
    have hue : Float32.ulpExponent u = -24 := by
      rw [Float32.ulpExponent, hb]; rfl
    have hpow : (2 : ℚ) ^ (-24 : ℤ) = 1 / 2 ^ 24 := by
      rw [zpow_neg, zpow_ofNat]; norm_num
    rw [Float32.round, hue, hpow] at hr
    obtain ⟨Z, hZ⟩ : ∃ Z : ℤ, Z = Float32.roundHalfEven (u / (1 / 2 ^ 24)) := ⟨_, rfl⟩
    rw [← hZ] at hr
    have hu : u = (Z : ℚ) / 2 ^ 24 := by rw [← hr]; ring
    have hZlt : (Z : ℚ) < 2 ^ 24 := by
      rw [hu] at h1
      have h2 : (0 : ℚ) < 2 ^ 24 := by positivity
      rwa [div_lt_one h2] at h1
    have hZlt' : Z < 2 ^ 24 := by exact_mod_cast hZlt
    have hZle : (Z : ℚ) ≤ 2 ^ 24 - 1 := by
      have : Z ≤ 2 ^ 24 - 1 := by omega
      exact_mod_cast this
    rw [hu]
    have h2 : (0 : ℚ) < 2 ^ 24 := by positivity
    rw [div_le_iff₀ h2]
    have : ((1 : ℚ) - 1 / 2 ^ 24) * 2 ^ 24 = 2 ^ 24 - 1 := by norm_num
    rw [this]
    exact hZle

/-- The cell `migrate` computes on the machine from a sample lies below the
range, for a range of at most `2^24` cells. -/
theorem toUnsigned_sample32_lt (u : ℚ) (n : Nat) (hu : IsSample32 u) (hn : 0 < n)
    (hn24 : n ≤ 2 ^ 24) : toUnsigned (Float32.mul u (Float32.ofNat n)) < n := by
  obtain ⟨hu0, hu1⟩ := isSample32_le u hu
  have hof : Float32.ofNat n = (n : ℚ) := Float32.round_natCast n hn24
  obtain ⟨h0, h1⟩ := Float32.round_mul_sample_lt u n hn hn24 hu0 hu1
  rw [hof, Float32.mul]
  have hf0 : 0 ≤ ⌊Float32.round (u * (n : ℚ))⌋ := Int.floor_nonneg.mpr h0
  have hf1 : ⌊Float32.round (u * (n : ℚ))⌋ < (n : Int) := by
    rw [Int.floor_lt]
    exact_mod_cast h1
  unfold toUnsigned
  omega

/-- One round of the loop of `migrate` on the machine: the candidate of the two
samples is written to item `it`; it is kept when it is not too close to another
item, and otherwise the loop goes on with the samples that follow. -/
theorem migrate32_round (nle : Vector2f → ℚ → Bool) (range : Vector2u) (it : Nat)
    (size u v : ℚ) (rest : List ℚ) (foods : List RectangleShape) (item : RectangleShape)
    (h : foods[it]? = some item) :
    migrate32 nle range it size foods (u :: v :: rest) =
      if too_close32 nle (foods.set it ⟨item.size, candidate32 range size u v⟩) it
          (Float32.mul size 4) = true
      then migrate32 nle range it size (foods.set it ⟨item.size, candidate32 range size u v⟩) rest
      else some (foods.set it ⟨item.size, candidate32 range size u v⟩, rest) := by
  simp only [migrate32, h]
  rfl

/-- The position `migrate` leaves item `it` at on the machine is the candidate
of two of the samples. -/
theorem migrate32_eq_some_candidate (nle : Vector2f → ℚ → Bool) (range : Vector2u) (it : Nat)
    (size : ℚ) :
    ∀ (n : Nat) (samples : List ℚ), samples.length ≤ n →
      ∀ (foods foods1 : List RectangleShape) (gen1 : List ℚ),
        migrate32 nle range it size foods samples = some (foods1, gen1) →
        ∃ (item : RectangleShape) (u v : ℚ), foods[it]? = some item ∧
          u ∈ samples ∧ v ∈ samples ∧
          foods1 = foods.set it ⟨item.size, candidate32 range size u v⟩ := by
  intro n
  induction n with
  | zero =>
    intro samples hlen foods foods1 gen1 h
    have : samples = [] := List.length_eq_zero.mp (by omega)
    subst this
    simp [migrate32] at h
  | succ n ih =>
    intro samples hlen foods foods1 gen1 h
    match samples, hlen, h with
    | [], _, h => simp [migrate32] at h
    | [_], _, h => simp [migrate32] at h
    | u :: v :: rest, hlen, h =>
      cases hitem : foods[it]? with
      | none => simp [migrate32, hitem] at h
      | some item =>
        have hlt : it < foods.length := (List.getElem?_eq_some_iff.mp hitem).1
        rw [migrate32_round nle range it size u v rest foods item hitem] at h
        split at h
        · obtain ⟨item1, u1, v1, hitem1, hu1, hv1, hfoods1⟩ :=
            ih rest (by simp at hlen; omega) _ foods1 gen1 h
          rw [List.getElem?_set_self hlt] at hitem1
          have hi := Option.some.inj hitem1
          subst hi
          refine ⟨item, u1, v1, rfl, List.mem_cons_of_mem _ (List.mem_cons_of_mem _ hu1),
            List.mem_cons_of_mem _ (List.mem_cons_of_mem _ hv1), ?_⟩
          rw [hfoods1, List.set_set]
        · simp only [Option.some.injEq, Prod.mk.injEq] at h
          exact ⟨item, u, v, rfl, List.mem_cons_self _ _,
            List.mem_cons_of_mem _ (List.mem_cons_self _ _), h.1.symm⟩

/-- On a screen of at most `2^24` pixels a side that holds at least one cell per
axis, the candidate the machine computes from two samples is a cell of the
lattice, inside the screen. -/
theorem candidate32_in_lattice (scr : Vector2u) (s : Nat) (hs : 0 < s) (hW : s ≤ scr.x)
    (hH : s ≤ scr.y) (hW24 : scr.x ≤ 2 ^ 24) (hH24 : scr.y ≤ 2 ^ 24) (u v : ℚ)
    (hu : IsSample32 u) (hv : IsSample32 v) :
    ∃ i j : Nat, i < scr.x / s ∧ j < scr.y / s ∧
      candidate32 ⟨scr.x / s, scr.y / s⟩ (s : ℚ) u v = ⟨(i : ℚ) * (s : ℚ), (j : ℚ) * (s : ℚ)⟩ ∧
      0 ≤ (candidate32 ⟨scr.x / s, scr.y / s⟩ (s : ℚ) u v).x ∧
      (candidate32 ⟨scr.x / s, scr.y / s⟩ (s : ℚ) u v).x < (scr.x : ℚ) ∧
      0 ≤ (candidate32 ⟨scr.x / s, scr.y / s⟩ (s : ℚ) u v).y ∧
      (candidate32 ⟨scr.x / s, scr.y / s⟩ (s : ℚ) u v).y < (scr.y : ℚ) := by
  have hrx : 0 < scr.x / s := Nat.div_pos hW hs
  have hry : 0 < scr.y / s := Nat.div_pos hH hs
  have hrx24 : scr.x / s ≤ 2 ^ 24 := le_trans (Nat.div_le_self _ _) hW24
  have hry24 : scr.y / s ≤ 2 ^ 24 := le_trans (Nat.div_le_self _ _) hH24
  have hi := toUnsigned_sample32_lt u (scr.x / s) hu hrx hrx24
  have hj := toUnsigned_sample32_lt v (scr.y / s) hv hry hry24
  -- the product of the size and a cell below the range is exact and inside the screen
  have hcell : ∀ (w i : Nat), w ≤ 2 ^ 24 → i < w / s →
      Float32.mul (s : ℚ) (Float32.ofNat i) = (i : ℚ) * (s : ℚ) ∧
      (0 : ℚ) ≤ (i : ℚ) * (s : ℚ) ∧ (i : ℚ) * (s : ℚ) < (w : ℚ) := by
    intro w i hw hlt
    have h1 : (i + 1) * s ≤ w := le_trans (Nat.mul_le_mul_right s hlt) (Nat.div_mul_le_self w s)
    have h2 : i * s < w := by
      have : i * s + s ≤ w := by rw [← Nat.succ_mul]; exact h1
      omega
    have hi24 : i ≤ 2 ^ 24 := by
      have : i < w := lt_of_lt_of_le hlt (Nat.div_le_self _ _)
      omega
    have hof : Float32.ofNat i = (i : ℚ) := Float32.round_natCast i hi24
    have hprod : Float32.round (((s * i : Nat) : ℚ)) = ((s * i : Nat) : ℚ) :=
      Float32.round_natCast (s * i) (by rw [Nat.mul_comm]; omega)
    refine ⟨?_, by positivity, ?_⟩
    · rw [hof, Float32.mul]
      push_cast at hprod
      rw [hprod]; ring
    · have : ((i * s : Nat) : ℚ) < (w : ℚ) := by exact_mod_cast h2
      push_cast at this
      exact this
  obtain ⟨cx, cx0, cx1⟩ := hcell scr.x _ hW24 hi
  obtain ⟨cy, cy0, cy1⟩ := hcell scr.y _ hH24 hj
  refine ⟨_, _, hi, hj, ?_, ?_, ?_, ?_, ?_⟩
  · simp only [candidate32, cx, cy]
  · simp only [candidate32, cx]; exact cx0
  · simp only [candidate32, cx]; exact cx1
  · simp only [candidate32, cy]; exact cy0
  · simp only [candidate32, cy]; exact cy1

/-- On such a screen the position `migrate` leaves item `it` at on the machine
is a cell of the lattice, inside the screen. -/
theorem migrate32_in_lattice (nle : Vector2f → ℚ → Bool) (scr : Vector2u) (s : Nat)
    (hs : 0 < s) (hW : s ≤ scr.x) (hH : s ≤ scr.y) (hW24 : scr.x ≤ 2 ^ 24)
    (hH24 : scr.y ≤ 2 ^ 24) (it : Nat) (foods foods1 : List RectangleShape)
    (samples gen1 : List ℚ) (hsamples : ∀ u ∈ samples, IsSample32 u)
    (h : migrate32 nle ⟨scr.x / s, scr.y / s⟩ it (s : ℚ) foods samples = some (foods1, gen1)) :
    ∃ (item : RectangleShape) (i j : Nat), foods1[it]? = some item ∧
      i < scr.x / s ∧ j < scr.y / s ∧
      item.position = ⟨(i : ℚ) * (s : ℚ), (j : ℚ) * (s : ℚ)⟩ ∧
      0 ≤ item.position.x ∧ item.position.x < (scr.x : ℚ) ∧
      0 ≤ item.position.y ∧ item.position.y < (scr.y : ℚ) := by
  obtain ⟨item, u, v, hitem, hu, hv, hfoods1⟩ :=
    migrate32_eq_some_candidate nle _ it (s : ℚ) samples.length samples (Nat.le_refl _) foods
      foods1 gen1 h
  have hlt : it < foods.length := (List.getElem?_eq_some_iff.mp hitem).1
  obtain ⟨i, j, hi, hj, hc, hx0, hx1, hy0, hy1⟩ :=
    candidate32_in_lattice scr s hs hW hH hW24 hH24 u v (hsamples u hu) (hsamples v hv)
  have hget : foods1[it]? =
      some (⟨item.size, candidate32 ⟨scr.x / s, scr.y / s⟩ (s : ℚ) u v⟩ : RectangleShape) := by
    rw [hfoods1, List.getElem?_set_self hlt]
  exact ⟨⟨item.size, candidate32 ⟨scr.x / s, scr.y / s⟩ (s : ℚ) u v⟩, i, j, hget, hi, hj, hc,
    hx0, hx1, hy0, hy1⟩

namespace FoodCollection

/-- The range of the collection the constructor returns on the machine. -/
theorem range_construct32 (nle : Vector2f → ℚ → Bool) (scr : Vector2u) (size : ℚ)
    (amount : Nat) (samples : List ℚ) (fc : FoodCollection)
    (h : construct32 nle scr size amount samples = some fc) :
    fc.range = ⟨scr.x / toUnsigned size, scr.y / toUnsigned size⟩ := by
  unfold construct32 at h
  simp only [] at h
  split at h
  · exact absurd h (by simp)
  · split at h
    · exact absurd h (by simp)
    · rw [← Option.some.inj h]

/-- What `isEaten` has done on the machine when it returns `true`: `migrate` on
the first item the head collides with. -/
theorem isEaten32_eq_some_true (lb : ℚ → FloatRect) (nle : Vector2f → ℚ → Bool)
    (fc fc1 : FoodCollection) (snake : Snake)
    (h : fc.isEaten32 lb nle snake = some (true, fc1)) :
    ∃ it, firstCollided lb snake 0 fc.foods = some it ∧
      migrate32 nle fc.range it snake.size32 fc.foods fc.gen = some (fc1.foods, fc1.gen) ∧
      fc1.range = fc.range := by
  unfold isEaten32 at h
  cases hfirst : firstCollided lb snake 0 fc.foods with
  | none => simp [hfirst] at h
  | some it =>
    simp only [hfirst] at h
    cases hmig : migrate32 nle fc.range it snake.size32 fc.foods fc.gen with
    | none => simp [hmig] at h
    | some r =>
      obtain ⟨foods1, gen1⟩ := r
      simp only [hmig, Option.some.injEq, Prod.mk.injEq, true_and] at h
      subst h
      exact ⟨it, rfl, hmig, rfl⟩

/-- The method `isEaten` never changes the range. -/
theorem range_isEaten32 (lb : ℚ → FloatRect) (nle : Vector2f → ℚ → Bool)
    (fc fc1 : FoodCollection) (snake : Snake) (b : Bool)
    (h : fc.isEaten32 lb nle snake = some (b, fc1)) : fc1.range = fc.range := by
  unfold isEaten32 at h
  cases hfirst : firstCollided lb snake 0 fc.foods with
  | none =>
    simp only [hfirst, Option.some.injEq, Prod.mk.injEq] at h
    rw [← h.2]
  | some it =>
    simp only [hfirst] at h
    cases hmig : migrate32 nle fc.range it snake.size32 fc.foods fc.gen with
    | none => simp [hmig] at h
    | some r =>
      simp only [hmig, Option.some.injEq, Prod.mk.injEq] at h
      rw [← h.2]

/-- Every collection the game holds on the machine has the range the constructor
computed. -/
theorem range_reachable32 (lb : ℚ → FloatRect) (nle : Vector2f → ℚ → Bool) (scr : Vector2u)
    (size : ℚ) (amount : Nat) (fc : FoodCollection) (h : Reachable32 lb nle scr size amount fc) :
    fc.range = ⟨scr.x / toUnsigned size, scr.y / toUnsigned size⟩ := by
  induction h with
  | constructed samples fc hc => exact range_construct32 nle scr size amount samples fc hc
  | eaten fc fc1 snake b _ _ heat ih => rw [range_isEaten32 lb nle fc fc1 snake b heat, ih]

/-- C11 fails as stated, twice.  On a 10 x 10 screen with item size 20 the
lattice `floor(W / s) x floor(H / s)` has no cell, yet the constructor places
its item: the candidate of the samples 0.5, 0.5 is `(0, 0)`, cell `i = j = 0`,
and no `i < floor(10 / 20)` exists.  And on a screen of width 2147485155 with
item size 3 the machine computes from the sample `1 - 2^-24` the coordinate
2147485184, which is neither below the width nor a multiple of 3: the range
715828385 converts to the `float` 715828416, and the products round. -/
theorem candidate_off_lattice :
    construct32 normLE ⟨10, 10⟩ 20 1 [1/2, 1/2] = some ⟨[⟨⟨20, 20⟩, ⟨0, 0⟩⟩], [], ⟨0, 0⟩⟩ ∧
    IsSample32 (1/2) ∧
    candidate32 ⟨10 / toUnsigned 20, 10 / toUnsigned 20⟩ 20 (1/2) (1/2) = ⟨0, 0⟩ ∧
    (¬ ∃ i j : Nat, i < 10 / 20 ∧ j < 10 / 20 ∧
      candidate32 ⟨10 / toUnsigned 20, 10 / toUnsigned 20⟩ 20 (1/2) (1/2) =
        ⟨(i : ℚ) * 20, (j : ℚ) * 20⟩) ∧
    IsSample32 (16777215 / 16777216) ∧
    Float32.ofNat (2147485155 / toUnsigned 3) = 715828416 ∧
    candidate32 ⟨2147485155 / toUnsigned 3, 2147485155 / toUnsigned 3⟩ 3
      (16777215 / 16777216) 0 = ⟨2147485184, 0⟩ ∧
    ((2147485155 : Nat) : ℚ) ≤ 2147485184 ∧
    ¬ ∃ i : Nat, (2147485184 : ℚ) = (i : ℚ) * 3 := by
  refine ⟨by decide!, ⟨by decide!, by norm_num, by norm_num⟩, by decide!, ?_,
    ⟨by decide!, by norm_num, by norm_num⟩, by decide!, by decide!, by norm_num, ?_⟩
  · rintro ⟨i, j, hi, -, -⟩
    omega
  · rintro ⟨i, hi⟩
    have h : (2147485184 : Nat) = i * 3 := by exact_mod_cast hi
    omega

/-- C11 as amended.  For every integer-valued item size `s > 0` and every screen
size `(W, H)` with `s <= W <= 2^24` and `s <= H <= 2^24` (so that the lattice
has a cell and every count converts to `float` exactly), the range the
constructor computes is `(floor(W / s), floor(H / s))`; for all
single-precision samples in `[0, 1)` each candidate position of `migrate` is
`(i * s, j * s)` with `i < floor(W / s)` and `j < floor(H / s)`, hence lies in
`[0, W) x [0, H)`; so does the position `migrate` leaves an item at.  On the
800 x 600 board with size 20 the item re-placed by `isEaten` lies in
`[0, 800) x [0, 600)`. -/
theorem placement_on_lattice (scr : Vector2u) (s : Nat) (hs : 0 < s) (hW : s ≤ scr.x)
    (hH : s ≤ scr.y) (hW24 : scr.x ≤ 2 ^ 24) (hH24 : scr.y ≤ 2 ^ 24) :
    (⟨scr.x / toUnsigned (s : ℚ), scr.y / toUnsigned (s : ℚ)⟩ : Vector2u) =
      ⟨scr.x / s, scr.y / s⟩ ∧
    (∀ u v : ℚ, IsSample32 u → IsSample32 v →
      ∃ i j : Nat, i < scr.x / s ∧ j < scr.y / s ∧
        candidate32 ⟨scr.x / s, scr.y / s⟩ (s : ℚ) u v =
          ⟨(i : ℚ) * (s : ℚ), (j : ℚ) * (s : ℚ)⟩ ∧
        0 ≤ (candidate32 ⟨scr.x / s, scr.y / s⟩ (s : ℚ) u v).x ∧
        (candidate32 ⟨scr.x / s, scr.y / s⟩ (s : ℚ) u v).x < (scr.x : ℚ) ∧
        0 ≤ (candidate32 ⟨scr.x / s, scr.y / s⟩ (s : ℚ) u v).y ∧
        (candidate32 ⟨scr.x / s, scr.y / s⟩ (s : ℚ) u v).y < (scr.y : ℚ)) ∧
    (∀ (nle : Vector2f → ℚ → Bool) (it : Nat) (foods foods1 : List RectangleShape)
      (samples gen1 : List ℚ), (∀ u ∈ samples, IsSample32 u) →
      migrate32 nle ⟨scr.x / s, scr.y / s⟩ it (s : ℚ) foods samples = some (foods1, gen1) →
      ∃ (item : RectangleShape) (i j : Nat), foods1[it]? = some item ∧
        i < scr.x / s ∧ j < scr.y / s ∧
        item.position = ⟨(i : ℚ) * (s : ℚ), (j : ℚ) * (s : ℚ)⟩ ∧
        0 ≤ item.position.x ∧ item.position.x < (scr.x : ℚ) ∧
        0 ≤ item.position.y ∧ item.position.y < (scr.y : ℚ)) ∧
    (∀ (lb : ℚ → FloatRect) (nle : Vector2f → ℚ → Bool) (amount : Nat)
      (fc fc1 : FoodCollection) (snake : Snake),
      Reachable32 lb nle ⟨800, 600⟩ 20 amount fc → snake.size32 = 20 →
      (∀ u ∈ fc.gen, IsSample32 u) → fc.isEaten32 lb nle snake = some (true, fc1) →
      ∃ (it : Nat) (item : RectangleShape), firstCollided lb snake 0 fc.foods = some it ∧
        fc1.foods[it]? = some item ∧
        0 ≤ item.position.x ∧ item.position.x < 800 ∧
        0 ≤ item.position.y ∧ item.position.y < 600) := by
  refine ⟨by rw [toUnsigned_natCast],
    fun u v hu hv => candidate32_in_lattice scr s hs hW hH hW24 hH24 u v hu hv,
    fun nle it foods foods1 samples gen1 hsm h =>
      migrate32_in_lattice nle scr s hs hW hH hW24 hH24 it foods foods1 samples gen1 hsm h, ?_⟩
  intro lb nle amount fc fc1 snake hr hsize hgen heat
  obtain ⟨it, hfirst, hmig, -⟩ := isEaten32_eq_some_true lb nle fc fc1 snake heat
  have hrange := range_reachable32 lb nle ⟨800, 600⟩ 20 amount fc hr
  have h20 : toUnsigned 20 = 20 := toUnsigned_natCast 20
  rw [hrange, hsize, h20] at hmig
  have hmig1 : migrate32 nle ⟨(⟨800, 600⟩ : Vector2u).x / 20, (⟨800, 600⟩ : Vector2u).y / 20⟩ it
      ((20 : Nat) : ℚ) fc.foods fc.gen = some (fc1.foods, fc1.gen) := by
    simpa using hmig
  obtain ⟨item, i, j, hitem, -, -, -, hx0, hx1, hy0, hy1⟩ :=
    migrate32_in_lattice nle ⟨800, 600⟩ 20 (by decide) (by decide) (by decide) (by norm_num)
      (by norm_num) it fc.foods fc1.foods fc.gen fc1.gen hgen hmig1
  exact ⟨it, item, hfirst, hitem, hx0, by simpa using hx1, hy0, by simpa using hy1⟩

/-- Witness for C11 as amended: the 800 x 600 board with size 20; the samples
0.5 and 0.25 give the candidate `(400, 140)`, cell `(20, 7)`. -/
theorem placement_on_lattice_witness :
    candidate32 ⟨800 / 20, 600 / 20⟩ 20 (1/2) (1/4) = ⟨400, 140⟩ ∧
    ∃ i j : Nat, i < 800 / 20 ∧ j < 600 / 20 ∧
      candidate32 ⟨800 / 20, 600 / 20⟩ ((20 : Nat) : ℚ) (1/2) (1/4) =
        ⟨(i : ℚ) * ((20 : Nat) : ℚ), (j : ℚ) * ((20 : Nat) : ℚ)⟩ ∧
      0 ≤ (candidate32 ⟨800 / 20, 600 / 20⟩ ((20 : Nat) : ℚ) (1/2) (1/4)).x ∧
      (candidate32 ⟨800 / 20, 600 / 20⟩ ((20 : Nat) : ℚ) (1/2) (1/4)).x < ((800 : Nat) : ℚ) ∧
      0 ≤ (candidate32 ⟨800 / 20, 600 / 20⟩ ((20 : Nat) : ℚ) (1/2) (1/4)).y ∧
      (candidate32 ⟨800 / 20, 600 / 20⟩ ((20 : Nat) : ℚ) (1/2) (1/4)).y < ((600 : Nat) : ℚ) :=
  ⟨by decide!,
   (placement_on_lattice ⟨800, 600⟩ 20 (by decide) (by decide) (by decide) (by norm_num)
     (by norm_num)).2.1 (1/2) (1/4)
     ⟨by decide!, by norm_num, by norm_num⟩ ⟨by decide!, by norm_num, by norm_num⟩⟩

end FoodCollection

end SnakeGame

/-! ## Paused and running ticks (C16) -/

namespace SnakeGame

namespace Game

/-- What handling the events of a frame can change: the pause flag and, through
`turn`, the last entry of the history.  The screen, the foods, the head, the
body, the length of the history and every entry but the last are kept; without
a key press other than Space the whole snake is kept. -/
theorem pollEvents_next : ∀ (events : List Event) (g g0 : Game),
    pollEvents events g = Outcome.next g0 →
    g0.scr = g.scr ∧ g0.foods = g.foods ∧ g0.snake.head = g.snake.head ∧
    g0.snake.body = g.snake.body ∧ g0.snake.dirs.length = g.snake.dirs.length ∧
    g0.snake.dirs.dropLast = g.snake.dirs.dropLast ∧
    ((∀ e ∈ events, (e = Event.other ∨ e = Event.KeyPressed Key.Space)) → g0.snake = g.snake) := by
  intro events
  induction events with
  | nil =>
    intro g g0 h
    simp only [pollEvents, Outcome.next.injEq] at h
    subst h
    exact ⟨rfl, rfl, rfl, rfl, rfl, rfl, fun _ => rfl⟩
  | cons e events ih =>
    intro g g0 h
    have hturn : ∀ code : Key, code ≠ Key.Space →
        pollEvents (Event.KeyPressed code :: events) g = Outcome.next g0 →
        g0.scr = g.scr ∧ g0.foods = g.foods ∧ g0.snake.head = g.snake.head ∧
        g0.snake.body = g.snake.body ∧ g0.snake.dirs.length = g.snake.dirs.length ∧
        g0.snake.dirs.dropLast = g.snake.dirs.dropLast ∧
        ((∀ e ∈ Event.KeyPressed code :: events, (e = Event.other ∨ e = Event.KeyPressed Key.Space)) → g0.snake = g.snake) := by
      intro code hcode h
      have hstep : pollEvents (Event.KeyPressed code :: events) g =
          match g.snake.turn (direction code) with
          | none => Outcome.outOfRange
          | some snake1 => pollEvents events { g with snake := snake1 } := by
        cases code <;> first | rfl | exact absurd rfl hcode
      rw [hstep] at h
      cases ht : g.snake.turn (direction code) with
      | none => simp [ht] at h
      | some snake1 =>
        simp only [ht] at h
        obtain ⟨k1, k2, k3, k4, k5, k6, -⟩ := ih _ g0 h
        obtain ⟨hne, rfl⟩ := Snake.turn_eq_some g.snake snake1 (direction code) ht
        have hpos : 0 < g.snake.dirs.length := List.length_pos.mpr hne
        refine ⟨k1, k2, k3, k4, ?_, ?_, ?_⟩
        · rw [k5]; simp; omega
        · rw [k6]; simp
        · intro hq
          have := hq (Event.KeyPressed code) (List.mem_cons_self _ _)
          rcases this with h1 | h1
          · exact absurd h1 (by simp)
          · simp only [Event.KeyPressed.injEq] at h1
            exact absurd h1 hcode
    cases e with
    | Closed => simp [pollEvents] at h
    | other =>
      simp only [pollEvents] at h
      obtain ⟨k1, k2, k3, k4, k5, k6, k7⟩ := ih g g0 h
      exact ⟨k1, k2, k3, k4, k5, k6, fun hq => k7 (fun e he => hq e (List.mem_cons_of_mem _ he))⟩
    | KeyPressed code =>
      by_cases hsp : code = Key.Space
      · subst hsp
        simp only [pollEvents] at h
        obtain ⟨k1, k2, k3, k4, k5, k6, k7⟩ := ih _ g0 h
        exact ⟨k1, k2, k3, k4, k5, k6,
          fun hq => k7 (fun e he => hq e (List.mem_cons_of_mem _ he))⟩
      · exact hturn code hsp h

/-- What the simulation part of a tick has done when it completes. -/
theorem simulate32_next (lb : ℚ → FloatRect) (nle : Vector2f → ℚ → Bool) (g g1 : Game)
    (h : simulate32 lb nle g = Outcome.next g1) :
    ∃ (actor : Snake) (eaten : Bool),
      (g.isPaused = true → actor = g.snake) ∧
      (g.isPaused = false → g.snake.move32 = some actor) ∧
      g.foods.isEaten32 lb nle actor = some (eaten, g1.foods) ∧
      (eaten = true → actor.extend32 = some g1.snake) ∧
      (eaten = false → g1.snake = actor) ∧
      g1.isPaused = g.isPaused ∧ g1.scr = g.scr ∧
      (g.isPaused = true → g1.snake.head = g.snake.head ∧ g1.snake.dirs = g.snake.dirs ∧
        ∀ (i : Nat) (part : RectangleShape), g.snake.body[i]? = some part →
          g1.snake.body[i]? = some part) := by
  unfold simulate32 at h
  cases hp : g.isPaused with
  | true =>
    simp only [hp, if_true] at h
    cases he : g.foods.isEaten32 lb nle g.snake with
    | none => simp [he] at h
    | some r =>
      obtain ⟨eaten, foods1⟩ := r
      cases eaten with
      | false =>
        simp only [he, Outcome.next.injEq] at h
        subst h
        exact ⟨g.snake, false, fun _ => rfl, fun hc => absurd hc (by simp), he,
          fun hc => absurd hc (by simp), fun _ => rfl, rfl, rfl,
          fun _ => ⟨rfl, rfl, fun _ _ hpart => hpart⟩⟩
      | true =>
        simp only [he] at h
        cases hx : g.snake.extend32 with
        | none => simp [hx] at h
        | some s2 =>
          simp only [hx, Outcome.next.injEq] at h
          subst h
          have hb : g.snake.body ≠ [] := by
            intro hb
            simp [Snake.extend32, hb] at hx
          have hlen : g.snake.body.length + 2 ≤ g.snake.dirs.length := by
            by_contra hc
            have hneg : ((g.snake.dirs.length : Int) - 2 - (g.snake.body.length : Int)) < 0 := by
              omega
            unfold Snake.extend32 at hx
            rw [readAt_neg _ _ hneg] at hx
            cases hl : g.snake.body.getLast? <;> simp [hl] at hx
          obtain ⟨tail, d, -, -, hext⟩ := Snake.extend32_spec g.snake hb hlen
          rw [hext] at hx
          have hs2 := Option.some.inj hx
          subst hs2
          refine ⟨g.snake, true, fun _ => rfl, fun hc => absurd hc (by simp), he,
            fun _ => hext, fun hc => absurd hc (by simp), rfl, rfl, fun _ => ?_⟩
          refine ⟨rfl, rfl, fun i part hpart => ?_⟩
          show (g.snake.body ++ _)[i]? = some part
          rw [List.getElem?_append_left (List.getElem?_eq_some_iff.mp hpart).1]
          exact hpart
  | false =>
    simp only [hp, Bool.false_eq_true, if_false] at h
    cases hm : g.snake.move32 with
    | none => simp [hm] at h
    | some s1 =>
      simp only [hm] at h
      cases he : g.foods.isEaten32 lb nle s1 with
      | none => simp [he] at h
      | some r =>
        obtain ⟨eaten, foods1⟩ := r
        cases eaten with
        | false =>
          simp only [he, Outcome.next.injEq] at h
          subst h
          exact ⟨s1, false, fun hc => absurd hc (by simp), fun _ => rfl, he,
            fun hc => absurd hc (by simp), fun _ => rfl, rfl, rfl,
            fun hc => absurd hc (by simp)⟩
        | true =>
          simp only [he] at h
          cases hx : s1.extend32 with
          | none => simp [hx] at h
          | some s2 =>
            simp only [hx, Outcome.next.injEq] at h
            subst h
            exact ⟨s1, true, fun hc => absurd hc (by simp), fun _ => rfl, he,
              fun _ => hx, fun hc => absurd hc (by simp), rfl, rfl,
              fun hc => absurd hc (by simp)⟩

/-- C16 fails as stated: a key press reaches `turn` also while the game is
paused.  On the paused game of the shipped snake (with one food away from the
head) the frame with the key A completes paused, without a `move` (head and body
are as before), but the last history entry is `LEFT` where it was `UP`. -/
theorem paused_tick_turns :
    (Snake.construct32 ⟨800, 600⟩ 20 15).dirs = List.replicate 16 UP ∧
    frame32 exactCircleBounds normLE [Event.KeyPressed Key.A]
      ⟨⟨800, 600⟩, Snake.construct32 ⟨800, 600⟩ 20 15,
        ⟨[⟨⟨20, 20⟩, ⟨0, 300⟩⟩], [], ⟨40, 30⟩⟩, true⟩ =
      Outcome.next ⟨⟨800, 600⟩,
        { Snake.construct32 ⟨800, 600⟩ 20 15 with dirs := List.replicate 15 UP ++ [LEFT] },
        ⟨[⟨⟨20, 20⟩, ⟨0, 300⟩⟩], [], ⟨40, 30⟩⟩, true⟩ ∧
    List.replicate 15 UP ++ [LEFT] ≠ (Snake.construct32 ⟨800, 600⟩ 20 15).dirs := by
  refine ⟨by decide, by decide!, by decide⟩

/-- C16 as amended.  A tick is one pass through the loop body: the events of
the frame are handled, then the simulation runs; it is paused or running by the
pause flag the events leave behind.  Handling the events changes at most the
pause flag and, through `turn`, the last entry of the history (nothing of the
snake when no key other than Space was pressed).  Whenever the tick completes
with a state `g1`: while paused no `move` was made (`isEaten` saw the snake as
the events left it; the head, every existing part, the length of the history
and every history entry but the last are as before the tick, and the whole
history is when no key other than Space was pressed), while running exactly one
`move` was made before `isEaten`; in both cases `isEaten` was evaluated,
`extend` was called exactly when it returned `true`, and the pause flag is
kept.  Conversely the tick completes whenever these calls have a result. -/
theorem tick_step_and_consumption (lb : ℚ → FloatRect) (nle : Vector2f → ℚ → Bool)
    (events : List Event) (g : Game) :
    (∀ g0, pollEvents events g = Outcome.next g0 →
      frame32 lb nle events g = simulate32 lb nle g0 ∧
      g0.scr = g.scr ∧ g0.foods = g.foods ∧ g0.snake.head = g.snake.head ∧
      g0.snake.body = g.snake.body ∧ g0.snake.dirs.length = g.snake.dirs.length ∧
      g0.snake.dirs.dropLast = g.snake.dirs.dropLast ∧
      ((∀ e ∈ events, e = Event.other ∨ e = Event.KeyPressed Key.Space) →
        g0.snake = g.snake)) ∧
    (∀ g1, frame32 lb nle events g = Outcome.next g1 →
      ∃ (g0 : Game) (actor : Snake) (eaten : Bool),
        pollEvents events g = Outcome.next g0 ∧
        (g0.isPaused = true → actor = g0.snake) ∧
        (g0.isPaused = false → g0.snake.move32 = some actor) ∧
        g.foods.isEaten32 lb nle actor = some (eaten, g1.foods) ∧
        (eaten = true → actor.extend32 = some g1.snake) ∧
        (eaten = false → g1.snake = actor) ∧
        g1.isPaused = g0.isPaused ∧ g1.scr = g.scr ∧
        (g0.isPaused = true →
          g1.snake.head = g.snake.head ∧
          g1.snake.dirs.length = g.snake.dirs.length ∧
          g1.snake.dirs.dropLast = g.snake.dirs.dropLast ∧
          ((∀ e ∈ events, e = Event.other ∨ e = Event.KeyPressed Key.Space) →
            g1.snake.dirs = g.snake.dirs) ∧
          ∀ (i : Nat) (part : RectangleShape), g.snake.body[i]? = some part →
            g1.snake.body[i]? = some part)) ∧
    (∀ (g0 : Game) (actor : Snake) (eaten : Bool) (foods1 : FoodCollection),
      pollEvents events g = Outcome.next g0 →
      (g0.isPaused = true → actor = g0.snake) →
      (g0.isPaused = false → g0.snake.move32 = some actor) →
      g.foods.isEaten32 lb nle actor = some (eaten, foods1) →
      (eaten = false →
        frame32 lb nle events g = Outcome.next { g0 with snake := actor, foods := foods1 }) ∧
      (∀ grown, eaten = true → actor.extend32 = some grown →
        frame32 lb nle events g =
          Outcome.next { g0 with snake := grown, foods := foods1 })) := by
  refine ⟨?_, ?_, ?_⟩
  · intro g0 h0
    obtain ⟨k1, k2, k3, k4, k5, k6, k7⟩ := pollEvents_next events g g0 h0
    exact ⟨by simp only [frame32, h0], k1, k2, k3, k4, k5, k6, k7⟩
  · intro g1 h
    cases h0 : pollEvents events g with
    | next g0 =>
      simp only [frame32, h0] at h
      obtain ⟨k1, k2, k3, k4, k5, k6, k7⟩ := pollEvents_next events g g0 h0
      obtain ⟨actor, eaten, a1, a2, a3, a4, a5, a6, a7, a8⟩ := simulate32_next lb nle g0 g1 h
      refine ⟨g0, actor, eaten, rfl, a1, a2, by rw [← k2]; exact a3, a4, a5, a6,
        by rw [a7, k1], ?_⟩
      intro hp
      obtain ⟨b1, b2, b3⟩ := a8 hp
      refine ⟨by rw [b1, k3], by rw [b2, k5], by rw [b2, k6], ?_, ?_⟩
      · intro hq
        rw [b2, k7 hq]
      · intro i part hpart
        rw [← k4] at hpart
        exact b3 i part hpart
    | closed => simp [frame32, h0] at h
    | over g2 => simp [frame32, h0] at h
    | outOfRange => simp [frame32, h0] at h
    | starved => simp [frame32, h0] at h
  · intro g0 actor eaten foods1 h0 hpa hru he
    obtain ⟨-, k2, -⟩ := pollEvents_next events g g0 h0
    rw [← k2] at he
    have hstep : (if g0.isPaused = true then some g0.snake else g0.snake.move32) = some actor := by
      cases hp : g0.isPaused with
      | true => simp only [if_true]; rw [hpa hp]
      | false => simp only [Bool.false_eq_true, if_false]; exact hru hp
    constructor
    · intro hf
      subst hf
      simp only [frame32, h0, simulate32, hstep, he]
    · intro grown ht hx
      subst ht
      simp only [frame32, h0, simulate32, hstep, he, hx]

/-- Witness for C16 as amended, with food eaten in both ticks.  The snake of 3
parts and size 20 has its head at `(400, 120)` and 5 history entries; the
generator will yield 0 and 0.75.  Paused, with the key A pressed and a food on
the head's cell: no `move`, the last history entry becomes `LEFT`, `isEaten`
returns `true` (the food goes to `(0, 440)`) and `extend` adds a part at
`(400, 200)`.  Running, without events and with a food on the cell above the
head: one `move` (the head goes to `(400, 100)`), `isEaten` returns `true` and
`extend` adds a part at `(400, 180)`. -/
theorem tick_step_and_consumption_witness :
    frame32 exactCircleBounds normLE [Event.KeyPressed Key.A]
      ⟨⟨800, 600⟩,
        ⟨⟨10, ⟨400, 120⟩⟩, [UP, UP, UP, UP, UP],
          [⟨⟨20, 20⟩, ⟨400, 140⟩⟩, ⟨⟨20, 20⟩, ⟨400, 160⟩⟩, ⟨⟨20, 20⟩, ⟨400, 180⟩⟩]⟩,
        ⟨[⟨⟨20, 20⟩, ⟨400, 120⟩⟩], [0, 3/4], ⟨40, 30⟩⟩, true⟩ =
      Outcome.next ⟨⟨800, 600⟩,
        ⟨⟨10, ⟨400, 120⟩⟩, [UP, UP, UP, UP, LEFT],
          [⟨⟨20, 20⟩, ⟨400, 140⟩⟩, ⟨⟨20, 20⟩, ⟨400, 160⟩⟩, ⟨⟨20, 20⟩, ⟨400, 180⟩⟩,
            ⟨⟨20, 20⟩, ⟨400, 200⟩⟩]⟩,
        ⟨[⟨⟨20, 20⟩, ⟨0, 440⟩⟩], [], ⟨40, 30⟩⟩, true⟩ ∧
    frame32 exactCircleBounds normLE []
      ⟨⟨800, 600⟩,
        ⟨⟨10, ⟨400, 120⟩⟩, [UP, UP, UP, UP, UP],
          [⟨⟨20, 20⟩, ⟨400, 140⟩⟩, ⟨⟨20, 20⟩, ⟨400, 160⟩⟩, ⟨⟨20, 20⟩, ⟨400, 180⟩⟩]⟩,
        ⟨[⟨⟨20, 20⟩, ⟨400, 100⟩⟩], [0, 3/4], ⟨40, 30⟩⟩, false⟩ =
      Outcome.next ⟨⟨800, 600⟩,
        ⟨⟨10, ⟨400, 100⟩⟩, [UP, UP, UP, UP, UP, UP],
          [⟨⟨20, 20⟩, ⟨400, 120⟩⟩, ⟨⟨20, 20⟩, ⟨400, 140⟩⟩, ⟨⟨20, 20⟩, ⟨400, 160⟩⟩,
            ⟨⟨20, 20⟩, ⟨400, 180⟩⟩]⟩,
        ⟨[⟨⟨20, 20⟩, ⟨0, 440⟩⟩], [], ⟨40, 30⟩⟩, false⟩ :=
  ⟨((tick_step_and_consumption exactCircleBounds normLE [Event.KeyPressed Key.A]
      ⟨⟨800, 600⟩,
        ⟨⟨10, ⟨400, 120⟩⟩, [UP, UP, UP, UP, UP],
          [⟨⟨20, 20⟩, ⟨400, 140⟩⟩, ⟨⟨20, 20⟩, ⟨400, 160⟩⟩, ⟨⟨20, 20⟩, ⟨400, 180⟩⟩]⟩,
        ⟨[⟨⟨20, 20⟩, ⟨400, 120⟩⟩], [0, 3/4], ⟨40, 30⟩⟩, true⟩).2.2
      ⟨⟨800, 600⟩,
        ⟨⟨10, ⟨400, 120⟩⟩, [UP, UP, UP, UP, LEFT],
          [⟨⟨20, 20⟩, ⟨400, 140⟩⟩, ⟨⟨20, 20⟩, ⟨400, 160⟩⟩, ⟨⟨20, 20⟩, ⟨400, 180⟩⟩]⟩,
        ⟨[⟨⟨20, 20⟩, ⟨400, 120⟩⟩], [0, 3/4], ⟨40, 30⟩⟩, true⟩
      ⟨⟨10, ⟨400, 120⟩⟩, [UP, UP, UP, UP, LEFT],
          [⟨⟨20, 20⟩, ⟨400, 140⟩⟩, ⟨⟨20, 20⟩, ⟨400, 160⟩⟩, ⟨⟨20, 20⟩, ⟨400, 180⟩⟩]⟩
      true ⟨[⟨⟨20, 20⟩, ⟨0, 440⟩⟩], [], ⟨40, 30⟩⟩
      rfl (fun _ => rfl) (fun hc => absurd hc (by decide)) (by decide!)).2
      ⟨⟨10, ⟨400, 120⟩⟩, [UP, UP, UP, UP, LEFT],
          [⟨⟨20, 20⟩, ⟨400, 140⟩⟩, ⟨⟨20, 20⟩, ⟨400, 160⟩⟩, ⟨⟨20, 20⟩, ⟨400, 180⟩⟩,
            ⟨⟨20, 20⟩, ⟨400, 200⟩⟩]⟩
      rfl (by decide!),
   ((tick_step_and_consumption exactCircleBounds normLE []
      ⟨⟨800, 600⟩,
        ⟨⟨10, ⟨400, 120⟩⟩, [UP, UP, UP, UP, UP],
          [⟨⟨20, 20⟩, ⟨400, 140⟩⟩, ⟨⟨20, 20⟩, ⟨400, 160⟩⟩, ⟨⟨20, 20⟩, ⟨400, 180⟩⟩]⟩,
        ⟨[⟨⟨20, 20⟩, ⟨400, 100⟩⟩], [0, 3/4], ⟨40, 30⟩⟩, false⟩).2.2
      ⟨⟨800, 600⟩,
        ⟨⟨10, ⟨400, 120⟩⟩, [UP, UP, UP, UP, UP],
          [⟨⟨20, 20⟩, ⟨400, 140⟩⟩, ⟨⟨20, 20⟩, ⟨400, 160⟩⟩, ⟨⟨20, 20⟩, ⟨400, 180⟩⟩]⟩,
        ⟨[⟨⟨20, 20⟩, ⟨400, 100⟩⟩], [0, 3/4], ⟨40, 30⟩⟩, false⟩
      ⟨⟨10, ⟨400, 100⟩⟩, [UP, UP, UP, UP, UP, UP],
          [⟨⟨20, 20⟩, ⟨400, 120⟩⟩, ⟨⟨20, 20⟩, ⟨400, 140⟩⟩, ⟨⟨20, 20⟩, ⟨400, 160⟩⟩]⟩
      true ⟨[⟨⟨20, 20⟩, ⟨0, 440⟩⟩], [], ⟨40, 30⟩⟩
      rfl (fun hc => absurd hc (by decide)) (fun _ => by decide!) (by decide!)).2
      ⟨⟨10, ⟨400, 100⟩⟩, [UP, UP, UP, UP, UP, UP],
          [⟨⟨20, 20⟩, ⟨400, 120⟩⟩, ⟨⟨20, 20⟩, ⟨400, 140⟩⟩, ⟨⟨20, 20⟩, ⟨400, 160⟩⟩,
            ⟨⟨20, 20⟩, ⟨400, 180⟩⟩]⟩
      rfl (by decide!)⟩

end Game

end SnakeGame
